import Mathlib

/-!
Verification development for the workflow-subgraph extraction engine of
`cwltool` (`src/cwltool/subgraph.py`).

The Python module manipulates a parsed pipeline document (a `Workflow`):
it builds a registry mapping node identifiers to records of upstream and
downstream identifiers plus a kind tag, walks the registry from a set of
root identifiers, repairs dangling upstream dependencies by synthesizing
fresh input records, and assembles a new document.  This file gives a
shallow embedding of that module: Python dictionaries become
insertion-ordered association lists, Python sets become duplicate-free
lists (Python set iteration order is unspecified; the embedding fixes
insertion order, which no claim depends on), in-place mutation becomes
explicit state passing, and raised exceptions become `Except.error`.
The potentially non-terminating recursion of `find_step` (it may chase
external `run` references through the loading context) is made total
with an explicit fuel argument that is consumed at every call.
-/

namespace Subgraph

/-! ### The data model of the pipeline document

Mirrors the document shapes read by `subgraph.py`: input records with an
`id` and a `type` (plus an optional `default` carried along by
`get_step`), output records with an `id` and an optional `outputSource`
that is either a single identifier or a list, and step records with an
`id`, `in` ports, `out` entries and a `run` field.  A step's `in` list
and the `inputs` list of the corresponding `WorkflowStep` tool object
(which `find_step` returns and whose ports carry a declared `type`) are
modelled as one and the same list of ports, each carrying all fields the
module reads: `id`, optional `source`, `type`, optional `default`,
optional `linkMerge`. -/

/-- A `source` (or `outputSource`) value: a single identifier string or a
list of identifier strings. -/
inductive SourceField where
  | scalar (s : String)
  | list (ss : List String)
deriving DecidableEq, Repr

/-- An input-port record of a step (`in` entry / `WorkflowStep` input). -/
structure InPort where
  id : String
  source : Option SourceField
  type : String
  defaultVal : Option String
  linkMerge : Option String
deriving DecidableEq, Repr

/-- An entry of a step's `out` list: a bare identifier or a record with
an `id` field. -/
inductive OutEntry where
  | plain (s : String)
  | record (id : String)
deriving DecidableEq, Repr

/-- The identifier of an `out` entry (`out = out["id"]` when a mapping). -/
def OutEntry.outId : OutEntry → String
  | .plain s => s
  | .record i => i

/-- A top-level input record of the pipeline document. -/
structure InputRec where
  id : String
  type : String
  defaultVal : Option String
deriving DecidableEq, Repr

/-- A top-level output record of the pipeline document. -/
structure OutputRec where
  id : String
  type : String
  outputSource : Option SourceField
deriving DecidableEq, Repr

mutual
/-- A step record.  `inPorts` models both the step's `in` list and the
`inputs` ports of its `WorkflowStep` tool object. -/
inductive Step where
  | mk (id : String) (inPorts : List InPort) (outs : List OutEntry) (run : Run)

/-- The `run` field of a step: a live nested `Workflow` object, an
embedded map whose `class` is `Workflow` (carrying the identifier the
constructed tool would have), an embedded non-`Workflow` process, or a
string reference resolved through the loading context. -/
inductive Run where
  | workflowObj (steps : List Step)
  | embeddedWf (wid : String) (steps : List Step)
  | embeddedOther
  | externalRef (ref : String)
end

def Step.id : Step → String
  | .mk i _ _ _ => i

def Step.inPorts : Step → List InPort
  | .mk _ ps _ _ => ps

def Step.outs : Step → List OutEntry
  | .mk _ _ os _ => os

def Step.run : Step → Run
  | .mk _ _ _ r => r

/-- A pipeline document.  `cls`, `docId` and `cwlVersion` are the
top-level fields the module reads by name; `others` stands for the
remaining top-level fields, which are only ever copied verbatim. -/
structure WfDoc where
  cls : String
  docId : String
  cwlVersion : Option String
  inputs : List InputRec
  outputs : List OutputRec
  steps : List Step
  others : List (String × String)

/-- A process loaded from an external reference: a `Workflow` with its
identifier and steps, or something that is not a `Workflow`. -/
inductive Loaded where
  | wf (wid : String) (steps : List Step)
  | notWf

/-- The loading-context collaborator, reduced to what `find_step` uses:
resolution of an external `run` reference to a loaded process. -/
structure LC where
  idx : List (String × Loaded)

def LC.load (lc : LC) (ref : String) : Option Loaded :=
  (lc.idx.find? (fun p => p.1 = ref)).map (fun p => p.2)

/-! ### The node registry (`_Node`, `_declare_node`)

Python's `dict[str, _Node]` becomes an insertion-ordered association
list with lookup `mapFind` and update-or-append `mapSet`. -/

/-- The `_Node` named tuple: upstream ids, downstream ids, node kind. -/
structure NodeRec where
  up : List String
  down : List String
  type : Option String
deriving DecidableEq, Repr

abbrev Nodes := List (String × NodeRec)

def UP : String := "up"
def DOWN : String := "down"
def INPUT : String := "input"
def OUTPUT : String := "output"
def STEP : String := "step"

def mapFind (ns : Nodes) (k : String) : Option NodeRec :=
  match ns with
  | [] => none
  | p :: rest => if p.1 = k then some p.2 else mapFind rest k

def mapSet (ns : Nodes) (k : String) (v : NodeRec) : Nodes :=
  match ns with
  | [] => [(k, v)]
  | p :: rest => if p.1 = k then (k, v) :: rest else p :: mapSet rest k v

/-- `_declare_node`: record `nodeid`; if already present with an unset
type, set the type; otherwise leave the record alone. -/
def declareNode (ns : Nodes) (nodeid : String) (tp : Option String) : Nodes :=
  match mapFind ns nodeid with
  | some n => if n.type = none then mapSet ns nodeid ⟨n.up, n.down, tp⟩ else ns
  | none => mapSet ns nodeid ⟨[], [], tp⟩

/-- Append `v` to the upstream list of the node at `k` (Python
`nodes[k].up.append(v)`; the key is always present at the call sites). -/
def pushUp (ns : Nodes) (k : String) (v : String) : Nodes :=
  match mapFind ns k with
  | some n => mapSet ns k ⟨n.up ++ [v], n.down, n.type⟩
  | none => ns

/-- Append `v` to the downstream list of the node at `k`. -/
def pushDown (ns : Nodes) (k : String) (v : String) : Nodes :=
  match mapFind ns k with
  | some n => mapSet ns k ⟨n.up, n.down ++ [v], n.type⟩
  | none => ns

/-! Lookup lemmas for the registry operations. -/

theorem mapFind_mapSet (ns : Nodes) (k x : String) (v : NodeRec) :
    mapFind (mapSet ns k v) x = if x = k then some v else mapFind ns x := by
  induction ns with
  | nil =>
    by_cases h : x = k
    · subst h; simp [mapSet, mapFind]
    · have hk : ¬ (k = x) := fun hh => h hh.symm
      simp [mapSet, mapFind, hk, h]
  | cons p rest ih =>
    by_cases hp : p.1 = k
    · by_cases h : x = k
      · subst h; simp [mapSet, hp, mapFind]
      · have hk : ¬ (k = x) := fun hh => h hh.symm
        have hpx : ¬ (p.1 = x) := by rw [hp]; exact hk
        simp [mapSet, hp, mapFind, hk, h, hpx]
    · by_cases hx : p.1 = x
      · have hxk : ¬ (x = k) := fun hh => hp (hx.trans hh)
        simp [mapSet, hp, mapFind, hx, hxk]
      · simp [mapSet, hp, mapFind, hx, ih]

theorem mapFind_declareNode (ns : Nodes) (k x : String) (tp : Option String) :
    mapFind (declareNode ns k tp) x =
      if x = k then
        match mapFind ns k with
        | some n => some ⟨n.up, n.down, if n.type = none then tp else n.type⟩
        | none => some ⟨[], [], tp⟩
      else mapFind ns x := by
  unfold declareNode
  cases hk : mapFind ns k with
  | some n =>
    by_cases ht : n.type = none
    · by_cases h : x = k
      · simp [ht, mapFind_mapSet, h]
      · simp [ht, mapFind_mapSet, h]
    · by_cases h : x = k
      · subst h; simp [ht, hk]
      · simp [ht, h]
  | none =>
    by_cases h : x = k
    · simp [mapFind_mapSet, h]
    · simp [mapFind_mapSet, h]

theorem mapFind_pushUp (ns : Nodes) (k x v : String) :
    mapFind (pushUp ns k v) x =
      if x = k then (mapFind ns k).map (fun n => ⟨n.up ++ [v], n.down, n.type⟩)
      else mapFind ns x := by
  unfold pushUp
  cases hk : mapFind ns k with
  | some n =>
    by_cases h : x = k
    · simp [mapFind_mapSet, h]
    · simp [mapFind_mapSet, h]
  | none =>
    by_cases h : x = k
    · subst h; simp [hk]
    · simp [h]

theorem mapFind_pushDown (ns : Nodes) (k x v : String) :
    mapFind (pushDown ns k v) x =
      if x = k then (mapFind ns k).map (fun n => ⟨n.up, n.down ++ [v], n.type⟩)
      else mapFind ns x := by
  unfold pushDown
  cases hk : mapFind ns k with
  | some n =>
    by_cases h : x = k
    · simp [mapFind_mapSet, h]
    · simp [mapFind_mapSet, h]
  | none =>
    by_cases h : x = k
    · subst h; simp [hk]
    · simp [h]

/-! ### Claim C8: declarations never downgrade a set kind -/

/-- A sequence of `_declare_node` calls applied to a registry. -/
def applyDecls (ds : List (String × Option String)) (ns : Nodes) : Nodes :=
  match ds with
  | [] => ns
  | d :: rest => applyDecls rest (declareNode ns d.1 d.2)

/-- Claim C8: for every sequence of node declarations applied to one
registry, a node already present keeps its upstream and downstream edge
lists unchanged, and once its kind is set to some concrete kind, no
later declaration changes that kind; a declaration can only fill in an
unset kind. -/
theorem declare_node_kind_stable (ds : List (String × Option String))
    (ns : Nodes) (nid : String) (n : NodeRec)
    (h : mapFind ns nid = some n) :
    ∃ n', mapFind (applyDecls ds ns) nid = some n' ∧
      n'.up = n.up ∧ n'.down = n.down ∧
      (∀ k, n.type = some k → n'.type = some k) := by
  induction ds generalizing ns n with
  | nil =>
    exact ⟨n, h, rfl, rfl, fun _ hk => hk⟩
  | cons d rest ih =>
    obtain ⟨dk, dt⟩ := d
    simp only [applyDecls]
    by_cases hd : nid = dk
    · subst hd
      have hstep : mapFind (declareNode ns nid dt) nid =
          some ⟨n.up, n.down, if n.type = none then dt else n.type⟩ := by
        rw [mapFind_declareNode, if_pos rfl, h]
      obtain ⟨m', hm', hup, hdown, htp⟩ :=
        ih (declareNode ns nid dt) ⟨n.up, n.down, if n.type = none then dt else n.type⟩ hstep
      refine ⟨m', hm', by simpa using hup, by simpa using hdown, ?_⟩
      intro k hk
      apply htp
      simp [hk]
    · have hstep : mapFind (declareNode ns dk dt) nid = some n := by
        rw [mapFind_declareNode, if_neg hd, h]
      exact ih (declareNode ns dk dt) n hstep

/-- Witness for C8 at a concrete registry and declaration sequence. -/
theorem declare_node_kind_stable_witness :
    ∃ n', mapFind (applyDecls [("a", some "step"), ("a", none), ("b", some "input")]
        [("a", NodeRec.mk ["u"] ["d"] (some "input"))]) "a" = some n' ∧
      n'.up = ["u"] ∧ n'.down = ["d"] ∧
      (∀ k, some "input" = some k → n'.type = some k) := by
  have h := declare_node_kind_stable
    [("a", some "step"), ("a", none), ("b", some "input")]
    [("a", NodeRec.mk ["u"] ["d"] (some "input"))] "a"
    (NodeRec.mk ["u"] ["d"] (some "input")) (by decide)
  simpa using h

/-! ### `find_step`

Linear scan over the step list: a step whose identifier equals the
target is returned at once; a step whose identifier is a prefix of the
target (Python `stepid.startswith(st_tool_id)`, with no separator
requirement) triggers a recursive descent into its `run` value — into
the live object's steps with the bare suffix, or into an embedded or
externally loaded `Workflow` with the suffix re-based onto that
workflow's own identifier (joined with `/` when the identifier already
contains `#`, else with `#`).  A failed descent falls through to the
next step of the list.  The fuel argument, consumed at every recursive
call, totalizes the (possibly divergent) Python recursion. -/

/-- Python `len` on a string (a character count). -/
def strlen (s : String) : Nat := s.data.length

/-- Python string slicing `s[n:]` (by characters). -/
def strDrop (s : String) (n : Nat) : String := ⟨s.data.drop n⟩

/-- Python `s.startswith(p)`. -/
def strStarts (p s : String) : Bool := p.data.isPrefixOf s.data

/-- Python `c in s` for a single character `c`. -/
def strHasChar (s : String) (c : Char) : Bool := s.data.contains c

/-- Re-base a suffix identifier onto a nested workflow's identifier. -/
def adjustId (wid suffix : String) : String :=
  wid ++ (if strHasChar wid '#' then "/" else "#") ++ suffix

def findStep : Nat → List Step → String → LC → Option Step
  | 0, _, _, _ => none
  | _ + 1, [], _, _ => none
  | fuel + 1, st :: rest, stepid, lc =>
    if st.id = stepid then some st
    else
      let viaRun : Option Step :=
        if strStarts st.id stepid then
          match st.run with
          | Run.workflowObj ws => findStep fuel ws (strDrop stepid (strlen st.id + 1)) lc
          | Run.embeddedWf wid ws =>
              findStep fuel ws (adjustId wid (strDrop stepid (strlen st.id + 1))) lc
          | Run.embeddedOther => none
          | Run.externalRef r =>
              match lc.load r with
              | some (Loaded.wf wid ws) =>
                  findStep fuel ws (adjustId wid (strDrop stepid (strlen st.id + 1))) lc
              | _ => none
        else none
      match viaRun with
      | some res => some res
      | none => findStep fuel rest stepid lc

/-! ### Claim C4: the search policy of `find_step` -/

def c4Nested : Step := Step.mk "x" [] [] Run.embeddedOther

def c4Outer : Step := Step.mk "W#a" [] [] (Run.workflowObj [c4Nested])

def c4Exact : Step := Step.mk "W#a/x" [] [] Run.embeddedOther

def c4Steps : List Step := [c4Outer, c4Exact]

def c4NestedY : Step := Step.mk "y" [] [] Run.embeddedOther

def c4OuterY : Step := Step.mk "W#a" [] [] (Run.workflowObj [c4NestedY])

def c4LC : LC := ⟨[]⟩

/-- Claim C4 counterexample: `find_step` does not prefer an exact match
over a prefix descent, and it descends without requiring a separator.
With steps `[W#a (containing nested x), W#a/x]` and target `W#a/x`, the
list contains a step whose identifier exactly equals the target, yet
`find_step` returns the nested step `x` found by descending through the
earlier prefix step.  With the single step `W#a` (containing nested `y`)
and target `W#aZy`, the target continues past `W#a` with `Z`, which is
not a separator, yet `find_step` still descends and returns `y`. -/
theorem find_step_cex :
    (findStep 5 c4Steps "W#a/x" c4LC).map Step.id = some "x"
    ∧ c4Steps.any (fun st => st.id == "W#a/x") = true
    ∧ (findStep 5 [c4OuterY] "W#aZy" c4LC).map Step.id = some "y" := by
  refine ⟨?_, ?_, ?_⟩ <;> decide

/-- Claim C4 amended: `find_step` scans the step list in order and an
earlier step whose identifier is a strict prefix of the target (no
separator required) can preempt a later exact match by returning a
nested result; but when no step's identifier is a proper prefix of the
target, `find_step` returns exactly the first step of the list whose
identifier equals the target (or nothing when there is none). -/
theorem find_step_first_exact (fuel : Nat) (steps : List Step) (sid : String)
    (lc : LC) (hfuel : steps.length < fuel)
    (hnp : ∀ st ∈ steps, strStarts st.id sid = true → st.id = sid) :
    findStep fuel steps sid lc = steps.find? (fun st => st.id == sid) := by
  induction steps generalizing fuel with
  | nil =>
    match fuel, hfuel with
    | f + 1, _ => rfl
  | cons st rest ih =>
    match fuel, hfuel with
    | f + 1, hfuel =>
      have hf : rest.length < f := by
        have := hfuel
        simp [List.length_cons] at this
        omega
      by_cases h : st.id = sid
      · simp [findStep, h, List.find?]
      · have hpre : ¬ (strStarts st.id sid = true) := fun hp =>
          h (hnp st (List.mem_cons_self st rest) hp)
        have hrest : findStep f rest sid lc = rest.find? (fun s => s.id == sid) :=
          ih f hf (fun s hs hp => hnp s (List.mem_cons_of_mem st hs) hp)
        have hb : (st.id == sid) = false := by simp [h]
        simp [findStep, h, List.find?, hpre, hrest, hb]

/-- Witness for the amended C4 at a concrete step list with no proper
prefix among the step identifiers. -/
theorem find_step_first_exact_witness :
    findStep 3 [c4Exact] "W#a/x" c4LC
      = [c4Exact].find? (fun st => st.id == "W#a/x") :=
  find_step_first_exact 3 [c4Exact] "W#a/x" c4LC (by decide) (by decide)

/-! ### Character-level string splitting

Python `s.split(sep)` and `s.rsplit(sep)` for a single-character
separator, modelled over the character list of the string so that the
kernel can evaluate them. -/

def splitOnChar (c : Char) : List Char → List (List Char)
  | [] => [[]]
  | x :: xs =>
    if x = c then [] :: splitOnChar c xs
    else
      match splitOnChar c xs with
      | [] => [[x]]
      | h :: t => (x :: h) :: t

def strSplit (s : String) (c : Char) : List String :=
  (splitOnChar c s.data).map (fun l => ⟨l⟩)

/-- Python `s.split(c)[-1]` (`splitOnChar` never returns `[]`, so the
fallback value is irrelevant). -/
def lastPartChar (c : Char) (s : String) : String :=
  (strSplit s c).getLastD s

/-- The trailing path segment of a port identifier:
Python `s.split("#")[-1].split("/")[-1]`. -/
def trailingSeg (s : String) : String :=
  lastPartChar '/' (lastPartChar '#' s)

/-! ### `get_step`: single-step extraction -/

/-- `get_step`: extract one step as a standalone one-step pipeline.
`metaVer` models `tool.metadata["cwlVersion"]`.  Python unpacks
`step["id"].rsplit("#")` into exactly two names, which raises unless the
identifier contains exactly one `#`. -/
def getStep (lc : LC) (fuel : Nat) (wf : WfDoc) (metaVer : String)
    (stepId : String) : Except String WfDoc :=
  match findStep fuel wf.steps stepId lc with
  | none => Except.error ("Step " ++ stepId ++ " was not found")
  | some st =>
    match strSplit st.id '#' with
    | [newId, stepName] =>
      Except.ok
        { cls := wf.cls
          docId := newId
          cwlVersion := some (wf.cwlVersion.getD metaVer)
          inputs := st.inPorts.map (fun p =>
            InputRec.mk ("#" ++ trailingSeg p.id) "Any" p.defaultVal)
          outputs := st.outs.map (fun o =>
            OutputRec.mk (trailingSeg o.outId) "Any"
              (some (SourceField.scalar
                (newId ++ "#" ++ stepName ++ "/" ++ trailingSeg o.outId))))
          steps := [Step.mk st.id
            (st.inPorts.map (fun p =>
              { p with source := some (SourceField.scalar ("#" ++ trailingSeg p.id)),
                       linkMerge := none }))
            st.outs st.run]
          others := wf.others }
    | _ => Except.error ("cannot unpack rsplit of " ++ st.id)

/-! ### Claim C6: shape of the single-step extraction -/

def c6Step : Step :=
  Step.mk "W#s1" [InPort.mk "W#s1/p" none "File" (some "d") none]
    [OutEntry.plain "W#s1/o"] Run.embeddedOther

def c6Wf : WfDoc :=
  { cls := "Workflow", docId := "W", cwlVersion := some "v1.2",
    inputs := [], outputs := [], steps := [c6Step], others := [] }

/-- Claim C6 counterexample: the claim promises one synthesized
top-level input per sourced input port, but `get_step` synthesizes one
input for every `in` port, sourced or not.  The concrete step `W#s1`
has a single port with no `source` (default only), so the claim
predicts zero synthesized inputs, yet the extracted document has one. -/
theorem get_step_cex :
    ((getStep c4LC 3 c6Wf "v1.0" "W#s1").toOption.map (fun d => d.inputs.length)
        = some 1)
    ∧ (c6Step.inPorts.filter (fun p => p.source.isSome)).length = 0 := by
  refine ⟨?_, ?_⟩ <;> decide

/-- Claim C6 amended: for every located step `S` whose identifier splits
at its unique fragment separator into a parent identifier and a local
step name, `get_step` returns a one-step document whose `steps` contains
exactly `S`, with one synthesized top-level input per input port of `S`
(sourced or not, each of unconstrained type `Any`, named `#` followed by
the trailing path segment of the port identifier, carrying over the
port's default), the `source` of every port of `S` rewritten to the
matching new local input identifier (created even for previously
unsourced ports), every `linkMerge` removed, and one top-level output
per output port of `S` whose `outputSource` equals
`<parent-id>#<step-name>/<local-name>`; the returned document's own
identifier is the parent identifier. -/
theorem get_step_spec (lc : LC) (fuel : Nat) (wf : WfDoc) (metaVer : String)
    (stepId : String) (st : Step) (newId stepName : String)
    (hfind : findStep fuel wf.steps stepId lc = some st)
    (hsplit : strSplit st.id '#' = [newId, stepName]) :
    ∃ doc, getStep lc fuel wf metaVer stepId = Except.ok doc
      ∧ doc.steps = [Step.mk st.id
          (st.inPorts.map (fun p =>
            { p with source := some (SourceField.scalar ("#" ++ trailingSeg p.id)),
                     linkMerge := none }))
          st.outs st.run]
      ∧ doc.inputs = st.inPorts.map (fun p =>
          InputRec.mk ("#" ++ trailingSeg p.id) "Any" p.defaultVal)
      ∧ doc.outputs = st.outs.map (fun o =>
          OutputRec.mk (trailingSeg o.outId) "Any"
            (some (SourceField.scalar
              (newId ++ "#" ++ stepName ++ "/" ++ trailingSeg o.outId))))
      ∧ doc.docId = newId := by
  simp only [getStep, hfind, hsplit]
  exact ⟨_, rfl, rfl, rfl, rfl, rfl⟩

/-- Witness for the amended C6 at the concrete one-port step `W#s1`. -/
theorem get_step_spec_witness :
    (findStep 3 c6Wf.steps "W#s1" c4LC = some c6Step
      ∧ strSplit c6Step.id '#' = ["W", "s1"])
    ∧ ∃ doc, getStep c4LC 3 c6Wf "v1.0" "W#s1" = Except.ok doc
      ∧ doc.steps = [Step.mk c6Step.id
          (c6Step.inPorts.map (fun p =>
            { p with source := some (SourceField.scalar ("#" ++ trailingSeg p.id)),
                     linkMerge := none }))
          c6Step.outs c6Step.run]
      ∧ doc.inputs = c6Step.inPorts.map (fun p =>
          InputRec.mk ("#" ++ trailingSeg p.id) "Any" p.defaultVal)
      ∧ doc.outputs = c6Step.outs.map (fun o =>
          OutputRec.mk (trailingSeg o.outId) "Any"
            (some (SourceField.scalar
              ("W" ++ "#" ++ "s1" ++ "/" ++ trailingSeg o.outId))))
      ∧ doc.docId = "W" :=
  ⟨⟨rfl, by decide⟩,
    get_step_spec c4LC 3 c6Wf "v1.0" "W#s1" c6Step "W" "s1" rfl (by decide)⟩

/-! ### The graph builder (`get_subgraph` lines 117-149)

`aslist` returns a list unchanged and wraps anything else in a
singleton.  A missing `outputSource` contributes no edges (the source's
`out.get("outputSource", CommentedSeq)` default denotes an empty
sequence). -/

def asListSF : SourceField → List String
  | .scalar s => [s]
  | .list l => l

def asListOS : Option SourceField → List String
  | none => []
  | some sf => asListSF sf

/-- The flattened `source` identifiers of a step's `in` ports, in port
order (ports without a `source` are skipped). -/
def Step.srcIds (st : Step) : List String :=
  st.inPorts.bind (fun p => match p.source with
    | none => []
    | some sf => asListSF sf)

/-- The identifiers of a step's `out` entries. -/
def Step.outIds (st : Step) : List String := st.outs.map OutEntry.outId

/-- One `outputSource`/`source` edge: the source `s` is upstream of the
record `vid`, `s` is declared, and `vid` is downstream of `s`. -/
def srcEdge (vid s : String) (ns : Nodes) : Nodes :=
  pushDown (declareNode (pushUp ns vid s) s none) s vid

def declSrcEdges (vid : String) (srcs : List String) (ns : Nodes) : Nodes :=
  match srcs with
  | [] => ns
  | s :: rest => declSrcEdges vid rest (srcEdge vid s ns)

/-- One step `out` edge: the port `o` is downstream of the step `sid`,
`o` is declared, and `sid` is upstream of `o`. -/
def outEdge (sid o : String) (ns : Nodes) : Nodes :=
  pushUp (declareNode (pushDown ns sid o) o none) o sid

def declOutEdges (sid : String) (os : List String) (ns : Nodes) : Nodes :=
  match os with
  | [] => ns
  | o :: rest => declOutEdges sid rest (outEdge sid o ns)

def declInputs (is : List InputRec) (ns : Nodes) : Nodes :=
  match is with
  | [] => ns
  | i :: rest => declInputs rest (declareNode ns i.id (some INPUT))

def declOutputs (os : List OutputRec) (ns : Nodes) : Nodes :=
  match os with
  | [] => ns
  | o :: rest =>
    declOutputs rest
      (declSrcEdges o.id (asListOS o.outputSource) (declareNode ns o.id (some OUTPUT)))

def declSteps (sts : List Step) (ns : Nodes) : Nodes :=
  match sts with
  | [] => ns
  | st :: rest =>
    declSteps rest
      (declOutEdges st.id st.outIds
        (declSrcEdges st.id st.srcIds (declareNode ns st.id (some STEP))))

def buildNodes (wf : WfDoc) : Nodes :=
  declSteps wf.steps (declOutputs wf.outputs (declInputs wf.inputs []))

/-! ### Closed-form characterization of the built registry -/

def WfDoc.inputIds (wf : WfDoc) : List String := wf.inputs.map InputRec.id

def WfDoc.outputIds (wf : WfDoc) : List String := wf.outputs.map OutputRec.id

def WfDoc.stepIds (wf : WfDoc) : List String := wf.steps.map Step.id

def WfDoc.osRefs (wf : WfDoc) : List String :=
  wf.outputs.bind (fun o => asListOS o.outputSource)

def WfDoc.stepSrcRefs (wf : WfDoc) : List String := wf.steps.bind Step.srcIds

def WfDoc.stepOutIds (wf : WfDoc) : List String := wf.steps.bind Step.outIds

/-- All identifiers ever declared by the graph builder. -/
def declaredIds (wf : WfDoc) : List String :=
  wf.inputIds ++ wf.outputIds ++ wf.osRefs ++ wf.stepIds ++ wf.stepSrcRefs
    ++ wf.stepOutIds

/-- The node kind the builder assigns: declared inputs are processed
first and win, then output records, then step records; identifiers that
appear only as edge endpoints stay unclassified. -/
def kindSpec (wf : WfDoc) (x : String) : Option String :=
  if x ∈ wf.inputIds then some INPUT
  else if x ∈ wf.outputIds then some OUTPUT
  else if x ∈ wf.stepIds then some STEP
  else none

/-- The upstream list the builder accumulates at `x`. -/
def upSpec (wf : WfDoc) (x : String) : List String :=
  (wf.outputs.filter (fun o => o.id = x)).bind (fun o => asListOS o.outputSource)
  ++ wf.steps.bind (fun st =>
       (if st.id = x then st.srcIds else [])
       ++ (st.outIds.filter (fun oid => oid = x)).map (fun _ => st.id))

/-- The downstream list the builder accumulates at `x`. -/
def downSpec (wf : WfDoc) (x : String) : List String :=
  wf.outputs.bind (fun o =>
    ((asListOS o.outputSource).filter (fun s => s = x)).map (fun _ => o.id))
  ++ wf.steps.bind (fun st =>
       ((st.srcIds.filter (fun s => s = x)).map (fun _ => st.id))
       ++ (if x = st.id then st.outIds else []))

theorem srcEdge_find (ns : Nodes) (vid s x : String) :
    mapFind (srcEdge vid s ns) x =
      match mapFind ns x with
      | some n => some ⟨n.up ++ (if x = vid then [s] else []),
                        n.down ++ (if s = x then [vid] else []), n.type⟩
      | none => if x = s then some ⟨[], [vid], none⟩ else none := by
  unfold srcEdge
  simp only [mapFind_pushDown, mapFind_declareNode, mapFind_pushUp]
  by_cases hxs : x = s
  · subst hxs
    by_cases hxv : x = vid
    · subst hxv
      cases hm : mapFind ns x <;> simp [hm] <;> try (intro h; exact h.symm)
    · have hvx : ¬ (vid = x) := fun h => hxv h.symm
      cases hm : mapFind ns x <;> simp [hm, hxv, hvx] <;> try (intro h; exact h.symm)
  · by_cases hxv : x = vid
    · subst hxv
      have hsx : ¬ (s = x) := fun h => hxs h.symm
      cases hm : mapFind ns x <;> simp [hm, hxs, hsx]
    · have hsx : ¬ (s = x) := fun h => hxs h.symm
      cases hm : mapFind ns x <;> simp [hm, hxs, hsx, hxv]

theorem outEdge_find (ns : Nodes) (sid o x : String) :
    mapFind (outEdge sid o ns) x =
      match mapFind ns x with
      | some n => some ⟨n.up ++ (if o = x then [sid] else []),
                        n.down ++ (if x = sid then [o] else []), n.type⟩
      | none => if x = o then some ⟨[sid], [], none⟩ else none := by
  unfold outEdge
  simp only [mapFind_pushUp, mapFind_declareNode, mapFind_pushDown]
  by_cases hxo : x = o
  · subst hxo
    by_cases hxs : x = sid
    · subst hxs
      cases hm : mapFind ns x <;> simp [hm] <;> try (intro h; exact h.symm)
    · have hsx : ¬ (sid = x) := fun h => hxs h.symm
      cases hm : mapFind ns x <;> simp [hm, hxs, hsx] <;> try (intro h; exact h.symm)
  · by_cases hxs : x = sid
    · subst hxs
      have hox : ¬ (o = x) := fun h => hxo h.symm
      cases hm : mapFind ns x <;> simp [hm, hxo, hox]
    · have hox : ¬ (o = x) := fun h => hxo h.symm
      cases hm : mapFind ns x <;> simp [hm, hxo, hox, hxs]

theorem declSrcEdges_find (vid : String) (srcs : List String) (ns : Nodes)
    (x : String) (hvid : mapFind ns vid ≠ none) :
    mapFind (declSrcEdges vid srcs ns) x =
      match mapFind ns x with
      | some n => some ⟨n.up ++ (if x = vid then srcs else []),
                        n.down ++ (srcs.filter (fun s => s = x)).map (fun _ => vid),
                        n.type⟩
      | none =>
        if x ∈ srcs then
          some ⟨[], (srcs.filter (fun s => s = x)).map (fun _ => vid), none⟩
        else none := by
  induction srcs generalizing ns with
  | nil =>
    cases hm : mapFind ns x <;> simp [declSrcEdges, hm]
  | cons s rest ih =>
    have hvid' : mapFind (srcEdge vid s ns) vid ≠ none := by
      rw [srcEdge_find]
      cases hm : mapFind ns vid
      · exact absurd hm hvid
      · simp
    rw [show declSrcEdges vid (s :: rest) ns
          = declSrcEdges vid rest (srcEdge vid s ns) from rfl,
        ih (srcEdge vid s ns) hvid', srcEdge_find]
    cases hm : mapFind ns x with
    | some n =>
      by_cases hxv : x = vid
      · by_cases hsx : s = x
        · have hsv : s = vid := hsx.trans hxv
          simp [List.filter_cons, hxv, hsx, hsv, List.append_assoc]
        · have hsv : ¬ (s = vid) := fun h => hsx (h.trans hxv.symm)
          simp [List.filter_cons, hxv, hsx, hsv, List.append_assoc]
      · by_cases hsx : s = x
        · simp [List.filter_cons, hxv, hsx, List.append_assoc]
        · simp [List.filter_cons, hxv, hsx, List.append_assoc]
    | none =>
      by_cases hxs : x = s
      · subst hxs
        have hxv : ¬ (x = vid) := by
          intro h; rw [h] at hm; exact hvid hm
        simp [List.filter_cons, hxv]
      · have hsx : ¬ (s = x) := fun h => hxs h.symm
        simp [List.filter_cons, hxs, hsx]

theorem declOutEdges_find (sid : String) (os : List String) (ns : Nodes)
    (x : String) (hsid : mapFind ns sid ≠ none) :
    mapFind (declOutEdges sid os ns) x =
      match mapFind ns x with
      | some n => some ⟨n.up ++ (os.filter (fun o => o = x)).map (fun _ => sid),
                        n.down ++ (if x = sid then os else []),
                        n.type⟩
      | none =>
        if x ∈ os then
          some ⟨(os.filter (fun o => o = x)).map (fun _ => sid), [], none⟩
        else none := by
  induction os generalizing ns with
  | nil =>
    cases hm : mapFind ns x <;> simp [declOutEdges, hm]
  | cons o rest ih =>
    have hsid' : mapFind (outEdge sid o ns) sid ≠ none := by
      rw [outEdge_find]
      cases hm : mapFind ns sid
      · exact absurd hm hsid
      · simp
    rw [show declOutEdges sid (o :: rest) ns
          = declOutEdges sid rest (outEdge sid o ns) from rfl,
        ih (outEdge sid o ns) hsid', outEdge_find]
    cases hm : mapFind ns x with
    | some n =>
      by_cases hxs : x = sid
      · by_cases hox : o = x
        · have hos : o = sid := hox.trans hxs
          simp [List.filter_cons, hxs, hox, hos, List.append_assoc]
        · have hos : ¬ (o = sid) := fun h => hox (h.trans hxs.symm)
          simp [List.filter_cons, hxs, hox, hos, List.append_assoc]
      · by_cases hox : o = x
        · simp [List.filter_cons, hxs, hox, List.append_assoc]
        · simp [List.filter_cons, hxs, hox, List.append_assoc]
    | none =>
      by_cases hxo : x = o
      · subst hxo
        have hxs : ¬ (x = sid) := by
          intro h; rw [h] at hm; exact hsid hm
        simp [List.filter_cons, hxs]
      · have hox : ¬ (o = x) := fun h => hxo h.symm
        simp [List.filter_cons, hxo, hox]

theorem declInputs_find (is : List InputRec) (ns : Nodes) (x : String) :
    mapFind (declInputs is ns) x =
      if x ∈ is.map InputRec.id then
        match mapFind ns x with
        | some n => some ⟨n.up, n.down, if n.type = none then some INPUT else n.type⟩
        | none => some ⟨[], [], some INPUT⟩
      else mapFind ns x := by
  induction is generalizing ns with
  | nil => simp [declInputs]
  | cons i rest ih =>
    rw [show declInputs (i :: rest) ns = declInputs rest (declareNode ns i.id (some INPUT))
          from rfl, ih, mapFind_declareNode]
    by_cases hxi : x = i.id
    · subst hxi
      by_cases hxr : i.id ∈ rest.map InputRec.id
      · cases hm : mapFind ns i.id with
        | some n =>
          by_cases ht : n.type = none <;> simp [hxr, hm, ht]
        | none => simp [hxr, hm]
      · cases hm : mapFind ns i.id with
        | some n =>
          by_cases ht : n.type = none <;> simp [hxr, hm, ht]
        | none => simp [hxr, hm]
    · by_cases hxr : x ∈ rest.map InputRec.id
      · simp [hxi, hxr]
      · simp [hxi, hxr]

theorem declOutputs_find (os : List OutputRec) (ns : Nodes) (x : String) :
    mapFind (declOutputs os ns) x =
      match mapFind ns x with
      | some n =>
        some ⟨n.up ++ (os.filter (fun o => o.id = x)).bind
                (fun o => asListOS o.outputSource),
              n.down ++ os.bind (fun o =>
                ((asListOS o.outputSource).filter (fun s => s = x)).map
                  (fun _ => o.id)),
              if n.type = none then
                (if x ∈ os.map OutputRec.id then some OUTPUT else none)
              else n.type⟩
      | none =>
        if x ∈ os.map OutputRec.id ∨ x ∈ os.bind (fun o => asListOS o.outputSource)
        then
          some ⟨(os.filter (fun o => o.id = x)).bind
                  (fun o => asListOS o.outputSource),
                os.bind (fun o =>
                  ((asListOS o.outputSource).filter (fun s => s = x)).map
                    (fun _ => o.id)),
                if x ∈ os.map OutputRec.id then some OUTPUT else none⟩
        else none := by
  induction os generalizing ns with
  | nil =>
    cases hm : mapFind ns x with
    | some n =>
      obtain ⟨nu, nd, nt⟩ := n
      cases nt <;> simp [declOutputs, hm]
    | none => simp [declOutputs, hm]
  | cons o rest ih =>
    have hpres : mapFind (declareNode ns o.id (some OUTPUT)) o.id ≠ none := by
      rw [mapFind_declareNode]
      cases hm : mapFind ns o.id <;> simp
    rw [show declOutputs (o :: rest) ns
          = declOutputs rest
              (declSrcEdges o.id (asListOS o.outputSource)
                (declareNode ns o.id (some OUTPUT))) from rfl,
        ih, declSrcEdges_find _ _ _ _ hpres, mapFind_declareNode]
    by_cases hxo : x = o.id
    · subst hxo
      cases hm : mapFind ns o.id with
      | some n =>
        by_cases ht : n.type = none <;>
          by_cases hrid : o.id ∈ rest.map OutputRec.id <;>
            by_cases hrref : o.id ∈ rest.bind (fun r => asListOS r.outputSource) <;>
              by_cases href : o.id ∈ asListOS o.outputSource <;>
                simp [hm, ht, hrid, hrref, href, List.filter_cons, List.append_assoc] <;>
                  try (intro a ha h; exact href (h ▸ ha))
      | none =>
        by_cases hrid : o.id ∈ rest.map OutputRec.id <;>
          by_cases hrref : o.id ∈ rest.bind (fun r => asListOS r.outputSource) <;>
            by_cases href : o.id ∈ asListOS o.outputSource <;>
              simp [hm, hrid, hrref, href, List.filter_cons, List.append_assoc] <;>
                try (intro a ha h; exact href (h ▸ ha))
    · have hox : ¬ (o.id = x) := fun h => hxo h.symm
      cases hm : mapFind ns x with
      | some n =>
        by_cases ht : n.type = none <;>
          by_cases hrid : x ∈ rest.map OutputRec.id <;>
            by_cases hrref : x ∈ rest.bind (fun r => asListOS r.outputSource) <;>
              by_cases href : x ∈ asListOS o.outputSource <;>
                simp [hxo, hox, hm, ht, hrid, hrref, href, List.filter_cons,
                  List.append_assoc] <;>
                  try (intro a ha h; exact href (h ▸ ha))
      | none =>
        by_cases hrid : x ∈ rest.map OutputRec.id <;>
          by_cases hrref : x ∈ rest.bind (fun r => asListOS r.outputSource) <;>
            by_cases href : x ∈ asListOS o.outputSource <;>
              simp [hxo, hox, hm, hrid, hrref, href, List.filter_cons,
                List.append_assoc] <;>
                try (intro a ha h; exact href (h ▸ ha))

theorem declSteps_find (sts : List Step) (ns : Nodes) (x : String) :
    mapFind (declSteps sts ns) x =
      match mapFind ns x with
      | some n =>
        some ⟨n.up ++ sts.bind (fun st =>
                (if st.id = x then st.srcIds else [])
                ++ (st.outIds.filter (fun oid => oid = x)).map (fun _ => st.id)),
              n.down ++ sts.bind (fun st =>
                ((st.srcIds.filter (fun s => s = x)).map (fun _ => st.id))
                ++ (if x = st.id then st.outIds else [])),
              if n.type = none then
                (if x ∈ sts.map Step.id then some STEP else none)
              else n.type⟩
      | none =>
        if x ∈ sts.map Step.id ∨ x ∈ sts.bind Step.srcIds
            ∨ x ∈ sts.bind Step.outIds then
          some ⟨sts.bind (fun st =>
                  (if st.id = x then st.srcIds else [])
                  ++ (st.outIds.filter (fun oid => oid = x)).map (fun _ => st.id)),
                sts.bind (fun st =>
                  ((st.srcIds.filter (fun s => s = x)).map (fun _ => st.id))
                  ++ (if x = st.id then st.outIds else [])),
                if x ∈ sts.map Step.id then some STEP else none⟩
        else none := by
  induction sts generalizing ns with
  | nil =>
    cases hm : mapFind ns x with
    | some n =>
      obtain ⟨nu, nd, nt⟩ := n
      cases nt <;> simp [declSteps, hm]
    | none => simp [declSteps, hm]
  | cons st rest ih =>
    have hp1 : mapFind (declareNode ns st.id (some STEP)) st.id ≠ none := by
      rw [mapFind_declareNode]
      cases hm : mapFind ns st.id <;> simp
    have hp2 : mapFind (declSrcEdges st.id st.srcIds
        (declareNode ns st.id (some STEP))) st.id ≠ none := by
      rw [declSrcEdges_find _ _ _ _ hp1]
      cases hm : mapFind (declareNode ns st.id (some STEP)) st.id
      · exact absurd hm hp1
      · simp
    rw [show declSteps (st :: rest) ns
          = declSteps rest
              (declOutEdges st.id st.outIds
                (declSrcEdges st.id st.srcIds
                  (declareNode ns st.id (some STEP)))) from rfl,
        ih, declOutEdges_find _ _ _ _ hp2, declSrcEdges_find _ _ _ _ hp1,
        mapFind_declareNode]
    by_cases hxs : x = st.id
    · subst hxs
      cases hm : mapFind ns st.id with
      | some n =>
        by_cases ht : n.type = none <;>
          by_cases hsrc : st.id ∈ st.srcIds <;>
            by_cases hout : st.id ∈ st.outIds <;>
              by_cases hrid : st.id ∈ rest.map Step.id <;>
                by_cases hrsrc : st.id ∈ rest.bind Step.srcIds <;>
                  by_cases hrout : st.id ∈ rest.bind Step.outIds <;>
                    simp [hm, ht, hsrc, hout, hrid, hrsrc, hrout, List.filter_cons,
                      List.append_assoc] <;>
                      try first
                        | (exact ⟨fun a ha h => hout (h ▸ ha), fun a ha h => hsrc (h ▸ ha)⟩)
                        | (exact ⟨fun a ha h => hsrc (h ▸ ha), fun a ha h => hout (h ▸ ha)⟩)
                        | (intro a ha h; exact hsrc (h ▸ ha))
                        | (intro a ha h; exact hout (h ▸ ha))
      | none =>
        by_cases hsrc : st.id ∈ st.srcIds <;>
          by_cases hout : st.id ∈ st.outIds <;>
            by_cases hrid : st.id ∈ rest.map Step.id <;>
              by_cases hrsrc : st.id ∈ rest.bind Step.srcIds <;>
                by_cases hrout : st.id ∈ rest.bind Step.outIds <;>
                  simp [hm, hsrc, hout, hrid, hrsrc, hrout, List.filter_cons,
                    List.append_assoc] <;>
                    try first
                      | (exact ⟨fun a ha h => hout (h ▸ ha), fun a ha h => hsrc (h ▸ ha)⟩)
                      | (exact ⟨fun a ha h => hsrc (h ▸ ha), fun a ha h => hout (h ▸ ha)⟩)
                      | (intro a ha h; exact hsrc (h ▸ ha))
                      | (intro a ha h; exact hout (h ▸ ha))
    · have hsx : ¬ (st.id = x) := fun h => hxs h.symm
      cases hm : mapFind ns x with
      | some n =>
        by_cases ht : n.type = none <;>
          by_cases hsrc : x ∈ st.srcIds <;>
            by_cases hout : x ∈ st.outIds <;>
              by_cases hrid : x ∈ rest.map Step.id <;>
                by_cases hrsrc : x ∈ rest.bind Step.srcIds <;>
                  by_cases hrout : x ∈ rest.bind Step.outIds <;>
                    simp [hxs, hsx, hm, ht, hsrc, hout, hrid, hrsrc, hrout,
                      List.filter_cons, List.append_assoc] <;>
                      try first
                        | (exact ⟨fun a ha h => hout (h ▸ ha), fun a ha h => hsrc (h ▸ ha)⟩)
                        | (exact ⟨fun a ha h => hsrc (h ▸ ha), fun a ha h => hout (h ▸ ha)⟩)
                        | (intro a ha h; exact hsrc (h ▸ ha))
                        | (intro a ha h; exact hout (h ▸ ha))
      | none =>
        by_cases hsrc : x ∈ st.srcIds <;>
          by_cases hout : x ∈ st.outIds <;>
            by_cases hrid : x ∈ rest.map Step.id <;>
              by_cases hrsrc : x ∈ rest.bind Step.srcIds <;>
                by_cases hrout : x ∈ rest.bind Step.outIds <;>
                  simp [hxs, hsx, hm, hsrc, hout, hrid, hrsrc, hrout,
                    List.filter_cons, List.append_assoc] <;>
                    try first
                      | (exact ⟨fun a ha h => hout (h ▸ ha), fun a ha h => hsrc (h ▸ ha)⟩)
                      | (exact ⟨fun a ha h => hsrc (h ▸ ha), fun a ha h => hout (h ▸ ha)⟩)
                      | (intro a ha h; exact hsrc (h ▸ ha))
                      | (intro a ha h; exact hout (h ▸ ha))

/-- Master characterization of the built registry: `buildNodes` holds an
entry for exactly the identifiers the builder declares, each carrying
the accumulated upstream and downstream edge lists and the node kind. -/
theorem buildNodes_find (wf : WfDoc) (x : String) :
    mapFind (buildNodes wf) x =
      if x ∈ declaredIds wf then some ⟨upSpec wf x, downSpec wf x, kindSpec wf x⟩
      else none := by
  unfold buildNodes
  rw [declSteps_find, declOutputs_find, declInputs_find]
  simp only [mapFind]
  unfold declaredIds upSpec downSpec kindSpec
  unfold WfDoc.inputIds WfDoc.outputIds WfDoc.stepIds WfDoc.osRefs
    WfDoc.stepSrcRefs WfDoc.stepOutIds
  by_cases hin : x ∈ wf.inputs.map InputRec.id <;>
    by_cases hoid : x ∈ wf.outputs.map OutputRec.id <;>
      by_cases horef : x ∈ wf.outputs.bind (fun o => asListOS o.outputSource) <;>
        by_cases hsid : x ∈ wf.steps.map Step.id <;>
          by_cases hssrc : x ∈ wf.steps.bind Step.srcIds <;>
            by_cases hsout : x ∈ wf.steps.bind Step.outIds <;>
              simp [hin, hoid, horef, hsid, hssrc, hsout, INPUT, OUTPUT, STEP] <;>
                try exact ⟨fun o ho h =>
                    absurd (h ▸ List.mem_map_of_mem OutputRec.id ho) hoid,
                  fun o ho a ha h =>
                    absurd (List.mem_bind.mpr ⟨o, ho, h ▸ ha⟩) horef⟩

/-! ### The reachability walker (`_subgraph_visit`)

The recursive Python visit is rendered as a worklist recursion: visiting
`current` prepends its neighbour list to the pending work.  The visited
set is a duplicate-free list in first-visit order.  `edgesOf` yields
`[]` for an unregistered identifier; inside `get_subgraph` every edge
endpoint is registered, so this totalization is never exercised. -/

inductive Dir where
  | up
  | down
deriving DecidableEq, Repr

def edgesOf (ns : Nodes) (d : Dir) (x : String) : List String :=
  match mapFind ns x with
  | none => []
  | some n =>
    match d with
    | Dir.down => n.down
    | Dir.up => n.up

def keysOf (ns : Nodes) : List String := ns.map (fun p => p.1)

theorem mapFind_none_iff (ns : Nodes) (k : String) :
    mapFind ns k = none ↔ k ∉ keysOf ns := by
  induction ns with
  | nil => simp [mapFind, keysOf]
  | cons p rest ih =>
    by_cases hp : p.1 = k
    · simp [mapFind, keysOf, hp]
    · have : ¬ (k = p.1) := fun h => hp h.symm
      simp [mapFind, keysOf, hp, ih, this]

/-- The set of registered identifiers not yet visited (the first
component of the termination measure of the walker). -/
def unvisited (ns : Nodes) (vis : List String) : Nat :=
  ((keysOf ns).toFinset \ vis.toFinset).card

theorem unvisited_snoc_lt (ns : Nodes) (vis : List String) (c : String)
    (hc : c ∈ keysOf ns) (hv : c ∉ vis) :
    unvisited ns (vis ++ [c]) < unvisited ns vis := by
  unfold unvisited
  apply Finset.card_lt_card
  rw [Finset.ssubset_iff_of_subset]
  · refine ⟨c, ?_, ?_⟩
    · rw [Finset.mem_sdiff]
      exact ⟨List.mem_toFinset.mpr hc, fun h => hv (List.mem_toFinset.mp h)⟩
    · rw [Finset.mem_sdiff]
      intro h
      exact h.2 (List.mem_toFinset.mpr (List.mem_append_right _
        (List.mem_singleton.mpr rfl)))
  · apply Finset.sdiff_subset_sdiff (le_refl _)
    intro a ha
    exact List.mem_toFinset.mpr (List.mem_append_left _ (List.mem_toFinset.mp ha))

theorem unvisited_snoc_eq (ns : Nodes) (vis : List String) (c : String)
    (hc : c ∉ keysOf ns) :
    unvisited ns (vis ++ [c]) = unvisited ns vis := by
  unfold unvisited
  congr 1
  ext a
  simp only [Finset.mem_sdiff, List.mem_toFinset, List.mem_append,
    List.mem_singleton]
  constructor
  · rintro ⟨ha, hb⟩
    exact ⟨ha, fun h => hb (Or.inl h)⟩
  · rintro ⟨ha, hb⟩
    refine ⟨ha, ?_⟩
    rintro (h | h)
    · exact hb h
    · exact hc (h ▸ ha)

/-- `_subgraph_visit` as a worklist recursion over the pending list. -/
def dfsVisit (ns : Nodes) (d : Dir) (pending vis : List String) : List String :=
  match pending with
  | [] => vis
  | c :: rest =>
    if c ∈ vis then dfsVisit ns d rest vis
    else dfsVisit ns d (edgesOf ns d c ++ rest) (vis ++ [c])
termination_by (unvisited ns vis, pending.length)
decreasing_by
  · simp_wf
    apply Prod.Lex.right
    omega
  · simp_wf
    rename_i h
    by_cases hk : s ∈ keysOf ns
    · exact Prod.Lex.left _ _ (unvisited_snoc_lt _ _ _ hk h)
    · have he : edgesOf ns d s = [] := by
        unfold edgesOf
        rw [(mapFind_none_iff ns s).mpr hk]
      rw [unvisited_snoc_eq _ _ _ hk, he]
      apply Prod.Lex.right
      simp

/-! ### Reachability, with and without an avoided set -/

/-- Reflexive-transitive reachability along the chosen edge direction. -/
inductive Reaches (ns : Nodes) (d : Dir) : String → String → Prop where
  | refl (x : String) : Reaches ns d x x
  | head (a b c : String) : b ∈ edgesOf ns d a → Reaches ns d b c →
      Reaches ns d a c

/-- Reachability along a path all of whose nodes avoid `avoid`. -/
inductive ReachesAvoid (ns : Nodes) (d : Dir) (avoid : List String) :
    String → String → Prop where
  | refl (x : String) : x ∉ avoid → ReachesAvoid ns d avoid x x
  | head (a b c : String) : a ∉ avoid → b ∈ edgesOf ns d a →
      ReachesAvoid ns d avoid b c → ReachesAvoid ns d avoid a c

theorem ReachesAvoid.toReaches {ns : Nodes} {d : Dir} {avoid : List String}
    {p x : String} (h : ReachesAvoid ns d avoid p x) : Reaches ns d p x := by
  induction h with
  | refl y _ => exact Reaches.refl y
  | head a b c _ hb _ ih => exact Reaches.head a b c hb ih

theorem reaches_iff_avoid_nil (ns : Nodes) (d : Dir) (p x : String) :
    Reaches ns d p x ↔ ReachesAvoid ns d [] p x := by
  constructor
  · intro h
    induction h with
    | refl y => exact ReachesAvoid.refl y (by simp)
    | head a b c hb _ ih => exact ReachesAvoid.head a b c (by simp) hb ih
  · exact ReachesAvoid.toReaches

theorem ReachesAvoid.mono {ns : Nodes} {d : Dir} {avoid avoid' : List String}
    {p x : String} (hsub : ∀ y, y ∈ avoid → y ∈ avoid')
    (h : ReachesAvoid ns d avoid' p x) : ReachesAvoid ns d avoid p x := by
  induction h with
  | refl y hy => exact ReachesAvoid.refl y (fun hh => hy (hsub y hh))
  | head a b c ha hb _ ih =>
    exact ReachesAvoid.head a b c (fun hh => ha (hsub a hh)) hb ih

/-- Path surgery: a path avoiding `vis` either already avoids `vis ++ [c]`,
or ends at `c`, or can be restarted just after its last crossing of `c`. -/
theorem ReachesAvoid.insert {ns : Nodes} {d : Dir} {vis : List String}
    {p x : String} (c : String) (h : ReachesAvoid ns d vis p x) :
    ReachesAvoid ns d (vis ++ [c]) p x ∨ x = c
      ∨ ∃ e ∈ edgesOf ns d c, ReachesAvoid ns d (vis ++ [c]) e x := by
  induction h with
  | refl y hy =>
    by_cases hyc : y = c
    · exact Or.inr (Or.inl hyc)
    · refine Or.inl (ReachesAvoid.refl y ?_)
      intro hh
      rcases List.mem_append.mp hh with h1 | h1
      · exact hy h1
      · exact hyc (List.mem_singleton.mp h1)
  | head a b z ha hb _ ih =>
    by_cases hac : a = c
    · rcases ih with h1 | h1 | h1
      · exact Or.inr (Or.inr ⟨b, hac ▸ hb, h1⟩)
      · exact Or.inr (Or.inl h1)
      · exact Or.inr (Or.inr h1)
    · rcases ih with h1 | h1 | h1
      · refine Or.inl (ReachesAvoid.head a b z ?_ hb h1)
        intro hh
        rcases List.mem_append.mp hh with h2 | h2
        · exact ha h2
        · exact hac (List.mem_singleton.mp h2)
      · exact Or.inr (Or.inl h1)
      · exact Or.inr (Or.inr h1)

/-! ### Correctness of the worklist walker -/

theorem dfsVisit_supset (ns : Nodes) (d : Dir) (pending vis : List String) :
    ∀ x ∈ vis, x ∈ dfsVisit ns d pending vis := by
  induction pending, vis using dfsVisit.induct ns d with
  | case1 vis => simp [dfsVisit]
  | case2 vis c rest hc ih =>
    intro x hx
    rw [dfsVisit, if_pos hc]
    exact ih x hx
  | case3 vis c rest hc ih =>
    intro x hx
    rw [dfsVisit, if_neg hc]
    exact ih x (List.mem_append_left _ hx)

theorem dfsVisit_pending (ns : Nodes) (d : Dir) (pending vis : List String) :
    ∀ p ∈ pending, p ∈ dfsVisit ns d pending vis := by
  induction pending, vis using dfsVisit.induct ns d with
  | case1 vis => simp
  | case2 vis c rest hc ih =>
    intro p hp
    rw [dfsVisit, if_pos hc]
    rcases List.mem_cons.mp hp with h | h
    · exact dfsVisit_supset ns d rest vis p (h ▸ hc)
    · exact ih p h
  | case3 vis c rest hc ih =>
    intro p hp
    rw [dfsVisit, if_neg hc]
    rcases List.mem_cons.mp hp with h | h
    · exact dfsVisit_supset ns d _ _ p
        (List.mem_append_right _ (List.mem_singleton.mpr h))
    · exact ih p (List.mem_append_right _ h)

theorem dfsVisit_sound (ns : Nodes) (d : Dir) (pending vis : List String)
    (x : String) (hx : x ∈ dfsVisit ns d pending vis) :
    x ∈ vis ∨ ∃ p ∈ pending, ReachesAvoid ns d vis p x := by
  induction pending, vis using dfsVisit.induct ns d with
  | case1 vis =>
    rw [dfsVisit] at hx
    exact Or.inl hx
  | case2 vis c rest hc ih =>
    rw [dfsVisit, if_pos hc] at hx
    rcases ih hx with h | ⟨p, hp, hr⟩
    · exact Or.inl h
    · exact Or.inr ⟨p, List.mem_cons_of_mem c hp, hr⟩
  | case3 vis c rest hc ih =>
    rw [dfsVisit, if_neg hc] at hx
    rcases ih hx with h | ⟨p, hp, hr⟩
    · rcases List.mem_append.mp h with h1 | h1
      · exact Or.inl h1
      · refine Or.inr ⟨c, List.mem_cons_self c rest, ?_⟩
        have hxc : x = c := List.mem_singleton.mp h1
        subst hxc
        exact ReachesAvoid.refl x hc
    · have hr' : ReachesAvoid ns d vis p x :=
        hr.mono (fun y hy => List.mem_append_left _ hy)
      rcases List.mem_append.mp hp with h1 | h1
      · exact Or.inr ⟨c, List.mem_cons_self c rest,
          ReachesAvoid.head c p x hc h1 hr'⟩
      · exact Or.inr ⟨p, List.mem_cons_of_mem c h1, hr'⟩

theorem dfsVisit_complete (ns : Nodes) (d : Dir) (pending vis : List String)
    (x : String) (hx : ∃ p ∈ pending, ReachesAvoid ns d vis p x) :
    x ∈ dfsVisit ns d pending vis := by
  induction pending, vis using dfsVisit.induct ns d with
  | case1 vis =>
    rcases hx with ⟨p, hp, _⟩
    cases hp
  | case2 vis c rest hc ih =>
    rw [dfsVisit, if_pos hc]
    rcases hx with ⟨p, hp, hr⟩
    rcases List.mem_cons.mp hp with h | h
    · rw [h] at hr
      cases hr with
      | refl _ hy => exact absurd hc hy
      | head _ b _ ha _ _ => exact absurd hc ha
    · exact ih ⟨p, h, hr⟩
  | case3 vis c rest hc ih =>
    rw [dfsVisit, if_neg hc]
    rcases hx with ⟨p, hp, hr⟩
    rcases List.mem_cons.mp hp with h | h
    · rw [h] at hr
      cases hr with
      | refl _ _ =>
        exact dfsVisit_supset ns d _ _ x
          (List.mem_append_right _ (List.mem_singleton.mpr rfl))
      | head _ b _ _ hb hr2 =>
        rcases hr2.insert c with h1 | h1 | h1
        · exact ih ⟨b, List.mem_append_left _ hb, h1⟩
        · rw [h1]
          exact dfsVisit_supset ns d _ _ c
            (List.mem_append_right _ (List.mem_singleton.mpr rfl))
        · rcases h1 with ⟨e, he, hre⟩
          exact ih ⟨e, List.mem_append_left _ he, hre⟩
    · rcases hr.insert c with h1 | h1 | h1
      · exact ih ⟨p, List.mem_append_right _ h, h1⟩
      · rw [h1]
        exact dfsVisit_supset ns d _ _ c
          (List.mem_append_right _ (List.mem_singleton.mpr rfl))
      · rcases h1 with ⟨e, he, hre⟩
        exact ih ⟨e, List.mem_append_left _ he, hre⟩

/-- Full characterization of one walker call: it returns the visited set
extended by everything reachable from the pending list along paths that
avoid the already-visited set. -/
theorem dfsVisit_mem (ns : Nodes) (d : Dir) (pending vis : List String)
    (x : String) :
    x ∈ dfsVisit ns d pending vis
      ↔ x ∈ vis ∨ ∃ p ∈ pending, ReachesAvoid ns d vis p x := by
  constructor
  · exact dfsVisit_sound ns d pending vis x
  · rintro (h | h)
    · exact dfsVisit_supset ns d pending vis x h
    · exact dfsVisit_complete ns d pending vis x h

theorem dfsVisit_nodup (ns : Nodes) (d : Dir) (pending vis : List String)
    (hv : vis.Nodup) : (dfsVisit ns d pending vis).Nodup := by
  induction pending, vis using dfsVisit.induct ns d with
  | case1 vis => rw [dfsVisit]; exact hv
  | case2 vis c rest hc ih => rw [dfsVisit, if_pos hc]; exact ih hv
  | case3 vis c rest hc ih =>
    rw [dfsVisit, if_neg hc]
    refine ih ?_
    simpa [List.nodup_append] using ⟨hv, hc⟩

/-! ### The root loop of `get_subgraph` (lines 151-157)

For each root: look the root up in the registry (a missing root raises,
modelled as `Except.error`), walk upstream when its kind is `Output`,
downstream otherwise, accumulating one shared visited set. -/

def visitRoots (ns : Nodes) : List String → List String → Except String (List String)
  | [], vis => Except.ok vis
  | r :: rest, vis =>
    match mapFind ns r with
    | none => Except.error ("root not found: " ++ r)
    | some n =>
      visitRoots ns rest
        (dfsVisit ns (if n.type = some OUTPUT then Dir.up else Dir.down) [r] vis)

/-- The walk direction `get_subgraph` chooses for a root. -/
def dirFor (ns : Nodes) (r : String) : Dir :=
  if (mapFind ns r).bind (fun n => n.type) = some OUTPUT then Dir.up else Dir.down

theorem visitRoots_sound (ns : Nodes) (roots : List String)
    (vis V : List String) (h : visitRoots ns roots vis = Except.ok V) :
    ∀ x ∈ V, x ∈ vis ∨ ∃ r ∈ roots, Reaches ns (dirFor ns r) r x := by
  induction roots generalizing vis with
  | nil =>
    rw [visitRoots] at h
    cases h
    exact fun x hx => Or.inl hx
  | cons r rest ih =>
    rw [visitRoots] at h
    cases hm : mapFind ns r with
    | none => rw [hm] at h; cases h
    | some n =>
      rw [hm] at h
      intro x hx
      rcases ih _ h x hx with hv | ⟨r', hr', hre⟩
      · rcases dfsVisit_sound ns _ [r] vis x hv with h1 | ⟨p, hp, hra⟩
        · exact Or.inl h1
        · have hp' : p = r := List.mem_singleton.mp hp
          subst hp'
          refine Or.inr ⟨p, List.mem_cons_self p rest, ?_⟩
          have hd : dirFor ns p = if n.type = some OUTPUT then Dir.up else Dir.down := by
            simp [dirFor, hm]
          rw [hd]
          exact hra.toReaches
      · exact Or.inr ⟨r', List.mem_cons_of_mem r hr', hre⟩

theorem visitRoots_nodup (ns : Nodes) (roots : List String)
    (vis V : List String) (h : visitRoots ns roots vis = Except.ok V)
    (hv : vis.Nodup) : V.Nodup := by
  induction roots generalizing vis with
  | nil =>
    rw [visitRoots] at h
    cases h
    exact hv
  | cons r rest ih =>
    rw [visitRoots] at h
    cases hm : mapFind ns r with
    | none => rw [hm] at h; cases h
    | some n =>
      rw [hm] at h
      exact ih _ h (dfsVisit_nodup ns _ [r] vis hv)

theorem visitRoots_single (ns : Nodes) (r : String) (V : List String)
    (h : visitRoots ns [r] [] = Except.ok V) :
    ∀ x, x ∈ V ↔ Reaches ns (dirFor ns r) r x := by
  rw [visitRoots] at h
  cases hm : mapFind ns r with
  | none => rw [hm] at h; cases h
  | some n =>
    simp only [hm, visitRoots] at h
    cases h
    intro x
    rw [dfsVisit_mem]
    have hd : dirFor ns r = if n.type = some OUTPUT then Dir.up else Dir.down := by
      simp [dirFor, hm]
    rw [hd]
    constructor
    · rintro (h1 | ⟨p, hp, hra⟩)
      · cases h1
      · have : p = r := List.mem_singleton.mp hp
        subst this
        exact hra.toReaches
    · intro h1
      exact Or.inr ⟨r, List.mem_singleton.mpr rfl,
        (reaches_iff_avoid_nil _ _ _ _).mp h1⟩

/-- Claim C2 amended: for roots supplied to `get_subgraph`, a root of
kind `Output` is walked upstream and any other root downstream (this is
`dirFor`); the traversal never re-visits a node already in the shared
visited set, and every visited node is reachable from some root in that
root's direction.  But because the visited set is shared across roots, a
later root's walk is blocked at nodes an earlier root already visited,
so the aggregated set need not contain everything reachable from every
root; the full reachability closure is guaranteed only for the walk as a
whole when there is a single root. -/
theorem subgraph_visit_policy (wf : WfDoc) (roots V : List String)
    (h : visitRoots (buildNodes wf) roots [] = Except.ok V) :
    V.Nodup
    ∧ (∀ x ∈ V, ∃ r ∈ roots,
        Reaches (buildNodes wf) (dirFor (buildNodes wf) r) r x)
    ∧ (∀ r, roots = [r] →
        ∀ x, (x ∈ V ↔ Reaches (buildNodes wf) (dirFor (buildNodes wf) r) r x)) := by
  refine ⟨visitRoots_nodup _ _ _ _ h (by simp), ?_, ?_⟩
  · intro x hx
    rcases visitRoots_sound _ _ _ _ h x hx with h1 | h1
    · cases h1
    · exact h1
  · intro r hr
    subst hr
    exact visitRoots_single _ _ _ h

def c2Wf : WfDoc :=
  { cls := "Workflow", docId := "W", cwlVersion := some "v1.2",
    inputs := [InputRec.mk "W#i" "File" none, InputRec.mk "W#j" "File" none],
    outputs := [OutputRec.mk "W#O" "File" (some (SourceField.scalar "W#B/o"))],
    steps :=
      [Step.mk "W#A" [InPort.mk "W#A/in" (some (SourceField.scalar "W#i")) "File" none none]
        [OutEntry.plain "W#A/o"] Run.embeddedOther,
       Step.mk "W#B"
        [InPort.mk "W#B/in1" (some (SourceField.scalar "W#A/o")) "File" none none,
         InPort.mk "W#B/in2" (some (SourceField.scalar "W#j")) "File" none none]
        [OutEntry.plain "W#B/o"] Run.embeddedOther],
    others := [] }

/-- Claim C2 counterexample: with roots `[W#A, W#O]`, the step root
`W#A` is walked downstream first and reaches the output `W#O`; the
output root `W#O` (whose kind is `Output`, so it would walk upstream) is
then already in the shared visited set, so its upstream walk stops at
once.  The input `W#j` is reachable upstream from `W#O`, yet the
aggregated reached set does not contain it — contradicting the claim
that the traversal adds every node reachable from each root in that
root's direction. -/
theorem subgraph_visit_blocking_cex :
    (visitRoots (buildNodes c2Wf) ["W#A", "W#O"] []).toOption.map
        (fun v => decide ("W#j" ∈ v)) = some false
    ∧ (mapFind (buildNodes c2Wf) "W#O").bind (fun n => n.type) = some OUTPUT
    ∧ Reaches (buildNodes c2Wf) Dir.up "W#O" "W#j" := by
  refine ⟨?_, ?_, ?_⟩
  · simp [c2Wf, visitRoots, dfsVisit, edgesOf, dirFor, buildNodes, declSteps,
      declOutputs, declInputs, declSrcEdges, declOutEdges, srcEdge, outEdge,
      declareNode, pushUp, pushDown, mapSet, mapFind, Step.srcIds, Step.outIds,
      Step.id, Step.inPorts, Step.outs, OutEntry.outId, asListOS, asListSF,
      INPUT, OUTPUT, STEP]
    exact ⟨_, rfl, by decide⟩
  · decide
  · refine Reaches.head "W#O" "W#B/o" "W#j" (by decide) ?_
    refine Reaches.head "W#B/o" "W#B" "W#j" (by decide) ?_
    refine Reaches.head "W#B" "W#j" "W#j" (by decide) (Reaches.refl "W#j")

def c2WitWf : WfDoc :=
  { cls := "Workflow", docId := "W", cwlVersion := some "v1.2",
    inputs := [],
    outputs := [],
    steps := [Step.mk "W#A" [] [OutEntry.plain "W#A/o"] Run.embeddedOther],
    others := [] }

/-- Witness for the amended C2 on a one-step pipeline with a single
step root walked downstream. -/
theorem subgraph_visit_policy_witness :
    visitRoots (buildNodes c2WitWf) ["W#A"] [] = Except.ok ["W#A", "W#A/o"]
    ∧ (["W#A", "W#A/o"].Nodup
      ∧ ("W#A/o" ∈ (["W#A", "W#A/o"] : List String) ↔
          Reaches (buildNodes c2WitWf) (dirFor (buildNodes c2WitWf) "W#A")
            "W#A" "W#A/o")) := by
  have h : visitRoots (buildNodes c2WitWf) ["W#A"] [] = Except.ok ["W#A", "W#A/o"] := by
    simp [c2WitWf, visitRoots, dfsVisit, edgesOf, dirFor, buildNodes, declSteps,
      declOutputs, declInputs, declSrcEdges, declOutEdges, srcEdge, outEdge,
      declareNode, pushUp, pushDown, mapSet, mapFind, Step.srcIds, Step.outIds,
      Step.id, Step.inPorts, Step.outs, OutEntry.outId, asListOS, asListSF,
      INPUT, OUTPUT, STEP]
  obtain ⟨h1, _, h3⟩ := subgraph_visit_policy c2WitWf ["W#A"] ["W#A", "W#A/o"] h
  exact ⟨h, h1, h3 "W#A" rfl "W#A/o"⟩

/-! ### The boundary rewriter (`get_subgraph` lines 159-182)

For every reached node of kind step or output, each upstream dependency
is added to the final visited set when it was reached or is a declared
input; otherwise, when the owner is a step, the owning step record is
located and scanned for the first input port whose `source` contains
the dangling identifier (Python `u in inp["source"]`: substring
containment for a scalar string, element membership for a list), and a
rewire entry mapping it to its flattened name and that port's type is
recorded. -/

/-- Python `needle in hay` for strings: substring containment. -/
def hasSub (hay needle : List Char) : Bool :=
  match hay with
  | [] => needle.isEmpty
  | _ :: t => needle.isPrefixOf hay || hasSub t needle

/-- Python `u in source`: substring test on a scalar source, element
membership on a list source. -/
def sfContains (sf : SourceField) (u : String) : Bool :=
  match sf with
  | .scalar s => hasSub s.data u.data
  | .list l => decide (u ∈ l)

/-- Lines 177-180: the type of the first input port of the located step
record whose `source` contains `u` (`None` when no port matches). -/
def scanPorts (ports : List InPort) (u : String) : Option String :=
  match ports with
  | [] => none
  | p :: rest =>
    match p.source with
    | some sf => if sfContains sf u then some p.type else scanPorts rest u
    | none => scanPorts rest u

/-- `urllib.parse.urldefrag`: split at the first `#`. -/
def urldefrag (s : String) : String × String :=
  match splitOnChar '#' s.data with
  | [] => (s, "")
  | base :: rest =>
    if rest.isEmpty then (⟨base⟩, "")
    else (⟨base⟩, String.intercalate "#" (rest.map (fun l : List Char => ⟨l⟩)))

def charReplace (s : String) (a b : Char) : String :=
  ⟨s.data.map (fun c => if c = a then b else c)⟩

/-- Line 172-173: the synthetic input identifier for a dangling
dependency — defragment and flatten the fragment's path separators. -/
def flattenId (u : String) : String :=
  (urldefrag u).1 ++ "#" ++ charReplace (urldefrag u).2 '/' '_'

/-- One entry of the rewire table: original identifier, synthetic
replacement, declared type. -/
structure RwEntry where
  key : String
  rn : String
  tp : String
deriving DecidableEq, Repr

abbrev RwTable := List RwEntry

/-- Python `rewire[u] = (rn, tp)`: update in place or append. -/
def rwSet (rw : RwTable) (u rn tp : String) : RwTable :=
  if rw.any (fun e => e.key = u) then
    rw.map (fun e => if e.key = u then ⟨u, rn, tp⟩ else e)
  else rw ++ [⟨u, rn, tp⟩]

def rwFind (rw : RwTable) (u : String) : Option RwEntry :=
  rw.find? (fun e => e.key = u)

/-- Python `set.add`. -/
def setAdd (l : List String) (x : String) : List String :=
  if x ∈ l then l else l ++ [x]

/-- The inner loop over the upstream dependencies of one reached node
`v` of type `vtype` (lines 165-182). -/
def rewireUps (lc : LC) (fuel : Nat) (wf : WfDoc) (ns : Nodes)
    (vd : List String) (v : String) (vtype : Option String) :
    List String → List String → RwTable → Except String (List String × RwTable)
  | [], vis, rw => Except.ok (vis, rw)
  | u :: rest, vis, rw =>
    if u ∈ vd then rewireUps lc fuel wf ns vd v vtype rest vis rw
    else if (mapFind ns u).bind (fun n => n.type) = some INPUT then
      rewireUps lc fuel wf ns vd v vtype rest (setAdd vis u) rw
    else
      if vtype = some STEP then
        match findStep fuel wf.steps v lc with
        | none => Except.error ("Could not find step " ++ v)
        | some st =>
          match scanPorts st.inPorts u with
          | some tp =>
            rewireUps lc fuel wf ns vd v vtype rest vis
              (rwSet rw u (flattenId u) tp)
          | none => rewireUps lc fuel wf ns vd v vtype rest vis rw
      else rewireUps lc fuel wf ns vd v vtype rest vis rw

/-- The outer loop over the reached set (lines 162-182): add each
reached node to the final visited set and, for steps and outputs,
process its upstream dependencies. -/
def rewireLoop (lc : LC) (fuel : Nat) (wf : WfDoc) (ns : Nodes)
    (vd : List String) :
    List String → List String → RwTable → Except String (List String × RwTable)
  | [], vis, rw => Except.ok (vis, rw)
  | v :: rest, vis, rw =>
    let vis1 := setAdd vis v
    let vt := (mapFind ns v).bind (fun n => n.type)
    if vt = some STEP ∨ vt = some OUTPUT then
      match rewireUps lc fuel wf ns vd v vt
          (((mapFind ns v).map NodeRec.up).getD []) vis1 rw with
      | Except.error e => Except.error e
      | Except.ok (vis2, rw2) => rewireLoop lc fuel wf ns vd rest vis2 rw2
    else rewireLoop lc fuel wf ns vd rest vis1 rw

/-! ### Document assembly (`get_subgraph` lines 184-207) -/

/-- Rewrite one `source` value through the rewire table: a list is
rebuilt from the rewritten images of its elements, dropping every
element absent from the table; a scalar is replaced when present and
kept otherwise. -/
def rewriteSF (rw : RwTable) (sf : SourceField) : SourceField :=
  match sf with
  | .list ss => .list (ss.filterMap (fun s => (rwFind rw s).map RwEntry.rn))
  | .scalar s =>
    match rwFind rw s with
    | some e => .scalar e.rn
    | none => .scalar s

/-- Rewrite every sourced input port of a copied step record. -/
def rewriteStep (rw : RwTable) (st : Step) : Step :=
  Step.mk st.id
    (st.inPorts.map (fun p => { p with source := p.source.map (rewriteSF rw) }))
    st.outs st.run

/-- Assemble the extracted document: keep the records whose id is in the
final visited set (rewriting step sources), copy every other field
verbatim, and append one synthetic input per rewire entry.  (The Python
code mutates the kept step records in place, so the caller's document
aliases the result; the model returns the new document.) -/
def assemble (wf : WfDoc) (vis : List String) (rw : RwTable) : WfDoc :=
  { cls := wf.cls
    docId := wf.docId
    cwlVersion := wf.cwlVersion
    inputs := wf.inputs.filter (fun i => decide (i.id ∈ vis))
        ++ rw.map (fun e => InputRec.mk e.rn e.tp none)
    outputs := wf.outputs.filter (fun o => decide (o.id ∈ vis))
    steps := (wf.steps.filter (fun st => decide (st.id ∈ vis))).map (rewriteStep rw)
    others := wf.others }

/-- The phases of `get_subgraph`: class check, registry build, root
walk, boundary rewiring.  Returns the reached set, the final visited
set and the rewire table. -/
def subgraphParts (lc : LC) (fuel : Nat) (wf : WfDoc) (roots : List String) :
    Except String (List String × List String × RwTable) :=
  if wf.cls ≠ "Workflow" then
    Except.error "Can only extract subgraph from workflow"
  else
    match visitRoots (buildNodes wf) roots [] with
    | Except.error e => Except.error e
    | Except.ok vd =>
      match rewireLoop lc fuel wf (buildNodes wf) vd vd [] [] with
      | Except.error e => Except.error e
      | Except.ok (vis, rw) => Except.ok (vd, vis, rw)

/-- `get_subgraph`. -/
def getSubgraph (lc : LC) (fuel : Nat) (wf : WfDoc) (roots : List String) :
    Except String WfDoc :=
  match subgraphParts lc fuel wf roots with
  | Except.error e => Except.error e
  | Except.ok (_, vis, rw) => Except.ok (assemble wf vis rw)

/-! ### Properties of the boundary rewriter -/

theorem setAdd_mem (l : List String) (x y : String) :
    y ∈ setAdd l x ↔ y ∈ l ∨ y = x := by
  unfold setAdd
  by_cases h : x ∈ l
  · rw [if_pos h]
    constructor
    · exact Or.inl
    · rintro (hy | hy)
      · exact hy
      · rw [hy]; exact h
  · rw [if_neg h]
    simp

/-- The rewire-table invariant: keys are unique, and every entry's
synthetic name is the flattened form of its key. -/
def rwGood (rw : RwTable) : Prop :=
  (rw.map RwEntry.key).Nodup ∧ ∀ e ∈ rw, e.rn = flattenId e.key

theorem rwSet_good (rw : RwTable) (u tp : String) (h : rwGood rw) :
    rwGood (rwSet rw u (flattenId u) tp) := by
  obtain ⟨hnd, hfl⟩ := h
  unfold rwSet
  by_cases hin : rw.any (fun e => e.key = u)
  · rw [if_pos hin]
    constructor
    · have hkeys : (rw.map (fun e => if e.key = u then (⟨u, flattenId u, tp⟩ : RwEntry) else e)).map RwEntry.key
          = rw.map RwEntry.key := by
        rw [List.map_map]
        apply List.map_congr_left
        intro e _
        by_cases hk : e.key = u
        · simp [hk]
        · simp [hk]
      rw [hkeys]
      exact hnd
    · intro e he
      rcases List.mem_map.mp he with ⟨e0, he0, heq⟩
      by_cases hk : e0.key = u
      · rw [← heq]
        simp [hk]
      · rw [← heq]
        simp [hk]
        exact hfl e0 he0
  · rw [if_neg hin]
    constructor
    · rw [List.map_append]
      simp [List.nodup_append]
      refine ⟨hnd, ?_⟩
      intro e he hk
      exact hin (List.any_eq_true.mpr ⟨e, he, by simp [hk]⟩)
    · intro e he
      rcases List.mem_append.mp he with h1 | h1
      · exact hfl e h1
      · rw [List.mem_singleton.mp h1]

theorem rwFind_self (rw : RwTable) (e : RwEntry)
    (hnd : (rw.map RwEntry.key).Nodup) (he : e ∈ rw) :
    rwFind rw e.key = some e := by
  induction rw with
  | nil => cases he
  | cons a rest ih =>
    rcases List.mem_cons.mp he with h | h
    · rw [h]
      simp [rwFind, List.find?]
    · have hne : ¬ (a.key = e.key) := by
        intro hk
        have : e.key ∈ rest.map RwEntry.key := List.mem_map_of_mem RwEntry.key h
        rw [List.map_cons, List.nodup_cons] at hnd
        exact hnd.1 (hk ▸ this)
      have := ih (by rw [List.map_cons, List.nodup_cons] at hnd; exact hnd.2) h
      simpa [rwFind, List.find?, hne] using this

/-- Inversion of one step of the inner rewiring loop. -/
theorem rewireUps_cons_inv (lc : LC) (fuel : Nat) (wf : WfDoc) (ns : Nodes)
    (vd : List String) (v : String) (vtype : Option String) (u : String)
    (rest vis : List String) (rw : RwTable)
    (out : List String × RwTable)
    (h : rewireUps lc fuel wf ns vd v vtype (u :: rest) vis rw = Except.ok out) :
    ∃ vis1 rw1,
      rewireUps lc fuel wf ns vd v vtype rest vis1 rw1 = Except.ok out
      ∧ (rw1 = rw ∨ ∃ tp, rw1 = rwSet rw u (flattenId u) tp)
      ∧ (¬ (u ∉ vd ∧ (mapFind ns u).bind (fun n => n.type) = some INPUT) →
          vis1 = vis)
      ∧ ((u ∉ vd ∧ (mapFind ns u).bind (fun n => n.type) = some INPUT) →
          vis1 = setAdd vis u) := by
  rw [rewireUps] at h
  by_cases hvd : u ∈ vd
  · rw [if_pos hvd] at h
    exact ⟨vis, rw, h, Or.inl rfl, fun _ => rfl, fun hc => absurd hvd hc.1⟩
  · rw [if_neg hvd] at h
    by_cases hk : (mapFind ns u).bind (fun n => n.type) = some INPUT
    · rw [if_pos hk] at h
      exact ⟨setAdd vis u, rw, h, Or.inl rfl,
        fun hc => absurd ⟨hvd, hk⟩ hc, fun _ => rfl⟩
    · rw [if_neg hk] at h
      by_cases hst : vtype = some STEP
      · rw [if_pos hst] at h
        cases hf : findStep fuel wf.steps v lc with
        | none => simp only [hf] at h; cases h
        | some st =>
          simp only [hf] at h
          cases hs : scanPorts st.inPorts u with
          | some tp =>
            simp only [hs] at h
            exact ⟨vis, rwSet rw u (flattenId u) tp, h,
              Or.inr ⟨tp, rfl⟩, fun _ => rfl, fun hc => absurd hc.2 hk⟩
          | none =>
            simp only [hs] at h
            exact ⟨vis, rw, h, Or.inl rfl, fun _ => rfl, fun hc => absurd hc.2 hk⟩
      · rw [if_neg hst] at h
        exact ⟨vis, rw, h, Or.inl rfl, fun _ => rfl, fun hc => absurd hc.2 hk⟩

theorem rewireUps_mono (lc : LC) (fuel : Nat) (wf : WfDoc) (ns : Nodes)
    (vd : List String) (v : String) (vtype : Option String)
    (ups vis : List String) (rw : RwTable) (out : List String × RwTable)
    (h : rewireUps lc fuel wf ns vd v vtype ups vis rw = Except.ok out) :
    ∀ x ∈ vis, x ∈ out.1 := by
  induction ups generalizing vis rw with
  | nil =>
    rw [rewireUps] at h
    cases h
    exact fun x hx => hx
  | cons u rest ih =>
    obtain ⟨vis1, rw1, h1, _, hni, hinp⟩ := rewireUps_cons_inv _ _ _ _ _ _ _ _ _ _ _ _ h
    intro x hx
    rcases Classical.em
        ((u ∉ vd ∧ (mapFind ns u).bind (fun n => n.type) = some INPUT)) with hc | hc
    · have hv := hinp hc
      exact ih _ _ h1 x (by rw [hv, setAdd_mem]; exact Or.inl hx)
    · have hv := hni hc
      exact ih _ _ h1 x (hv ▸ hx)

theorem rewireUps_input_mem (lc : LC) (fuel : Nat) (wf : WfDoc) (ns : Nodes)
    (vd : List String) (v : String) (vtype : Option String)
    (ups vis : List String) (rw : RwTable) (out : List String × RwTable)
    (h : rewireUps lc fuel wf ns vd v vtype ups vis rw = Except.ok out)
    (u0 : String) (hu : u0 ∈ ups) (hnvd : u0 ∉ vd)
    (hk : (mapFind ns u0).bind (fun n => n.type) = some INPUT) :
    u0 ∈ out.1 := by
  induction ups generalizing vis rw with
  | nil => cases hu
  | cons u rest ih =>
    obtain ⟨vis1, rw1, h1, _, _, hinp⟩ := rewireUps_cons_inv _ _ _ _ _ _ _ _ _ _ _ _ h
    rcases List.mem_cons.mp hu with h2 | h2
    · have hv : vis1 = setAdd vis u := hinp (h2 ▸ ⟨hnvd, hk⟩)
      have hu1 : u0 ∈ vis1 := by
        rw [hv]
        exact (setAdd_mem vis u u0).mpr (Or.inr h2)
      exact rewireUps_mono _ _ _ _ _ _ _ _ _ _ _ h1 u0 hu1
    · exact ih _ _ h1 h2

theorem rewireUps_vis_sub (lc : LC) (fuel : Nat) (wf : WfDoc) (ns : Nodes)
    (vd : List String) (v : String) (vtype : Option String)
    (ups vis : List String) (rw : RwTable) (out : List String × RwTable)
    (h : rewireUps lc fuel wf ns vd v vtype ups vis rw = Except.ok out) :
    ∀ x ∈ out.1, x ∈ vis
      ∨ (mapFind ns x).bind (fun n => n.type) = some INPUT := by
  induction ups generalizing vis rw with
  | nil =>
    rw [rewireUps] at h
    cases h
    exact fun x hx => Or.inl hx
  | cons u rest ih =>
    obtain ⟨vis1, rw1, h1, _, hni, hinp⟩ :=
      rewireUps_cons_inv _ _ _ _ _ _ _ _ _ _ _ _ h
    intro x hx
    rcases ih _ _ h1 x hx with h2 | h2
    · rcases Classical.em
          ((u ∉ vd ∧ (mapFind ns u).bind (fun n => n.type) = some INPUT))
        with hc | hc
      · rw [hinp hc, setAdd_mem] at h2
        rcases h2 with h2 | h2
        · exact Or.inl h2
        · exact Or.inr (h2 ▸ hc.2)
      · exact Or.inl ((hni hc) ▸ h2)
    · exact Or.inr h2

theorem rewireUps_rw_good (lc : LC) (fuel : Nat) (wf : WfDoc) (ns : Nodes)
    (vd : List String) (v : String) (vtype : Option String)
    (ups vis : List String) (rw : RwTable) (out : List String × RwTable)
    (h : rewireUps lc fuel wf ns vd v vtype ups vis rw = Except.ok out)
    (hg : rwGood rw) : rwGood out.2 := by
  induction ups generalizing vis rw with
  | nil =>
    rw [rewireUps] at h
    cases h
    exact hg
  | cons u rest ih =>
    obtain ⟨vis1, rw1, h1, hw, _, _⟩ := rewireUps_cons_inv _ _ _ _ _ _ _ _ _ _ _ _ h
    rcases hw with hw | ⟨tp, hw⟩
    · exact ih _ _ h1 (hw ▸ hg)
    · exact ih _ _ h1 (hw ▸ rwSet_good rw u tp hg)

/-- Inversion of one step of the outer rewiring loop. -/
theorem rewireLoop_cons_inv (lc : LC) (fuel : Nat) (wf : WfDoc) (ns : Nodes)
    (vd : List String) (v : String) (rest vis : List String) (rw : RwTable)
    (out : List String × RwTable)
    (h : rewireLoop lc fuel wf ns vd (v :: rest) vis rw = Except.ok out) :
    ∃ vis1 rw1,
      rewireLoop lc fuel wf ns vd rest vis1 rw1 = Except.ok out
      ∧ (∀ x ∈ setAdd vis v, x ∈ vis1)
      ∧ (∀ x ∈ vis1, x ∈ setAdd vis v
          ∨ (mapFind ns x).bind (fun n => n.type) = some INPUT)
      ∧ (rwGood rw → rwGood rw1)
      ∧ (((mapFind ns v).bind (fun n => n.type) = some STEP
          ∨ (mapFind ns v).bind (fun n => n.type) = some OUTPUT) →
        rewireUps lc fuel wf ns vd v ((mapFind ns v).bind (fun n => n.type))
          (((mapFind ns v).map NodeRec.up).getD []) (setAdd vis v) rw
          = Except.ok (vis1, rw1)) := by
  rw [rewireLoop] at h
  by_cases ht : (mapFind ns v).bind (fun n => n.type) = some STEP
      ∨ (mapFind ns v).bind (fun n => n.type) = some OUTPUT
  · rw [if_pos ht] at h
    cases hu : rewireUps lc fuel wf ns vd v ((mapFind ns v).bind (fun n => n.type))
        (((mapFind ns v).map NodeRec.up).getD []) (setAdd vis v) rw with
    | error e => rw [hu] at h; cases h
    | ok p =>
      obtain ⟨v2, w2⟩ := p
      rw [hu] at h
      refine ⟨v2, w2, h, ?_, ?_, ?_, fun _ => rfl⟩
      · exact fun x hx => rewireUps_mono _ _ _ _ _ _ _ _ _ _ _ hu x hx
      · exact fun x hx => rewireUps_vis_sub _ _ _ _ _ _ _ _ _ _ _ hu x hx
      · exact fun hg => rewireUps_rw_good _ _ _ _ _ _ _ _ _ _ _ hu hg
  · rw [if_neg ht] at h
    exact ⟨setAdd vis v, rw, h, fun x hx => hx, fun x hx => Or.inl hx,
      fun hg => hg, fun hc => absurd hc ht⟩

theorem rewireLoop_mono (lc : LC) (fuel : Nat) (wf : WfDoc) (ns : Nodes)
    (vd rem vis : List String) (rw : RwTable) (out : List String × RwTable)
    (h : rewireLoop lc fuel wf ns vd rem vis rw = Except.ok out) :
    ∀ x ∈ vis, x ∈ out.1 := by
  induction rem generalizing vis rw with
  | nil =>
    rw [rewireLoop] at h
    cases h
    exact fun x hx => hx
  | cons v rest ih =>
    obtain ⟨vis1, rw1, h1, hup, _, _, _⟩ :=
      rewireLoop_cons_inv _ _ _ _ _ _ _ _ _ _ h
    intro x hx
    exact ih _ _ h1 x (hup x ((setAdd_mem vis v x).mpr (Or.inl hx)))

theorem rewireLoop_rem_mem (lc : LC) (fuel : Nat) (wf : WfDoc) (ns : Nodes)
    (vd rem vis : List String) (rw : RwTable) (out : List String × RwTable)
    (h : rewireLoop lc fuel wf ns vd rem vis rw = Except.ok out) :
    ∀ v ∈ rem, v ∈ out.1 := by
  induction rem generalizing vis rw with
  | nil => intro v hv; cases hv
  | cons v rest ih =>
    obtain ⟨vis1, rw1, h1, hup, _, _, _⟩ :=
      rewireLoop_cons_inv _ _ _ _ _ _ _ _ _ _ h
    intro w hw
    rcases List.mem_cons.mp hw with h2 | h2
    · exact rewireLoop_mono _ _ _ _ _ _ _ _ _ h1 w
        (hup w ((setAdd_mem vis v w).mpr (Or.inr h2)))
    · exact ih _ _ h1 w h2

theorem rewireLoop_vis_sub (lc : LC) (fuel : Nat) (wf : WfDoc) (ns : Nodes)
    (vd rem vis : List String) (rw : RwTable) (out : List String × RwTable)
    (h : rewireLoop lc fuel wf ns vd rem vis rw = Except.ok out) :
    ∀ x ∈ out.1, x ∈ vis ∨ x ∈ rem
      ∨ (mapFind ns x).bind (fun n => n.type) = some INPUT := by
  induction rem generalizing vis rw with
  | nil =>
    rw [rewireLoop] at h
    cases h
    exact fun x hx => Or.inl hx
  | cons v rest ih =>
    obtain ⟨vis1, rw1, h1, _, hsub, _, _⟩ :=
      rewireLoop_cons_inv _ _ _ _ _ _ _ _ _ _ h
    intro x hx
    rcases ih _ _ h1 x hx with h2 | h2 | h2
    · rcases hsub x h2 with h3 | h3
      · rw [setAdd_mem] at h3
        rcases h3 with h3 | h3
        · exact Or.inl h3
        · exact Or.inr (Or.inl (h3 ▸ List.mem_cons_self v rest))
      · exact Or.inr (Or.inr h3)
    · exact Or.inr (Or.inl (List.mem_cons_of_mem v h2))
    · exact Or.inr (Or.inr h2)

theorem rewireLoop_input_mem (lc : LC) (fuel : Nat) (wf : WfDoc) (ns : Nodes)
    (vd rem vis : List String) (rw : RwTable) (out : List String × RwTable)
    (h : rewireLoop lc fuel wf ns vd rem vis rw = Except.ok out)
    (v : String) (hv : v ∈ rem)
    (ht : (mapFind ns v).bind (fun n => n.type) = some STEP
        ∨ (mapFind ns v).bind (fun n => n.type) = some OUTPUT)
    (u : String) (hu : u ∈ ((mapFind ns v).map NodeRec.up).getD [])
    (hnvd : u ∉ vd)
    (hk : (mapFind ns u).bind (fun n => n.type) = some INPUT) :
    u ∈ out.1 := by
  induction rem generalizing vis rw with
  | nil => cases hv
  | cons w rest ih =>
    obtain ⟨vis1, rw1, h1, _, _, _, hups⟩ :=
      rewireLoop_cons_inv _ _ _ _ _ _ _ _ _ _ h
    rcases List.mem_cons.mp hv with h2 | h2
    · subst h2
      have hcall := hups ht
      have : u ∈ vis1 :=
        rewireUps_input_mem _ _ _ _ _ _ _ _ _ _ _ hcall u hu hnvd hk
      exact rewireLoop_mono _ _ _ _ _ _ _ _ _ h1 u this
    · exact ih _ _ h1 h2

theorem rewireLoop_rw_good (lc : LC) (fuel : Nat) (wf : WfDoc) (ns : Nodes)
    (vd rem vis : List String) (rw : RwTable) (out : List String × RwTable)
    (h : rewireLoop lc fuel wf ns vd rem vis rw = Except.ok out)
    (hg : rwGood rw) : rwGood out.2 := by
  induction rem generalizing vis rw with
  | nil =>
    rw [rewireLoop] at h
    cases h
    exact hg
  | cons v rest ih =>
    obtain ⟨vis1, rw1, h1, _, _, hgood, _⟩ :=
      rewireLoop_cons_inv _ _ _ _ _ _ _ _ _ _ h
    exact ih _ _ h1 (hgood hg)

/-! ### Claim C9: an unregistered root makes `get_subgraph` fail -/

theorem visitRoots_err (ns : Nodes) (roots vis : List String) (r : String)
    (hr : r ∈ roots) (hnone : mapFind ns r = none) :
    ∃ e, visitRoots ns roots vis = Except.error e := by
  induction roots generalizing vis with
  | nil => cases hr
  | cons a rest ih =>
    rw [visitRoots]
    cases hm : mapFind ns a with
    | none => exact ⟨_, rfl⟩
    | some n =>
      rcases List.mem_cons.mp hr with h | h
      · rw [h] at hnone
        rw [hnone] at hm
        cases hm
      · exact ih _ h

/-- Claim C9: for every pipeline document and every root identifier that
was never declared as an input, output or step and never referenced by
any `source`, `outputSource` or step output port, `get_subgraph` fails
with an error (the registry lookup on the root has nothing to find) and
returns no document. -/
theorem get_subgraph_unknown_root (lc : LC) (fuel : Nat) (wf : WfDoc)
    (roots : List String) (r : String)
    (hcls : wf.cls = "Workflow") (hr : r ∈ roots)
    (h1 : r ∉ wf.inputIds) (h2 : r ∉ wf.outputIds) (h3 : r ∉ wf.stepIds)
    (h4 : r ∉ wf.osRefs) (h5 : r ∉ wf.stepSrcRefs) (h6 : r ∉ wf.stepOutIds) :
    ∃ e, getSubgraph lc fuel wf roots = Except.error e := by
  have habs : mapFind (buildNodes wf) r = none := by
    rw [buildNodes_find, if_neg]
    intro hmem
    unfold declaredIds at hmem
    rcases List.mem_append.mp hmem with hm | hm6
    rotate_left
    · exact h6 hm6
    rcases List.mem_append.mp hm with hm | hm5
    rotate_left
    · exact h5 hm5
    rcases List.mem_append.mp hm with hm | hm4
    rotate_left
    · exact h3 hm4
    rcases List.mem_append.mp hm with hm | hm3
    rotate_left
    · exact h4 hm3
    rcases List.mem_append.mp hm with hm1 | hm2
    · exact h1 hm1
    · exact h2 hm2
  obtain ⟨e, he⟩ := visitRoots_err (buildNodes wf) roots [] r hr habs
  refine ⟨e, ?_⟩
  unfold getSubgraph subgraphParts
  rw [if_neg (by rw [hcls]; intro hc; exact hc rfl), he]

def c9Wf : WfDoc :=
  { cls := "Workflow", docId := "W", cwlVersion := some "v1.2",
    inputs := [InputRec.mk "W#i" "File" none],
    outputs := [],
    steps := [Step.mk "W#A"
      [InPort.mk "W#A/in" (some (SourceField.scalar "W#i")) "File" none none]
      [OutEntry.plain "W#A/o"] Run.embeddedOther],
    others := [] }

/-- Witness for C9: the identifier `W#ghost` occurs nowhere in the
pipeline, so extraction rooted at it fails. -/
theorem get_subgraph_unknown_root_witness :
    ("W#ghost" ∉ c9Wf.inputIds ∧ "W#ghost" ∉ c9Wf.stepIds
      ∧ "W#ghost" ∉ c9Wf.stepSrcRefs)
    ∧ ∃ e, getSubgraph ⟨[]⟩ 5 c9Wf ["W#ghost"] = Except.error e :=
  ⟨⟨by decide, by decide, by decide⟩,
    get_subgraph_unknown_root ⟨[]⟩ 5 c9Wf ["W#ghost"] "W#ghost" rfl
      (by decide) (by decide) (by decide) (by decide) (by decide)
      (by decide) (by decide)⟩

/-! ### Claim C10: the port scan uses substring containment, first match -/

/-- Claim C10: when the step owning a dangling dependency `u` is
scanned for the port whose type will be recorded (lines 177-180,
embedded as `scanPorts`), the test on a port's `source` is Python's `in`
operator — substring containment for a scalar string source, not
equality — and the first port whose source contains `u` wins.  The
concrete conjuncts exhibit a scalar source `W#s/xy` that strictly
contains the dangling identifier `W#s/x` without being equal to it, yet
is accepted. -/
theorem rewire_port_scan_substring (ports1 : List InPort) (p : InPort)
    (ports2 : List InPort) (u : String) (sf : SourceField)
    (hearlier : ∀ q ∈ ports1, ∀ s, q.source = some s → sfContains s u = false)
    (hp : p.source = some sf) (hc : sfContains sf u = true) :
    scanPorts (ports1 ++ p :: ports2) u = some p.type
    ∧ sfContains (SourceField.scalar "W#s/xy") "W#s/x" = true
    ∧ ("W#s/xy" ≠ "W#s/x")
    ∧ sfContains (SourceField.list ["W#s/xy"]) "W#s/x" = false := by
  refine ⟨?_, by decide, by decide, by decide⟩
  induction ports1 with
  | nil =>
    simp only [List.nil_append, scanPorts, hp, hc, if_pos]
  | cons q rest ih =>
    have hq := hearlier q (List.mem_cons_self q rest)
    rw [List.cons_append, scanPorts]
    cases hqs : q.source with
    | none =>
      exact ih (fun q' hq' => hearlier q' (List.mem_cons_of_mem q hq'))
    | some s =>
      have hf := hq s hqs
      simp only [hf, Bool.false_eq_true, if_false]
      exact ih (fun q' hq' => hearlier q' (List.mem_cons_of_mem q hq'))

def c10Port : InPort :=
  InPort.mk "W#s/p1" (some (SourceField.scalar "W#s/xy")) "File" none none

/-- Witness for C10: a single-port scan where the scalar source strictly
contains the dangling identifier. -/
theorem rewire_port_scan_substring_witness :
    scanPorts [c10Port] "W#s/x" = some "File"
    ∧ sfContains (SourceField.scalar "W#s/xy") "W#s/x" = true :=
  ⟨(rewire_port_scan_substring [] c10Port [] "W#s/x"
      (SourceField.scalar "W#s/xy") (fun q hq => absurd hq (by simp))
      rfl (by decide)).1,
    (rewire_port_scan_substring [] c10Port [] "W#s/x"
      (SourceField.scalar "W#s/xy") (fun q hq => absurd hq (by simp))
      rfl (by decide)).2.1⟩

/-! ### Claim C1: synthesized inputs for dangling dependencies -/

theorem subgraphParts_inv (lc : LC) (fuel : Nat) (wf : WfDoc)
    (roots vd vis : List String) (rw : RwTable)
    (h : subgraphParts lc fuel wf roots = Except.ok (vd, vis, rw)) :
    wf.cls = "Workflow"
    ∧ visitRoots (buildNodes wf) roots [] = Except.ok vd
    ∧ rewireLoop lc fuel wf (buildNodes wf) vd vd [] [] = Except.ok (vis, rw) := by
  unfold subgraphParts at h
  by_cases hcls : wf.cls ≠ "Workflow"
  · rw [if_pos hcls] at h
    cases h
  · rw [if_neg hcls] at h
    push_neg at hcls
    cases hv : visitRoots (buildNodes wf) roots [] with
    | error e => rw [hv] at h; cases h
    | ok vd0 =>
      rw [hv] at h
      cases hl : rewireLoop lc fuel wf (buildNodes wf) vd0 vd0 [] [] with
      | error e => simp only [hl] at h; cases h
      | ok p =>
        obtain ⟨vis0, rw0⟩ := p
        simp only [hl] at h
        cases h
        exact ⟨hcls, rfl, hl⟩

theorem getSubgraph_of_parts (lc : LC) (fuel : Nat) (wf : WfDoc)
    (roots vd vis : List String) (rw : RwTable)
    (h : subgraphParts lc fuel wf roots = Except.ok (vd, vis, rw)) :
    getSubgraph lc fuel wf roots = Except.ok (assemble wf vis rw) := by
  unfold getSubgraph
  rw [h]

/-- Claim C1 amended: rewire entries are created only for dangling
dependencies of reached *step* nodes whose located step record has a
port matching the identifier (a dangling upstream of a reached *output*
node produces no entry — see the counterexample).  For each recorded
entry: the rewire table holds exactly one entry per dangling identifier,
the returned document's inputs are the retained original inputs followed
by exactly one new input per entry whose identifier is the entry key's
flattened form (fragment `/` replaced by `_`), the returned steps are
the retained steps with every port source rewritten through the table,
and a scalar source equal to a rewired identifier is replaced by its
flattened name (list elements are rewritten element-wise). -/
theorem rewire_new_input (lc : LC) (fuel : Nat) (wf : WfDoc)
    (roots vd vis : List String) (rw : RwTable)
    (h : subgraphParts lc fuel wf roots = Except.ok (vd, vis, rw)) :
    getSubgraph lc fuel wf roots = Except.ok (assemble wf vis rw)
    ∧ (rw.map RwEntry.key).Nodup
    ∧ (assemble wf vis rw).inputs
        = wf.inputs.filter (fun i => decide (i.id ∈ vis))
          ++ rw.map (fun e => InputRec.mk (flattenId e.key) e.tp none)
    ∧ (assemble wf vis rw).steps
        = (wf.steps.filter (fun st => decide (st.id ∈ vis))).map (rewriteStep rw)
    ∧ (∀ e ∈ rw, rewriteSF rw (SourceField.scalar e.key)
        = SourceField.scalar (flattenId e.key)) := by
  obtain ⟨hcls, hv, hl⟩ := subgraphParts_inv _ _ _ _ _ _ _ h
  have hgood : rwGood rw :=
    rewireLoop_rw_good _ _ _ _ _ _ _ _ (vis, rw) hl ⟨List.nodup_nil, by simp⟩
  obtain ⟨hnd, hfl⟩ := hgood
  refine ⟨getSubgraph_of_parts _ _ _ _ _ _ _ h, hnd, ?_, rfl, ?_⟩
  · have hproj : (assemble wf vis rw).inputs
        = wf.inputs.filter (fun i => decide (i.id ∈ vis))
          ++ rw.map (fun e => InputRec.mk e.rn e.tp none) := rfl
    rw [hproj]
    congr 1
    apply List.map_congr_left
    intro e he
    rw [hfl e he]
  · intro e he
    simp only [rewriteSF, rwFind_self rw e hnd he, hfl e he]

def c1Wf : WfDoc :=
  { cls := "Workflow", docId := "W", cwlVersion := some "v1.2",
    inputs := [InputRec.mk "W#i" "File" none],
    outputs := [OutputRec.mk "W#O" "File"
      (some (SourceField.list ["W#A/o", "W#B/o"]))],
    steps :=
      [Step.mk "W#A"
        [InPort.mk "W#A/in" (some (SourceField.scalar "W#i")) "File" none none]
        [OutEntry.plain "W#A/o"] Run.embeddedOther,
       Step.mk "W#B" [] [OutEntry.plain "W#B/o"] Run.embeddedOther],
    others := [] }

/-- Claim C1 counterexample: rooting at step `W#A` reaches the output
`W#O`, whose upstream `W#B/o` is neither reached nor an input — a
dangling dependency of a reached Output node in the claim's sense.  Yet
the returned document contains no input named `W#B_o` (the flattened
form of `W#B/o`): the rewiring branch only records entries when the
reached owner is a Step. -/
theorem rewire_new_input_cex :
    (getSubgraph ⟨[]⟩ 9 c1Wf ["W#A"]).map
        (fun d => decide ("W#B_o" ∈ d.inputs.map InputRec.id)) = Except.ok false
    ∧ (subgraphParts ⟨[]⟩ 9 c1Wf ["W#A"]).map
        (fun p => decide ("W#B/o" ∈ p.1)) = Except.ok false
    ∧ (subgraphParts ⟨[]⟩ 9 c1Wf ["W#A"]).map
        (fun p => decide ("W#O" ∈ p.1)) = Except.ok true
    ∧ "W#B/o" ∈ ((mapFind (buildNodes c1Wf) "W#O").map NodeRec.up).getD []
    ∧ (mapFind (buildNodes c1Wf) "W#O").bind (fun n => n.type) = some OUTPUT
    ∧ ¬ ((mapFind (buildNodes c1Wf) "W#B/o").bind (fun n => n.type) = some INPUT)
    ∧ flattenId "W#B/o" = "W#B_o" := by
  refine ⟨?_, ?_, ?_, by decide, by decide, by decide, by decide⟩
  · simp [c1Wf, getSubgraph, subgraphParts, visitRoots, dfsVisit, edgesOf, dirFor,
      buildNodes, declSteps, declOutputs, declInputs, declSrcEdges, declOutEdges,
      srcEdge, outEdge, declareNode, pushUp, pushDown, mapSet, mapFind, Step.srcIds,
      Step.outIds, Step.id, Step.inPorts, Step.outs, OutEntry.outId, asListOS,
      asListSF, INPUT, OUTPUT, STEP, rewireLoop, rewireUps, setAdd, sfContains,
      hasSub, scanPorts, flattenId, urldefrag, splitOnChar, charReplace, rwSet,
      rwFind, assemble, rewriteStep, rewriteSF, findStep, Except.map]
    try decide
  · simp [c1Wf, subgraphParts, visitRoots, dfsVisit, edgesOf, dirFor,
      buildNodes, declSteps, declOutputs, declInputs, declSrcEdges, declOutEdges,
      srcEdge, outEdge, declareNode, pushUp, pushDown, mapSet, mapFind, Step.srcIds,
      Step.outIds, Step.id, Step.inPorts, Step.outs, OutEntry.outId, asListOS,
      asListSF, INPUT, OUTPUT, STEP, rewireLoop, rewireUps, setAdd, sfContains,
      hasSub, scanPorts, flattenId, urldefrag, splitOnChar, charReplace, rwSet,
      rwFind, findStep, Except.map]
    try decide
  · simp [c1Wf, subgraphParts, visitRoots, dfsVisit, edgesOf, dirFor,
      buildNodes, declSteps, declOutputs, declInputs, declSrcEdges, declOutEdges,
      srcEdge, outEdge, declareNode, pushUp, pushDown, mapSet, mapFind, Step.srcIds,
      Step.outIds, Step.id, Step.inPorts, Step.outs, OutEntry.outId, asListOS,
      asListSF, INPUT, OUTPUT, STEP, rewireLoop, rewireUps, setAdd, sfContains,
      hasSub, scanPorts, flattenId, urldefrag, splitOnChar, charReplace, rwSet,
      rwFind, findStep, Except.map]
    try decide

def c1WitWf : WfDoc :=
  { cls := "Workflow", docId := "W", cwlVersion := some "v1.2",
    inputs := [],
    outputs := [],
    steps :=
      [Step.mk "W#A"
        [InPort.mk "W#A/in" (some (SourceField.scalar "W#up/o")) "File" none none]
        [OutEntry.plain "W#A/o"] Run.embeddedOther],
    others := [] }

/-- Witness for the amended C1: the step `W#A` depends on the interior
identifier `W#up/o`, which is dangling when rooting at `W#A`; the rewire
table gets the single entry flattening it to `W#up_o`. -/
theorem rewire_new_input_witness :
    subgraphParts ⟨[]⟩ 9 c1WitWf ["W#A"]
      = Except.ok (["W#A", "W#A/o"], ["W#A", "W#A/o"],
          [RwEntry.mk "W#up/o" "W#up_o" "File"])
    ∧ (assemble c1WitWf ["W#A", "W#A/o"]
          [RwEntry.mk "W#up/o" "W#up_o" "File"]).inputs
        = [] ++ [RwEntry.mk "W#up/o" "W#up_o" "File"].map
            (fun e => InputRec.mk (flattenId e.key) e.tp none) := by
  have h : subgraphParts ⟨[]⟩ 9 c1WitWf ["W#A"]
      = Except.ok (["W#A", "W#A/o"], ["W#A", "W#A/o"],
          [RwEntry.mk "W#up/o" "W#up_o" "File"]) := by
    simp [c1WitWf, subgraphParts, visitRoots, dfsVisit, edgesOf, dirFor,
      buildNodes, declSteps, declOutputs, declInputs, declSrcEdges, declOutEdges,
      srcEdge, outEdge, declareNode, pushUp, pushDown, mapSet, mapFind, Step.srcIds,
      Step.outIds, Step.id, Step.inPorts, Step.outs, OutEntry.outId, asListOS,
      asListSF, INPUT, OUTPUT, STEP, rewireLoop, rewireUps, setAdd, sfContains,
      hasSub, scanPorts, flattenId, urldefrag, splitOnChar, charReplace, rwSet,
      rwFind, findStep, strStarts, strDrop, strlen]
    try decide
  have hmain := rewire_new_input ⟨[]⟩ 9 c1WitWf ["W#A"] _ _ _ h
  refine ⟨h, ?_⟩
  have := hmain.2.2.1
  simpa [c1WitWf] using this

/-! ### Claim C7: how step `source` values are rewritten at assembly -/

/-- Claim C7: in the document `get_subgraph` returns, every copied step
record appears with each of its sourced input ports rewritten through
the rewire table: a list-valued `source` is rebuilt element-wise, each
element present in the table replaced by its synthetic identifier and
every element absent from the table dropped (even elements that belong
to the extracted subgraph); a scalar `source` is replaced when present
in the table and left unchanged otherwise. -/
theorem step_source_rewrite (lc : LC) (fuel : Nat) (wf : WfDoc)
    (roots vd vis : List String) (rw : RwTable) (st : Step) (p : InPort)
    (h : subgraphParts lc fuel wf roots = Except.ok (vd, vis, rw))
    (hst : st ∈ wf.steps) (hid : st.id ∈ vis) (hp : p ∈ st.inPorts) :
    getSubgraph lc fuel wf roots = Except.ok (assemble wf vis rw)
    ∧ rewriteStep rw st ∈ (assemble wf vis rw).steps
    ∧ { p with source := p.source.map (rewriteSF rw) } ∈ (rewriteStep rw st).inPorts
    ∧ (∀ l, p.source = some (SourceField.list l) →
        p.source.map (rewriteSF rw)
          = some (SourceField.list
              (l.filterMap (fun s => (rwFind rw s).map RwEntry.rn))))
    ∧ (∀ s e, p.source = some (SourceField.scalar s) → rwFind rw s = some e →
        p.source.map (rewriteSF rw) = some (SourceField.scalar e.rn))
    ∧ (∀ s, p.source = some (SourceField.scalar s) → rwFind rw s = none →
        p.source.map (rewriteSF rw) = some (SourceField.scalar s)) := by
  refine ⟨getSubgraph_of_parts _ _ _ _ _ _ _ h, ?_, ?_, ?_, ?_, ?_⟩
  · have hmem : st ∈ wf.steps.filter (fun s => decide (s.id ∈ vis)) :=
      List.mem_filter.mpr ⟨hst, by simpa using hid⟩
    exact List.mem_map_of_mem (rewriteStep rw) hmem
  · exact List.mem_map_of_mem _ hp
  · intro l hl
    rw [hl]
    simp [rewriteSF]
  · intro s e hs he
    rw [hs]
    simp [rewriteSF, he]
  · intro s hs he
    rw [hs]
    simp [rewriteSF, he]

def c7Wf : WfDoc :=
  { cls := "Workflow", docId := "W", cwlVersion := some "v1.2",
    inputs := [],
    outputs := [],
    steps :=
      [Step.mk "W#A"
        [InPort.mk "W#A/in" (some (SourceField.scalar "W#up/o")) "File" none none]
        [OutEntry.plain "W#A/o"] Run.embeddedOther],
    others := [] }

def c7Port : InPort :=
  InPort.mk "W#A/in" (some (SourceField.scalar "W#up/o")) "File" none none

/-- Witness for C7 on a step whose scalar source is rewired. -/
theorem step_source_rewrite_witness :
    (subgraphParts ⟨[]⟩ 9 c7Wf ["W#A"]
        = Except.ok (["W#A", "W#A/o"], ["W#A", "W#A/o"],
            [RwEntry.mk "W#up/o" "W#up_o" "File"])
      ∧ c7Port ∈ (c7Wf.steps.headD (Step.mk "" [] [] Run.embeddedOther)).inPorts)
    ∧ c7Port.source.map (rewriteSF [RwEntry.mk "W#up/o" "W#up_o" "File"])
        = some (SourceField.scalar "W#up_o") := by
  have h : subgraphParts ⟨[]⟩ 9 c7Wf ["W#A"]
      = Except.ok (["W#A", "W#A/o"], ["W#A", "W#A/o"],
          [RwEntry.mk "W#up/o" "W#up_o" "File"]) := by
    simp [c7Wf, subgraphParts, visitRoots, dfsVisit, edgesOf, dirFor,
      buildNodes, declSteps, declOutputs, declInputs, declSrcEdges, declOutEdges,
      srcEdge, outEdge, declareNode, pushUp, pushDown, mapSet, mapFind, Step.srcIds,
      Step.outIds, Step.id, Step.inPorts, Step.outs, OutEntry.outId, asListOS,
      asListSF, INPUT, OUTPUT, STEP, rewireLoop, rewireUps, setAdd, sfContains,
      hasSub, scanPorts, flattenId, urldefrag, splitOnChar, charReplace, rwSet,
      rwFind, findStep, strStarts, strDrop, strlen]
    try decide
  have hmain := step_source_rewrite ⟨[]⟩ 9 c7Wf ["W#A"] _ _ _
    (Step.mk "W#A" [c7Port] [OutEntry.plain "W#A/o"] Run.embeddedOther) c7Port h
    (by simp [c7Wf, c7Port]) (by decide) (by simp [c7Port, Step.inPorts])
  refine ⟨⟨h, by simp [c7Wf, c7Port, Step.inPorts]⟩, ?_⟩
  exact hmain.2.2.2.2.1 "W#up/o" (RwEntry.mk "W#up/o" "W#up_o" "File") rfl (by decide)

/-! ### Claim C3: declared inputs referenced by retained records survive -/

/-- Claim C3: for a pipeline whose declared inputs share no identifier
with a step or output record (identifiers are globally unique in a
well-formed document), every declared input that appears among the
original `source` identifiers of a step record kept in the returned
document, or among the `outputSource` identifiers of a kept output
record, is itself kept in the returned document's inputs — even when the
directional walk never reached it. -/
theorem subgraph_retains_inputs (lc : LC) (fuel : Nat) (wf : WfDoc)
    (roots vd vis : List String) (rw : RwTable) (inp : InputRec)
    (h : subgraphParts lc fuel wf roots = Except.ok (vd, vis, rw))
    (hu1 : ∀ i ∈ wf.inputs, i.id ∉ wf.stepIds)
    (hu2 : ∀ i ∈ wf.inputs, i.id ∉ wf.outputIds)
    (hinp : inp ∈ wf.inputs)
    (hsrc : (∃ st ∈ wf.steps, st.id ∈ vis ∧ inp.id ∈ st.srcIds)
          ∨ (∃ o ∈ wf.outputs, o.id ∈ vis ∧ inp.id ∈ asListOS o.outputSource)) :
    inp ∈ (assemble wf vis rw).inputs
    ∧ getSubgraph lc fuel wf roots = Except.ok (assemble wf vis rw) := by
  obtain ⟨hcls, hv, hl⟩ := subgraphParts_inv _ _ _ _ _ _ _ h
  have hinpid : inp.id ∈ wf.inputIds := List.mem_map_of_mem InputRec.id hinp
  have hinp_decl : inp.id ∈ declaredIds wf := by
    unfold declaredIds
    exact List.mem_append_left _ (List.mem_append_left _ (List.mem_append_left _
      (List.mem_append_left _ (List.mem_append_left _ hinpid))))
  have hkind_inp : (mapFind (buildNodes wf) inp.id).bind (fun n => n.type)
      = some INPUT := by
    rw [buildNodes_find, if_pos hinp_decl]
    simp [kindSpec, hinpid]
  -- Establish that the owning record's id was reached by the walk, not
  -- merely retained as an input.
  have hmem : inp.id ∈ vis := by
    rcases hsrc with ⟨st, hst, hstv, hsrcid⟩ | ⟨o, ho, hov, hosid⟩
    · -- the owner is a step record
      have hsid : st.id ∈ wf.stepIds := List.mem_map_of_mem Step.id hst
      have hnotinp : st.id ∉ wf.inputIds := by
        intro hc
        rcases List.mem_map.mp hc with ⟨i, hi, hieq⟩
        exact hu1 i hi (hieq ▸ hsid)
      have hvd : st.id ∈ vd := by
        rcases rewireLoop_vis_sub _ _ _ _ _ _ _ _ _ hl st.id hstv with h1 | h1 | h1
        · cases h1
        · exact h1
        · exfalso
          rw [buildNodes_find] at h1
          by_cases hd : st.id ∈ declaredIds wf
          · rw [if_pos hd] at h1
            by_cases hout : st.id ∈ wf.outputIds
            · simp [kindSpec, hnotinp, hout, OUTPUT, INPUT] at h1
            · simp [kindSpec, hnotinp, hout, hsid, STEP, INPUT] at h1
          · rw [if_neg hd] at h1
            cases h1
      have htype : (mapFind (buildNodes wf) st.id).bind (fun n => n.type)
            = some STEP
          ∨ (mapFind (buildNodes wf) st.id).bind (fun n => n.type)
            = some OUTPUT := by
        have hd : st.id ∈ declaredIds wf := by
          unfold declaredIds
          exact List.mem_append_left _ (List.mem_append_left _
            (List.mem_append_right _ hsid))
        rw [buildNodes_find, if_pos hd]
        by_cases hout : st.id ∈ wf.outputIds
        · right; simp [kindSpec, hnotinp, hout]
        · left; simp [kindSpec, hnotinp, hout, hsid]
      have hup : inp.id ∈ ((mapFind (buildNodes wf) st.id).map NodeRec.up).getD [] := by
        have hd : st.id ∈ declaredIds wf := by
          unfold declaredIds
          exact List.mem_append_left _ (List.mem_append_left _
            (List.mem_append_right _ hsid))
        rw [buildNodes_find, if_pos hd]
        show inp.id ∈ upSpec wf st.id
        unfold upSpec
        apply List.mem_append_right
        rw [List.mem_bind]
        exact ⟨st, hst, List.mem_append_left _ (by simp [hsrcid])⟩
      by_cases hvdinp : inp.id ∈ vd
      · exact rewireLoop_rem_mem _ _ _ _ _ _ _ _ _ hl inp.id hvdinp
      · exact rewireLoop_input_mem _ _ _ _ _ _ _ _ _ hl st.id hvd htype
          inp.id hup hvdinp hkind_inp
    · -- the owner is an output record
      have hoid : o.id ∈ wf.outputIds := List.mem_map_of_mem OutputRec.id ho
      have hnotinp : o.id ∉ wf.inputIds := by
        intro hc
        rcases List.mem_map.mp hc with ⟨i, hi, hieq⟩
        exact hu2 i hi (hieq ▸ hoid)
      have hvd : o.id ∈ vd := by
        rcases rewireLoop_vis_sub _ _ _ _ _ _ _ _ _ hl o.id hov with h1 | h1 | h1
        · cases h1
        · exact h1
        · exfalso
          rw [buildNodes_find] at h1
          by_cases hd : o.id ∈ declaredIds wf
          · rw [if_pos hd] at h1
            simp [kindSpec, hnotinp, hoid, OUTPUT, INPUT] at h1
          · rw [if_neg hd] at h1
            cases h1
      have hd : o.id ∈ declaredIds wf := by
        unfold declaredIds
        exact List.mem_append_left _ (List.mem_append_left _
          (List.mem_append_left _ (List.mem_append_left _
            (List.mem_append_right _ hoid))))
      have htype : (mapFind (buildNodes wf) o.id).bind (fun n => n.type)
            = some STEP
          ∨ (mapFind (buildNodes wf) o.id).bind (fun n => n.type)
            = some OUTPUT := by
        rw [buildNodes_find, if_pos hd]
        right
        simp [kindSpec, hnotinp, hoid]
      have hup : inp.id ∈ ((mapFind (buildNodes wf) o.id).map NodeRec.up).getD [] := by
        rw [buildNodes_find, if_pos hd]
        show inp.id ∈ upSpec wf o.id
        unfold upSpec
        apply List.mem_append_left
        rw [List.mem_bind]
        exact ⟨o, List.mem_filter.mpr ⟨ho, by simp⟩, hosid⟩
      by_cases hvdinp : inp.id ∈ vd
      · exact rewireLoop_rem_mem _ _ _ _ _ _ _ _ _ hl inp.id hvdinp
      · exact rewireLoop_input_mem _ _ _ _ _ _ _ _ _ hl o.id hvd htype
          inp.id hup hvdinp hkind_inp
  refine ⟨?_, getSubgraph_of_parts _ _ _ _ _ _ _ h⟩
  have : inp ∈ wf.inputs.filter (fun i => decide (i.id ∈ vis)) :=
    List.mem_filter.mpr ⟨hinp, by simpa using hmem⟩
  exact List.mem_append_left _ this

def c3Wf : WfDoc :=
  { cls := "Workflow", docId := "W", cwlVersion := some "v1.2",
    inputs := [InputRec.mk "W#i" "File" none],
    outputs := [],
    steps :=
      [Step.mk "W#A"
        [InPort.mk "W#A/in" (some (SourceField.scalar "W#i")) "File" none none]
        [OutEntry.plain "W#A/o"] Run.embeddedOther],
    others := [] }

/-- Witness for C3: the input `W#i` is not reached by the downstream
walk from the step root `W#A`, but it sources the retained step and so
survives in the extracted inputs. -/
theorem subgraph_retains_inputs_witness :
    (subgraphParts ⟨[]⟩ 9 c3Wf ["W#A"]
        = Except.ok (["W#A", "W#A/o"], ["W#A", "W#i", "W#A/o"], [])
      ∧ "W#i" ∉ (["W#A", "W#A/o"] : List String))
    ∧ InputRec.mk "W#i" "File" none
        ∈ (assemble c3Wf ["W#A", "W#i", "W#A/o"] []).inputs := by
  have h : subgraphParts ⟨[]⟩ 9 c3Wf ["W#A"]
      = Except.ok (["W#A", "W#A/o"], ["W#A", "W#i", "W#A/o"], []) := by
    simp [c3Wf, subgraphParts, visitRoots, dfsVisit, edgesOf, dirFor,
      buildNodes, declSteps, declOutputs, declInputs, declSrcEdges, declOutEdges,
      srcEdge, outEdge, declareNode, pushUp, pushDown, mapSet, mapFind, Step.srcIds,
      Step.outIds, Step.id, Step.inPorts, Step.outs, OutEntry.outId, asListOS,
      asListSF, INPUT, OUTPUT, STEP, rewireLoop, rewireUps, setAdd, sfContains,
      hasSub, scanPorts, flattenId, urldefrag, splitOnChar, charReplace, rwSet,
      rwFind, findStep, strStarts, strDrop, strlen]
    try decide
  refine ⟨⟨h, by decide⟩, ?_⟩
  exact (subgraph_retains_inputs ⟨[]⟩ 9 c3Wf ["W#A"] _ _ _
    (InputRec.mk "W#i" "File" none) h (by decide) (by decide) (by decide)
    (Or.inl ⟨c3Wf.steps.headD (Step.mk "" [] [] Run.embeddedOther),
      by simp [c3Wf], by decide, by decide⟩)).1

/-! ### Claim C5: re-extraction is not idempotent in general -/

def c5Wf : WfDoc :=
  { cls := "Workflow", docId := "W", cwlVersion := some "v1.2",
    inputs := [InputRec.mk "W#i" "File" none],
    outputs := [],
    steps := [Step.mk "W#A"
      [InPort.mk "W#A/in" (some (SourceField.list ["W#i"])) "File" none none]
      [OutEntry.plain "W#A/o"] Run.embeddedOther],
    others := [] }

/-- Claim C5 counterexample: a pipeline whose single step draws its
input from the declared input `W#i` through a *list*-valued `source`.
The first extraction keeps the input (one input record) but rebuilds the
kept list source from the rewire table, which is empty, so the source
list comes back empty; the second extraction therefore no longer sees
the step depend on `W#i` and drops the input (zero input records). -/
theorem subgraph_idempotent_cex :
    (getSubgraph ⟨[]⟩ 9 c5Wf ["W#A"]).map (fun d => d.inputs.length)
      = Except.ok 1
    ∧ ((getSubgraph ⟨[]⟩ 9 c5Wf ["W#A"]).bind
        (fun d => getSubgraph ⟨[]⟩ 9 d ["W#A"])).map (fun d => d.inputs.length)
      = Except.ok 0 := by
  constructor
  · simp [c5Wf, getSubgraph, subgraphParts, visitRoots, dfsVisit, edgesOf, dirFor,
      buildNodes, declSteps, declOutputs, declInputs, declSrcEdges, declOutEdges,
      srcEdge, outEdge, declareNode, pushUp, pushDown, mapSet, mapFind, Step.srcIds,
      Step.outIds, Step.id, Step.inPorts, Step.outs, OutEntry.outId, asListOS,
      asListSF, INPUT, OUTPUT, STEP, rewireLoop, rewireUps, setAdd, sfContains,
      hasSub, scanPorts, flattenId, urldefrag, splitOnChar, charReplace, rwSet,
      rwFind, assemble, rewriteStep, rewriteSF, findStep, Except.map]
    try decide
  · simp [c5Wf, getSubgraph, subgraphParts, visitRoots, dfsVisit, edgesOf, dirFor,
      buildNodes, declSteps, declOutputs, declInputs, declSrcEdges, declOutEdges,
      srcEdge, outEdge, declareNode, pushUp, pushDown, mapSet, mapFind, Step.srcIds,
      Step.outIds, Step.id, Step.inPorts, Step.outs, OutEntry.outId, asListOS,
      asListSF, INPUT, OUTPUT, STEP, rewireLoop, rewireUps, setAdd, sfContains,
      hasSub, scanPorts, flattenId, urldefrag, splitOnChar, charReplace, rwSet,
      rwFind, assemble, rewriteStep, rewriteSF, findStep, Except.map, Except.bind]
    try decide

/-! #### List plumbing for the idempotence proof -/

theorem bind_congr_mem {α β : Type} (l : List α) (f g : α → List β)
    (h : ∀ a ∈ l, f a = g a) : l.bind f = l.bind g := by
  induction l with
  | nil => rfl
  | cons a rest ih =>
    show f a ++ rest.bind f = g a ++ rest.bind g
    rw [h a (List.mem_cons_self a rest),
      ih (fun b hb => h b (List.mem_cons_of_mem a hb))]

theorem filter_bind_nil {α β : Type} (l : List α) (p : α → Bool) (f : α → List β)
    (h : ∀ a ∈ l, ¬ p a = true → f a = []) :
    (l.filter p).bind f = l.bind f := by
  induction l with
  | nil => rfl
  | cons a rest ih =>
    by_cases hp : p a = true
    · rw [List.filter_cons_of_pos hp]
      show f a ++ (rest.filter p).bind f = f a ++ rest.bind f
      rw [ih (fun b hb hnb => h b (List.mem_cons_of_mem a hb) hnb)]
    · rw [List.filter_cons_of_neg (by simpa using hp)]
      show (rest.filter p).bind f = f a ++ rest.bind f
      rw [h a (List.mem_cons_self a rest) hp,
        ih (fun b hb hnb => h b (List.mem_cons_of_mem a hb) hnb)]
      rfl

theorem map_bind_eq {α β γ : Type} (l : List α) (f : α → β) (g : β → List γ) :
    (l.map f).bind g = l.bind (fun a => g (f a)) := by
  induction l with
  | nil => rfl
  | cons a rest ih =>
    rw [List.map_cons]
    show g (f a) ++ (rest.map f).bind g = g (f a) ++ rest.bind (fun a => g (f a))
    rw [ih]

theorem filter_map_const_eq {α : Type} (l : List String) (f : String → String)
    (x : String) (c : α) (hf : ∀ s ∈ l, (f s = x ↔ s = x)) :
    ((l.map f).filter (fun s => s = x)).map (fun _ => c)
      = (l.filter (fun s => s = x)).map (fun _ => c) := by
  induction l with
  | nil => rfl
  | cons s rest ih =>
    have hrest := ih (fun t ht => hf t (List.mem_cons_of_mem s ht))
    by_cases hs : s = x
    · have : f s = x := (hf s (List.mem_cons_self s rest)).mpr hs
      rw [List.map_cons, List.filter_cons_of_pos (by simpa using this),
        List.filter_cons_of_pos (by simpa using hs), List.map_cons,
        List.map_cons, hrest]
    · have : ¬ f s = x := fun hc => hs ((hf s (List.mem_cons_self s rest)).mp hc)
      rw [List.map_cons, List.filter_cons_of_neg (by simpa using this),
        List.filter_cons_of_neg (by simpa using hs), hrest]

/-- The scalar substitution performed at assembly (lines 198-199): an
identifier present in the rewire table is replaced by its synthetic
name, any other identifier is kept. -/
def rwSubst (rw : RwTable) (s : String) : String :=
  match rwFind rw s with
  | some e => e.rn
  | none => s

theorem rewriteSF_scalar (rw : RwTable) (s : String) :
    rewriteSF rw (SourceField.scalar s) = SourceField.scalar (rwSubst rw s) := by
  cases h : rwFind rw s <;> simp [rewriteSF, rwSubst, h]

theorem rwFind_eq_none (rw : RwTable) (s : String)
    (h : ∀ e ∈ rw, ¬ e.key = s) : rwFind rw s = none := by
  unfold rwFind
  rw [List.find?_eq_none]
  intro e he
  simpa using h e he

theorem rwFind_mem (rw : RwTable) (s : String) (e : RwEntry)
    (h : rwFind rw s = some e) : e ∈ rw ∧ e.key = s := by
  unfold rwFind at h
  refine ⟨List.mem_of_find?_eq_some h, ?_⟩
  have := List.find?_some h
  simpa using this

theorem rwSubst_id (rw : RwTable) (s : String)
    (h : ∀ e ∈ rw, ¬ e.key = s) : rwSubst rw s = s := by
  unfold rwSubst
  rw [rwFind_eq_none rw s h]

theorem rwSubst_eq_iff (rw : RwTable) (x : String)
    (hxk : ∀ e ∈ rw, ¬ e.key = x) (hxr : ∀ e ∈ rw, ¬ e.rn = x) :
    ∀ s, rwSubst rw s = x ↔ s = x := by
  intro s
  constructor
  · intro h
    unfold rwSubst at h
    cases hf : rwFind rw s with
    | none => rw [hf] at h; exact h
    | some e =>
      rw [hf] at h
      exact absurd h (hxr e (rwFind_mem rw s e hf).1)
  · intro h
    rw [h]
    exact rwSubst_id rw x hxk

theorem map_rwSubst_id (rw : RwTable) (l : List String)
    (h : ∀ s ∈ l, ∀ e ∈ rw, ¬ e.key = s) : l.map (rwSubst rw) = l := by
  induction l with
  | nil => rfl
  | cons s rest ih =>
    rw [List.map_cons, rwSubst_id rw s (h s (List.mem_cons_self s rest)),
      ih (fun t ht => h t (List.mem_cons_of_mem s ht))]

theorem rwSet_mem (rw : RwTable) (u rn tp : String) (e : RwEntry)
    (he : e ∈ rwSet rw u rn tp) : e ∈ rw ∨ e = ⟨u, rn, tp⟩ := by
  unfold rwSet at he
  by_cases h : rw.any (fun e => e.key = u)
  · rw [if_pos h] at he
    rcases List.mem_map.mp he with ⟨e0, he0, heq⟩
    by_cases hk : e0.key = u
    · rw [if_pos hk] at heq
      exact Or.inr heq.symm
    · rw [if_neg hk] at heq
      exact Or.inl (heq ▸ he0)
  · rw [if_neg h] at he
    rcases List.mem_append.mp he with h1 | h1
    · exact Or.inl h1
    · exact Or.inr (List.mem_singleton.mp h1)

/-! #### Kind and edge characterizations used by the idempotence proof -/

theorem mem_declared (wf : WfDoc) (x : String) :
    x ∈ declaredIds wf ↔ x ∈ wf.inputIds ∨ x ∈ wf.outputIds ∨ x ∈ wf.osRefs
      ∨ x ∈ wf.stepIds ∨ x ∈ wf.stepSrcRefs ∨ x ∈ wf.stepOutIds := by
  unfold declaredIds
  simp [List.mem_append, or_assoc]

theorem kindSpec_input_iff (wf : WfDoc) (x : String) :
    kindSpec wf x = some INPUT ↔ x ∈ wf.inputIds := by
  unfold kindSpec
  by_cases h1 : x ∈ wf.inputIds
  · simp [h1]
  · by_cases h2 : x ∈ wf.outputIds
    · simp [h1, h2, OUTPUT, INPUT]
    · by_cases h3 : x ∈ wf.stepIds
      · simp [h1, h2, h3, STEP, INPUT]
      · simp [h1, h2, h3]

theorem kindSpec_output_iff (wf : WfDoc) (x : String) :
    kindSpec wf x = some OUTPUT ↔ x ∉ wf.inputIds ∧ x ∈ wf.outputIds := by
  unfold kindSpec
  by_cases h1 : x ∈ wf.inputIds
  · simp [h1, OUTPUT, INPUT]
  · by_cases h2 : x ∈ wf.outputIds
    · simp [h1, h2]
    · by_cases h3 : x ∈ wf.stepIds
      · simp [h1, h2, h3, STEP, OUTPUT]
      · simp [h1, h2, h3]

theorem kindSpec_step_iff (wf : WfDoc) (x : String) :
    kindSpec wf x = some STEP
      ↔ x ∉ wf.inputIds ∧ x ∉ wf.outputIds ∧ x ∈ wf.stepIds := by
  unfold kindSpec
  by_cases h1 : x ∈ wf.inputIds
  · simp [h1, STEP, INPUT]
  · by_cases h2 : x ∈ wf.outputIds
    · simp [h1, h2, STEP, OUTPUT]
    · by_cases h3 : x ∈ wf.stepIds
      · simp [h1, h2, h3]
      · simp [h1, h2, h3]

theorem nodeKind (wf : WfDoc) (x : String) :
    (mapFind (buildNodes wf) x).bind (fun n => n.type)
      = if x ∈ declaredIds wf then kindSpec wf x else none := by
  rw [buildNodes_find]
  by_cases h : x ∈ declaredIds wf
  · rw [if_pos h, if_pos h]
    rfl
  · rw [if_neg h, if_neg h]
    rfl

theorem nodeKind_input_iff (wf : WfDoc) (x : String) :
    (mapFind (buildNodes wf) x).bind (fun n => n.type) = some INPUT
      ↔ x ∈ wf.inputIds := by
  rw [nodeKind]
  by_cases h : x ∈ declaredIds wf
  · rw [if_pos h, kindSpec_input_iff]
  · rw [if_neg h]
    constructor
    · intro hc; cases hc
    · intro hc
      exact absurd ((mem_declared wf x).mpr (Or.inl hc)) h

theorem nodeKind_output_iff (wf : WfDoc) (x : String) :
    (mapFind (buildNodes wf) x).bind (fun n => n.type) = some OUTPUT
      ↔ x ∉ wf.inputIds ∧ x ∈ wf.outputIds := by
  rw [nodeKind]
  by_cases h : x ∈ declaredIds wf
  · rw [if_pos h, kindSpec_output_iff]
  · rw [if_neg h]
    constructor
    · intro hc; cases hc
    · intro hc
      exact absurd ((mem_declared wf x).mpr (Or.inr (Or.inl hc.2))) h

theorem nodeKind_step_iff (wf : WfDoc) (x : String) :
    (mapFind (buildNodes wf) x).bind (fun n => n.type) = some STEP
      ↔ x ∉ wf.inputIds ∧ x ∉ wf.outputIds ∧ x ∈ wf.stepIds := by
  rw [nodeKind]
  by_cases h : x ∈ declaredIds wf
  · rw [if_pos h, kindSpec_step_iff]
  · rw [if_neg h]
    constructor
    · intro hc; cases hc
    · intro hc
      exact absurd ((mem_declared wf x).mpr
        (Or.inr (Or.inr (Or.inr (Or.inl hc.2.2))))) h

theorem mem_upSpec (wf : WfDoc) (x y : String) :
    y ∈ upSpec wf x ↔
      (∃ o ∈ wf.outputs, o.id = x ∧ y ∈ asListOS o.outputSource)
      ∨ (∃ st ∈ wf.steps, st.id = x ∧ y ∈ st.srcIds)
      ∨ (∃ st ∈ wf.steps, x ∈ st.outIds ∧ y = st.id) := by
  unfold upSpec
  simp only [List.mem_append, List.mem_bind, List.mem_filter, List.mem_map]
  constructor
  · rintro (⟨o, ⟨ho, hid⟩, hy⟩ | ⟨st, hst, hy⟩)
    · exact Or.inl ⟨o, ho, by simpa using hid, hy⟩
    · rcases hy with h1 | ⟨a, ⟨ha, hax⟩, hay⟩
      · by_cases hid : st.id = x
        · rw [if_pos hid] at h1
          exact Or.inr (Or.inl ⟨st, hst, hid, h1⟩)
        · rw [if_neg hid] at h1
          cases h1
      · have hax2 : a = x := by simpa using hax
        exact Or.inr (Or.inr ⟨st, hst, hax2 ▸ ha, hay.symm⟩)
  · rintro (⟨o, ho, hid, hy⟩ | ⟨st, hst, hid, hy⟩ | ⟨st, hst, hx, hy⟩)
    · exact Or.inl ⟨o, ⟨ho, by simpa using hid⟩, hy⟩
    · exact Or.inr ⟨st, hst, Or.inl (by rw [if_pos hid]; exact hy)⟩
    · exact Or.inr ⟨st, hst, Or.inr ⟨x, ⟨hx, by simp⟩, hy.symm⟩⟩

theorem mem_downSpec (wf : WfDoc) (x y : String) :
    y ∈ downSpec wf x ↔
      (∃ o ∈ wf.outputs, x ∈ asListOS o.outputSource ∧ y = o.id)
      ∨ (∃ st ∈ wf.steps, x ∈ st.srcIds ∧ y = st.id)
      ∨ (∃ st ∈ wf.steps, st.id = x ∧ y ∈ st.outIds) := by
  unfold downSpec
  simp only [List.mem_append, List.mem_bind, List.mem_filter, List.mem_map]
  constructor
  · rintro (⟨o, ho, a, ⟨ha, hax⟩, hay⟩ | ⟨st, hst, hy⟩)
    · have hax2 : a = x := by simpa using hax
      exact Or.inl ⟨o, ho, hax2 ▸ ha, hay.symm⟩
    · rcases hy with ⟨a, ⟨ha, hax⟩, hay⟩ | h1
      · have hax2 : a = x := by simpa using hax
        exact Or.inr (Or.inl ⟨st, hst, hax2 ▸ ha, hay.symm⟩)
      · by_cases hid : x = st.id
        · rw [if_pos hid] at h1
          exact Or.inr (Or.inr ⟨st, hst, hid.symm, h1⟩)
        · rw [if_neg hid] at h1
          cases h1
  · rintro (⟨o, ho, hx, hy⟩ | ⟨st, hst, hx, hy⟩ | ⟨st, hst, hid, hy⟩)
    · exact Or.inl ⟨o, ho, x, ⟨hx, by simp⟩, hy.symm⟩
    · exact Or.inr ⟨st, hst, Or.inl ⟨x, ⟨hx, by simp⟩, hy.symm⟩⟩
    · exact Or.inr ⟨st, hst, Or.inr (by rw [if_pos hid.symm] ; exact hy)⟩

theorem upSpec_undeclared (wf : WfDoc) (x : String)
    (h : x ∉ declaredIds wf) : upSpec wf x = [] := by
  rw [List.eq_nil_iff_forall_not_mem]
  intro y hy
  rcases (mem_upSpec wf x y).mp hy with ⟨o, ho, hid, _⟩ | ⟨st, hst, hid, _⟩
    | ⟨st, hst, hx, _⟩
  · exact h ((mem_declared wf x).mpr (Or.inr (Or.inl
      (hid ▸ List.mem_map_of_mem OutputRec.id ho))))
  · exact h ((mem_declared wf x).mpr (Or.inr (Or.inr (Or.inr (Or.inl
      (hid ▸ List.mem_map_of_mem Step.id hst))))))
  · exact h ((mem_declared wf x).mpr (Or.inr (Or.inr (Or.inr (Or.inr (Or.inr
      (List.mem_bind.mpr ⟨st, hst, hx⟩)))))))

theorem downSpec_undeclared (wf : WfDoc) (x : String)
    (h : x ∉ declaredIds wf) : downSpec wf x = [] := by
  rw [List.eq_nil_iff_forall_not_mem]
  intro y hy
  rcases (mem_downSpec wf x y).mp hy with ⟨o, ho, hx, _⟩ | ⟨st, hst, hx, _⟩
    | ⟨st, hst, hid, _⟩
  · exact h ((mem_declared wf x).mpr (Or.inr (Or.inr (Or.inl
      (List.mem_bind.mpr ⟨o, ho, hx⟩)))))
  · exact h ((mem_declared wf x).mpr (Or.inr (Or.inr (Or.inr (Or.inr (Or.inl
      (List.mem_bind.mpr ⟨st, hst, hx⟩)))))))
  · exact h ((mem_declared wf x).mpr (Or.inr (Or.inr (Or.inr (Or.inl
      (hid ▸ List.mem_map_of_mem Step.id hst))))))

theorem edgesOf_down (wf : WfDoc) (x : String) :
    edgesOf (buildNodes wf) Dir.down x = downSpec wf x := by
  unfold edgesOf
  rw [buildNodes_find]
  by_cases h : x ∈ declaredIds wf
  · rw [if_pos h]
  · rw [if_neg h, downSpec_undeclared wf x h]

theorem edgesOf_up (wf : WfDoc) (x : String) :
    edgesOf (buildNodes wf) Dir.up x = upSpec wf x := by
  unfold edgesOf
  rw [buildNodes_find]
  by_cases h : x ∈ declaredIds wf
  · rw [if_pos h]
  · rw [if_neg h, upSpec_undeclared wf x h]

theorem upGetD_eq (ns : Nodes) (x : String) :
    ((mapFind ns x).map NodeRec.up).getD [] = edgesOf ns Dir.up x := by
  unfold edgesOf
  cases mapFind ns x <;> rfl

theorem edgesOf_sub_declared (wf : WfDoc) (d : Dir) (x : String) :
    ∀ y ∈ edgesOf (buildNodes wf) d x, y ∈ declaredIds wf := by
  intro y hy
  cases d with
  | down =>
    rw [edgesOf_down] at hy
    rcases (mem_downSpec wf x y).mp hy with ⟨o, ho, _, hyid⟩ | ⟨st, hst, _, hyid⟩
      | ⟨st, hst, _, hyo⟩
    · exact (mem_declared wf y).mpr (Or.inr (Or.inl
        (hyid ▸ List.mem_map_of_mem OutputRec.id ho)))
    · exact (mem_declared wf y).mpr (Or.inr (Or.inr (Or.inr (Or.inl
        (hyid ▸ List.mem_map_of_mem Step.id hst)))))
    · exact (mem_declared wf y).mpr (Or.inr (Or.inr (Or.inr (Or.inr (Or.inr
        (List.mem_bind.mpr ⟨st, hst, hyo⟩))))))
  | up =>
    rw [edgesOf_up] at hy
    rcases (mem_upSpec wf x y).mp hy with ⟨o, ho, _, hys⟩ | ⟨st, hst, _, hys⟩
      | ⟨st, hst, _, hyid⟩
    · exact (mem_declared wf y).mpr (Or.inr (Or.inr (Or.inl
        (List.mem_bind.mpr ⟨o, ho, hys⟩))))
    · exact (mem_declared wf y).mpr (Or.inr (Or.inr (Or.inr (Or.inr (Or.inl
        (List.mem_bind.mpr ⟨st, hst, hys⟩))))))
    · exact (mem_declared wf y).mpr (Or.inr (Or.inr (Or.inr (Or.inl
        (hyid ▸ List.mem_map_of_mem Step.id hst)))))

/-! #### The two walks coincide when the graphs agree on the visited region -/

theorem dfsVisit_added_inv (ns : Nodes) (d : Dir) (pending vis : List String) :
    ∀ x ∈ dfsVisit ns d pending vis,
      x ∈ vis ∨ x ∈ pending ∨ ∃ z, x ∈ edgesOf ns d z := by
  induction pending, vis using dfsVisit.induct ns d with
  | case1 vis =>
    intro x hx
    rw [dfsVisit] at hx
    exact Or.inl hx
  | case2 vis c rest hc ih =>
    intro x hx
    rw [dfsVisit, if_pos hc] at hx
    rcases ih x hx with h | h | h
    · exact Or.inl h
    · exact Or.inr (Or.inl (List.mem_cons_of_mem c h))
    · exact Or.inr (Or.inr h)
  | case3 vis c rest hc ih =>
    intro x hx
    rw [dfsVisit, if_neg hc] at hx
    rcases ih x hx with h | h | h
    · rcases List.mem_append.mp h with h1 | h1
      · exact Or.inl h1
      · exact Or.inr (Or.inl (List.mem_singleton.mp h1 ▸ List.mem_cons_self c rest))
    · rcases List.mem_append.mp h with h1 | h1
      · exact Or.inr (Or.inr ⟨c, h1⟩)
      · exact Or.inr (Or.inl (List.mem_cons_of_mem c h1))
    · exact Or.inr (Or.inr h)

theorem dfsVisit_closed (ns : Nodes) (d : Dir) (pending vis : List String) :
    ∀ x, x ∉ vis → x ∈ dfsVisit ns d pending vis →
      ∀ y ∈ edgesOf ns d x, y ∈ dfsVisit ns d pending vis := by
  induction pending, vis using dfsVisit.induct ns d with
  | case1 vis =>
    intro x hx hmem
    rw [dfsVisit] at hmem
    exact absurd hmem hx
  | case2 vis c rest hc ih =>
    intro x hx hmem
    rw [dfsVisit, if_pos hc] at hmem ⊢
    exact ih x hx hmem
  | case3 vis c rest hc ih =>
    intro x hx hmem
    rw [dfsVisit, if_neg hc] at hmem ⊢
    by_cases hxc : x = c
    · subst hxc
      intro y hy
      exact dfsVisit_pending ns d _ _ y (List.mem_append_left _ hy)
    · have hx2 : x ∉ vis ++ [c] := by
        intro hmem2
        rcases List.mem_append.mp hmem2 with h1 | h1
        · exact hx h1
        · exact hxc (List.mem_singleton.mp h1)
      exact ih x hx2 hmem

theorem dfsVisit_congr (ns1 ns2 : Nodes) (d : Dir) (pending vis : List String)
    (h : ∀ x, x ∉ vis → x ∈ dfsVisit ns1 d pending vis →
      edgesOf ns2 d x = edgesOf ns1 d x) :
    dfsVisit ns2 d pending vis = dfsVisit ns1 d pending vis := by
  induction pending, vis using dfsVisit.induct ns1 d with
  | case1 vis =>
    rw [dfsVisit, dfsVisit]
  | case2 vis c rest hc ih =>
    have e1 : dfsVisit ns1 d (c :: rest) vis = dfsVisit ns1 d rest vis := by
      rw [dfsVisit, if_pos hc]
    have e2 : dfsVisit ns2 d (c :: rest) vis = dfsVisit ns2 d rest vis := by
      rw [dfsVisit, if_pos hc]
    rw [e1, e2]
    exact ih (fun x hx hmem => h x hx (e1 ▸ hmem))
  | case3 vis c rest hc ih =>
    have e1 : dfsVisit ns1 d (c :: rest) vis
        = dfsVisit ns1 d (edgesOf ns1 d c ++ rest) (vis ++ [c]) := by
      rw [dfsVisit, if_neg hc]
    have e2 : dfsVisit ns2 d (c :: rest) vis
        = dfsVisit ns2 d (edgesOf ns2 d c ++ rest) (vis ++ [c]) := by
      rw [dfsVisit, if_neg hc]
    have hce : edgesOf ns2 d c = edgesOf ns1 d c :=
      h c hc (dfsVisit_pending ns1 d (c :: rest) vis c (List.mem_cons_self c rest))
    rw [e1, e2, hce]
    refine ih (fun x hx hmem => h x ?_ (e1 ▸ hmem))
    intro hmem2
    exact hx (List.mem_append_left _ hmem2)

theorem visitRoots_supset (ns : Nodes) (roots vis V : List String)
    (h : visitRoots ns roots vis = Except.ok V) : ∀ x ∈ vis, x ∈ V := by
  induction roots generalizing vis with
  | nil =>
    rw [visitRoots] at h
    cases h
    exact fun x hx => hx
  | cons r rest ih =>
    rw [visitRoots] at h
    cases hm : mapFind ns r with
    | none => rw [hm] at h; cases h
    | some n =>
      rw [hm] at h
      intro x hx
      exact ih _ h x (dfsVisit_supset ns _ [r] vis x hx)

theorem visitRoots_roots_mem (ns : Nodes) (roots vis V : List String)
    (h : visitRoots ns roots vis = Except.ok V) : ∀ r ∈ roots, r ∈ V := by
  induction roots generalizing vis with
  | nil => intro r hr; cases hr
  | cons a rest ih =>
    rw [visitRoots] at h
    cases hm : mapFind ns a with
    | none => rw [hm] at h; cases h
    | some n =>
      rw [hm] at h
      intro r hr
      rcases List.mem_cons.mp hr with h1 | h1
      · rw [h1]
        exact visitRoots_supset ns rest _ V h a
          (dfsVisit_pending ns _ [a] vis a (List.mem_cons_self a []))
      · exact ih _ h r h1

theorem visitRoots_added_inv (ns : Nodes) (roots vis V : List String)
    (h : visitRoots ns roots vis = Except.ok V) :
    ∀ x ∈ V, x ∈ vis ∨ x ∈ roots ∨ ∃ d z, x ∈ edgesOf ns d z := by
  induction roots generalizing vis with
  | nil =>
    rw [visitRoots] at h
    cases h
    exact fun x hx => Or.inl hx
  | cons r rest ih =>
    rw [visitRoots] at h
    cases hm : mapFind ns r with
    | none => rw [hm] at h; cases h
    | some n =>
      rw [hm] at h
      intro x hx
      rcases ih _ h x hx with h1 | h1 | h1
      · rcases dfsVisit_added_inv ns _ [r] vis x h1 with h2 | h2 | h2
        · exact Or.inl h2
        · exact Or.inr (Or.inl (List.mem_singleton.mp h2 ▸ List.mem_cons_self r rest))
        · exact Or.inr (Or.inr ⟨_, h2⟩)
      · exact Or.inr (Or.inl (List.mem_cons_of_mem r h1))
      · exact Or.inr (Or.inr h1)

theorem visitRoots_congr (ns1 ns2 : Nodes) (roots vis V : List String)
    (h : visitRoots ns1 roots vis = Except.ok V)
    (hroot : ∀ r ∈ roots, ∃ n1 n2, mapFind ns1 r = some n1
      ∧ mapFind ns2 r = some n2
      ∧ ((n1.type = some OUTPUT) ↔ (n2.type = some OUTPUT)))
    (hedge : ∀ d x, x ∉ vis → x ∈ V → (∀ y ∈ edgesOf ns1 d x, y ∈ V) →
      edgesOf ns2 d x = edgesOf ns1 d x) :
    visitRoots ns2 roots vis = Except.ok V := by
  induction roots generalizing vis with
  | nil =>
    rw [visitRoots] at h ⊢
    exact h
  | cons r rest ih =>
    obtain ⟨n1, n2, hm1, hm2, hiff⟩ := hroot r (List.mem_cons_self r rest)
    rw [visitRoots] at h
    simp only [hm1] at h
    rw [visitRoots]
    simp only [hm2]
    have hdir : (if n2.type = some OUTPUT then Dir.up else Dir.down)
        = (if n1.type = some OUTPUT then Dir.up else Dir.down) := by
      by_cases h1 : n1.type = some OUTPUT
      · rw [if_pos h1, if_pos (hiff.mp h1)]
      · rw [if_neg h1, if_neg (fun hc => h1 (hiff.mpr hc))]
    rw [hdir]
    have hsubV : ∀ x ∈ dfsVisit ns1 (if n1.type = some OUTPUT then Dir.up
        else Dir.down) [r] vis, x ∈ V :=
      fun x hx => visitRoots_supset ns1 rest _ V h x hx
    have hdfs : dfsVisit ns2 (if n1.type = some OUTPUT then Dir.up
        else Dir.down) [r] vis
        = dfsVisit ns1 (if n1.type = some OUTPUT then Dir.up
        else Dir.down) [r] vis := by
      apply dfsVisit_congr
      intro x hx hmem
      refine hedge _ x hx (hsubV x hmem) ?_
      intro y hy
      exact hsubV y (dfsVisit_closed ns1 _ [r] vis x hx hmem y hy)
    rw [hdfs]
    refine ih _ h (fun r2 hr2 => hroot r2 (List.mem_cons_of_mem r hr2)) ?_
    intro d x hx hxv hcl
    refine hedge d x (fun hc => hx (dfsVisit_supset ns1 _ [r] vis x hc)) hxv hcl

/-! #### Where the rewiring loop's additions come from -/

theorem rewireUps_vis_inv (lc : LC) (fuel : Nat) (wf : WfDoc) (ns : Nodes)
    (vd : List String) (v : String) (vtype : Option String)
    (ups vis : List String) (rw : RwTable) (out : List String × RwTable)
    (h : rewireUps lc fuel wf ns vd v vtype ups vis rw = Except.ok out) :
    ∀ x ∈ out.1, x ∈ vis ∨ (x ∈ ups ∧ x ∉ vd
      ∧ (mapFind ns x).bind (fun n => n.type) = some INPUT) := by
  induction ups generalizing vis rw with
  | nil =>
    rw [rewireUps] at h
    cases h
    exact fun x hx => Or.inl hx
  | cons u rest ih =>
    obtain ⟨vis1, rw1, h1, _, hni, hinp⟩ :=
      rewireUps_cons_inv _ _ _ _ _ _ _ _ _ _ _ _ h
    intro x hx
    rcases ih _ _ h1 x hx with h2 | ⟨h2, h3, h4⟩
    · rcases Classical.em
          ((u ∉ vd ∧ (mapFind ns u).bind (fun n => n.type) = some INPUT))
        with hc | hc
      · rw [hinp hc, setAdd_mem] at h2
        rcases h2 with h2 | h2
        · exact Or.inl h2
        · exact Or.inr ⟨h2 ▸ List.mem_cons_self u rest, h2 ▸ hc.1, h2 ▸ hc.2⟩
      · exact Or.inl ((hni hc) ▸ h2)
    · exact Or.inr ⟨List.mem_cons_of_mem u h2, h3, h4⟩

theorem rewireLoop_vis_inv (lc : LC) (fuel : Nat) (wf : WfDoc) (ns : Nodes)
    (vd rem vis : List String) (rw : RwTable) (out : List String × RwTable)
    (h : rewireLoop lc fuel wf ns vd rem vis rw = Except.ok out) :
    ∀ x ∈ out.1, x ∈ vis ∨ x ∈ rem ∨ ∃ v ∈ rem,
      ((mapFind ns v).bind (fun n => n.type) = some STEP
        ∨ (mapFind ns v).bind (fun n => n.type) = some OUTPUT)
      ∧ x ∈ ((mapFind ns v).map NodeRec.up).getD []
      ∧ x ∉ vd
      ∧ (mapFind ns x).bind (fun n => n.type) = some INPUT := by
  induction rem generalizing vis rw with
  | nil =>
    rw [rewireLoop] at h
    cases h
    exact fun x hx => Or.inl hx
  | cons v rest ih =>
    rw [rewireLoop] at h
    by_cases ht : (mapFind ns v).bind (fun n => n.type) = some STEP
        ∨ (mapFind ns v).bind (fun n => n.type) = some OUTPUT
    · rw [if_pos ht] at h
      cases hu : rewireUps lc fuel wf ns vd v
          ((mapFind ns v).bind (fun n => n.type))
          (((mapFind ns v).map NodeRec.up).getD []) (setAdd vis v) rw with
      | error e => rw [hu] at h; cases h
      | ok p =>
        rw [hu] at h
        obtain ⟨vis1, rw1⟩ := p
        intro x hx
        rcases ih _ _ h x hx with h2 | h2 | ⟨w, hw, hwt, hwu, hwv, hwk⟩
        · rcases rewireUps_vis_inv _ _ _ _ _ _ _ _ _ _ _ hu x h2
            with h3 | ⟨h3, h4, h5⟩
          · rw [setAdd_mem] at h3
            rcases h3 with h3 | h3
            · exact Or.inl h3
            · exact Or.inr (Or.inl (h3 ▸ List.mem_cons_self v rest))
          · exact Or.inr (Or.inr ⟨v, List.mem_cons_self v rest, ht, h3, h4, h5⟩)
        · exact Or.inr (Or.inl (List.mem_cons_of_mem v h2))
        · exact Or.inr (Or.inr ⟨w, List.mem_cons_of_mem v hw, hwt, hwu, hwv, hwk⟩)
    · rw [if_neg ht] at h
      intro x hx
      rcases ih _ _ h x hx with h2 | h2 | ⟨w, hw, hwt, hwu, hwv, hwk⟩
      · rw [setAdd_mem] at h2
        rcases h2 with h2 | h2
        · exact Or.inl h2
        · exact Or.inr (Or.inl (h2 ▸ List.mem_cons_self v rest))
      · exact Or.inr (Or.inl (List.mem_cons_of_mem v h2))
      · exact Or.inr (Or.inr ⟨w, List.mem_cons_of_mem v hw, hwt, hwu, hwv, hwk⟩)

theorem rewireUps_rw_inv (lc : LC) (fuel : Nat) (wf : WfDoc) (ns : Nodes)
    (vd : List String) (v : String) (vtype : Option String)
    (ups vis : List String) (rw : RwTable) (out : List String × RwTable)
    (h : rewireUps lc fuel wf ns vd v vtype ups vis rw = Except.ok out) :
    ∀ e ∈ out.2, e ∈ rw ∨ (vtype = some STEP ∧ e.key ∈ ups ∧ e.key ∉ vd
      ∧ ¬ (mapFind ns e.key).bind (fun n => n.type) = some INPUT) := by
  induction ups generalizing vis rw with
  | nil =>
    rw [rewireUps] at h
    cases h
    exact fun e he => Or.inl he
  | cons u rest ih =>
    rw [rewireUps] at h
    by_cases hvd : u ∈ vd
    · rw [if_pos hvd] at h
      intro e he
      rcases ih _ _ h e he with h1 | ⟨h1, h2, h3, h4⟩
      · exact Or.inl h1
      · exact Or.inr ⟨h1, List.mem_cons_of_mem u h2, h3, h4⟩
    · rw [if_neg hvd] at h
      by_cases hk : (mapFind ns u).bind (fun n => n.type) = some INPUT
      · rw [if_pos hk] at h
        intro e he
        rcases ih _ _ h e he with h1 | ⟨h1, h2, h3, h4⟩
        · exact Or.inl h1
        · exact Or.inr ⟨h1, List.mem_cons_of_mem u h2, h3, h4⟩
      · rw [if_neg hk] at h
        by_cases hst : vtype = some STEP
        · rw [if_pos hst] at h
          cases hf : findStep fuel wf.steps v lc with
          | none => simp only [hf] at h; cases h
          | some st =>
            simp only [hf] at h
            cases hs : scanPorts st.inPorts u with
            | some tp =>
              simp only [hs] at h
              intro e he
              rcases ih _ _ h e he with h1 | ⟨h1, h2, h3, h4⟩
              · rcases rwSet_mem rw u (flattenId u) tp e h1 with h2 | h2
                · exact Or.inl h2
                · refine Or.inr ⟨hst, ?_, ?_, ?_⟩
                  · rw [h2]; exact List.mem_cons_self u rest
                  · rw [h2]; exact hvd
                  · rw [h2]; exact hk
              · exact Or.inr ⟨h1, List.mem_cons_of_mem u h2, h3, h4⟩
            | none =>
              simp only [hs] at h
              intro e he
              rcases ih _ _ h e he with h1 | ⟨h1, h2, h3, h4⟩
              · exact Or.inl h1
              · exact Or.inr ⟨h1, List.mem_cons_of_mem u h2, h3, h4⟩
        · rw [if_neg hst] at h
          intro e he
          rcases ih _ _ h e he with h1 | ⟨h1, h2, h3, h4⟩
          · exact Or.inl h1
          · exact Or.inr ⟨h1, List.mem_cons_of_mem u h2, h3, h4⟩

theorem rewireLoop_rw_inv (lc : LC) (fuel : Nat) (wf : WfDoc) (ns : Nodes)
    (vd rem vis : List String) (rw : RwTable) (out : List String × RwTable)
    (h : rewireLoop lc fuel wf ns vd rem vis rw = Except.ok out) :
    ∀ e ∈ out.2, e ∈ rw ∨ ∃ v ∈ rem,
      (mapFind ns v).bind (fun n => n.type) = some STEP
      ∧ e.key ∈ ((mapFind ns v).map NodeRec.up).getD []
      ∧ e.key ∉ vd
      ∧ ¬ (mapFind ns e.key).bind (fun n => n.type) = some INPUT := by
  induction rem generalizing vis rw with
  | nil =>
    rw [rewireLoop] at h
    cases h
    exact fun e he => Or.inl he
  | cons v rest ih =>
    rw [rewireLoop] at h
    by_cases ht : (mapFind ns v).bind (fun n => n.type) = some STEP
        ∨ (mapFind ns v).bind (fun n => n.type) = some OUTPUT
    · rw [if_pos ht] at h
      cases hu : rewireUps lc fuel wf ns vd v
          ((mapFind ns v).bind (fun n => n.type))
          (((mapFind ns v).map NodeRec.up).getD []) (setAdd vis v) rw with
      | error e => rw [hu] at h; cases h
      | ok p =>
        rw [hu] at h
        obtain ⟨vis1, rw1⟩ := p
        intro e he
        rcases ih _ _ h e he with h2 | ⟨w, hw, hwt, hwu, hwv, hwk⟩
        · rcases rewireUps_rw_inv _ _ _ _ _ _ _ _ _ _ _ hu e h2
            with h3 | ⟨h3, h4, h5, h6⟩
          · exact Or.inl h3
          · exact Or.inr ⟨v, List.mem_cons_self v rest, h3, h4, h5, h6⟩
        · exact Or.inr ⟨w, List.mem_cons_of_mem v hw, hwt, hwu, hwv, hwk⟩
    · rw [if_neg ht] at h
      intro e he
      rcases ih _ _ h e he with h2 | ⟨w, hw, hwt, hwu, hwv, hwk⟩
      · exact Or.inl h2
      · exact Or.inr ⟨w, List.mem_cons_of_mem v hw, hwt, hwu, hwv, hwk⟩

theorem rewireUps_total (lc : LC) (fuel : Nat) (wf : WfDoc) (ns : Nodes)
    (vd : List String) (v : String) (vtype : Option String)
    (ups : List String)
    (hok : vtype = some STEP → ∀ u ∈ ups, u ∈ vd
      ∨ (mapFind ns u).bind (fun n => n.type) = some INPUT) :
    ∀ vis rw, ∃ vis2,
      rewireUps lc fuel wf ns vd v vtype ups vis rw = Except.ok (vis2, rw) := by
  induction ups with
  | nil =>
    intro vis rw
    exact ⟨vis, by rw [rewireUps]⟩
  | cons u rest ih =>
    intro vis rw
    have hrest := ih (fun hst u2 hu2 =>
      hok hst u2 (List.mem_cons_of_mem u hu2))
    by_cases hvd : u ∈ vd
    · obtain ⟨vis2, h2⟩ := hrest vis rw
      exact ⟨vis2, by rw [rewireUps, if_pos hvd]; exact h2⟩
    · by_cases hk : (mapFind ns u).bind (fun n => n.type) = some INPUT
      · obtain ⟨vis2, h2⟩ := hrest (setAdd vis u) rw
        exact ⟨vis2, by rw [rewireUps, if_neg hvd, if_pos hk]; exact h2⟩
      · by_cases hst : vtype = some STEP
        · exfalso
          rcases hok hst u (List.mem_cons_self u rest) with hc | hc
          · exact hvd hc
          · exact hk hc
        · obtain ⟨vis2, h2⟩ := hrest vis rw
          exact ⟨vis2, by rw [rewireUps, if_neg hvd, if_neg hk, if_neg hst]; exact h2⟩

theorem rewireLoop_total (lc : LC) (fuel : Nat) (wf : WfDoc) (ns : Nodes)
    (vd rem : List String)
    (hok : ∀ v ∈ rem, (mapFind ns v).bind (fun n => n.type) = some STEP →
      ∀ u ∈ ((mapFind ns v).map NodeRec.up).getD [], u ∈ vd
        ∨ (mapFind ns u).bind (fun n => n.type) = some INPUT) :
    ∀ vis rw, ∃ vis2,
      rewireLoop lc fuel wf ns vd rem vis rw = Except.ok (vis2, rw) := by
  induction rem with
  | nil =>
    intro vis rw
    exact ⟨vis, by rw [rewireLoop]⟩
  | cons v rest ih =>
    intro vis rw
    have hrest := ih (fun v2 hv2 => hok v2 (List.mem_cons_of_mem v hv2))
    by_cases ht : (mapFind ns v).bind (fun n => n.type) = some STEP
        ∨ (mapFind ns v).bind (fun n => n.type) = some OUTPUT
    · have hups : (mapFind ns v).bind (fun n => n.type) = some STEP →
          ∀ u ∈ ((mapFind ns v).map NodeRec.up).getD [], u ∈ vd
            ∨ (mapFind ns u).bind (fun n => n.type) = some INPUT :=
        fun hst => hok v (List.mem_cons_self v rest) hst
      obtain ⟨vis1, h1⟩ := rewireUps_total lc fuel wf ns vd v
        ((mapFind ns v).bind (fun n => n.type))
        (((mapFind ns v).map NodeRec.up).getD []) hups (setAdd vis v) rw
      obtain ⟨vis2, h2⟩ := hrest vis1 rw
      exact ⟨vis2, by rw [rewireLoop, if_pos ht, h1]; exact h2⟩
    · obtain ⟨vis2, h2⟩ := hrest (setAdd vis v) rw
      exact ⟨vis2, by rw [rewireLoop, if_neg ht]; exact h2⟩

/-! #### Scalar-sourced steps and the rewritten document's registry -/

/-- Every sourced `in` port of the step carries a scalar `source`. -/
def scalarSourced (st : Step) : Bool :=
  st.inPorts.all (fun p => match p.source with
    | none => true
    | some (SourceField.scalar _) => true
    | some (SourceField.list _) => false)

theorem scalarSourced_no_list (st : Step) (h : scalarSourced st = true) :
    ∀ p ∈ st.inPorts, ∀ l, ¬ p.source = some (SourceField.list l) := by
  intro p hp l hc
  have := List.all_eq_true.mp h p hp
  rw [hc] at this
  cases this

theorem cons_bind_eq {α β : Type} (a : α) (l : List α) (f : α → List β) :
    (a :: l).bind f = f a ++ l.bind f := rfl

theorem ports_srcIds_rewrite (rw : RwTable) (ports : List InPort)
    (hs : ∀ p ∈ ports, ∀ l, ¬ p.source = some (SourceField.list l)) :
    (ports.map (fun p => { p with source := p.source.map (rewriteSF rw) })).bind
        (fun p => match p.source with
          | none => []
          | some sf => asListSF sf)
      = (ports.bind (fun p => match p.source with
          | none => []
          | some sf => asListSF sf)).map (rwSubst rw) := by
  induction ports with
  | nil => rfl
  | cons p rest ih =>
    have hrest := ih (fun q hq => hs q (List.mem_cons_of_mem p hq))
    rw [List.map_cons, cons_bind_eq, cons_bind_eq, List.map_append, hrest]
    congr 1
    cases hps : p.source with
    | none => simp [hps]
    | some sf =>
      cases sf with
      | list l => exact absurd hps (hs p (List.mem_cons_self p rest) l)
      | scalar s => simp [hps, rewriteSF_scalar, asListSF]

theorem srcIds_rewriteStep (rw : RwTable) (st : Step)
    (hs : scalarSourced st = true) :
    (rewriteStep rw st).srcIds = st.srcIds.map (rwSubst rw) := by
  unfold rewriteStep Step.srcIds
  exact ports_srcIds_rewrite rw st.inPorts (scalarSourced_no_list st hs)

theorem rewriteStep_id (rw : RwTable) (st : Step) :
    (rewriteStep rw st).id = st.id := rfl

theorem rewriteStep_outs (rw : RwTable) (st : Step) :
    (rewriteStep rw st).outs = st.outs := rfl

theorem rewriteStep_outIds (rw : RwTable) (st : Step) :
    (rewriteStep rw st).outIds = st.outIds := rfl

theorem ports_map_rw_nil (ports : List InPort)
    (hs : ∀ p ∈ ports, ∀ l, ¬ p.source = some (SourceField.list l)) :
    ports.map (fun p => { p with source := p.source.map (rewriteSF []) })
      = ports := by
  induction ports with
  | nil => rfl
  | cons p rest ih =>
    rw [List.map_cons, ih (fun q hq => hs q (List.mem_cons_of_mem p hq))]
    congr 1
    cases p with
    | mk pid psrc ptyp pdef plm =>
      cases psrc with
      | none => rfl
      | some sf =>
        cases sf with
        | scalar s => rfl
        | list l =>
          exact absurd rfl
            (hs (InPort.mk pid (some (SourceField.list l)) ptyp pdef plm)
              (List.mem_cons_self _ rest) l)

theorem rewriteStep_nil (st : Step) (hs : scalarSourced st = true) :
    rewriteStep [] st = st := by
  cases st with
  | mk sid ports outs run =>
    unfold rewriteStep
    rw [show (Step.mk sid ports outs run).inPorts = ports from rfl,
      ports_map_rw_nil ports
        (scalarSourced_no_list (Step.mk sid ports outs run) hs)]
    rfl

theorem scalarSourced_rewriteStep (rw : RwTable) (st : Step)
    (hs : scalarSourced st = true) :
    scalarSourced (rewriteStep rw st) = true := by
  have hs2 : st.inPorts.all (fun p => match p.source with
      | none => true
      | some (SourceField.scalar _) => true
      | some (SourceField.list _) => false) = true := hs
  unfold scalarSourced
  rw [List.all_eq_true]
  intro p hp
  have hp2 : p ∈ st.inPorts.map
      (fun q => { q with source := q.source.map (rewriteSF rw) }) := hp
  rcases List.mem_map.mp hp2 with ⟨q, hq, heq⟩
  have hqsrc := List.all_eq_true.mp hs2 q hq
  rw [← heq]
  cases hqs : q.source with
  | none => simp [hqs]
  | some sf =>
    cases sf with
    | list l =>
      rw [hqs] at hqsrc
      cases hqsrc
    | scalar s => simp [hqs, rewriteSF_scalar]

theorem assemble_cls (wf : WfDoc) (vis : List String) (rw : RwTable) :
    (assemble wf vis rw).cls = wf.cls := rfl

theorem assemble_inputIds_mem (wf : WfDoc) (vis : List String) (rw : RwTable)
    (x : String) :
    x ∈ (assemble wf vis rw).inputIds
      ↔ (x ∈ wf.inputIds ∧ x ∈ vis) ∨ ∃ e ∈ rw, e.rn = x := by
  have hfield : (assemble wf vis rw).inputs
      = wf.inputs.filter (fun i => decide (i.id ∈ vis))
        ++ rw.map (fun e => InputRec.mk e.rn e.tp none) := rfl
  unfold WfDoc.inputIds
  rw [hfield]
  constructor
  · intro h
    rcases List.mem_map.mp h with ⟨i, hi, hid⟩
    rcases List.mem_append.mp hi with h1 | h1
    · have h2 := List.mem_filter.mp h1
      refine Or.inl ⟨hid ▸ List.mem_map_of_mem InputRec.id h2.1, ?_⟩
      rw [← hid]
      simpa using h2.2
    · rcases List.mem_map.mp h1 with ⟨e, he, heq⟩
      refine Or.inr ⟨e, he, ?_⟩
      rw [← hid, ← heq]
  · rintro (⟨hin, hvis⟩ | ⟨e, he, hrn⟩)
    · rcases List.mem_map.mp hin with ⟨i, hi, hid⟩
      exact List.mem_map.mpr ⟨i, List.mem_append_left _
        (List.mem_filter.mpr ⟨hi, by simpa using hid ▸ hvis⟩), hid⟩
    · exact List.mem_map.mpr ⟨InputRec.mk e.rn e.tp none,
        List.mem_append_right _ (List.mem_map_of_mem _ he), hrn⟩

theorem assemble_outputs_mem (wf : WfDoc) (vis : List String) (rw : RwTable)
    (o : OutputRec) :
    o ∈ (assemble wf vis rw).outputs ↔ o ∈ wf.outputs ∧ o.id ∈ vis := by
  have hfield : (assemble wf vis rw).outputs
      = wf.outputs.filter (fun o => decide (o.id ∈ vis)) := rfl
  rw [hfield, List.mem_filter]
  simp

theorem assemble_outputIds_mem (wf : WfDoc) (vis : List String) (rw : RwTable)
    (x : String) :
    x ∈ (assemble wf vis rw).outputIds ↔ x ∈ wf.outputIds ∧ x ∈ vis := by
  unfold WfDoc.outputIds
  constructor
  · intro h
    rcases List.mem_map.mp h with ⟨o, ho, hid⟩
    have h2 := (assemble_outputs_mem wf vis rw o).mp ho
    exact ⟨hid ▸ List.mem_map_of_mem OutputRec.id h2.1, hid ▸ h2.2⟩
  · rintro ⟨hin, hvis⟩
    rcases List.mem_map.mp hin with ⟨o, ho, hid⟩
    exact List.mem_map.mpr ⟨o,
      (assemble_outputs_mem wf vis rw o).mpr ⟨ho, hid ▸ hvis⟩, hid⟩

theorem assemble_steps_mem (wf : WfDoc) (vis : List String) (rw : RwTable)
    (st2 : Step) :
    st2 ∈ (assemble wf vis rw).steps
      ↔ ∃ st ∈ wf.steps, st.id ∈ vis ∧ st2 = rewriteStep rw st := by
  have hfield : (assemble wf vis rw).steps
      = (wf.steps.filter (fun st => decide (st.id ∈ vis))).map (rewriteStep rw)
      := rfl
  rw [hfield]
  constructor
  · intro h
    rcases List.mem_map.mp h with ⟨st, hst, heq⟩
    have h2 := List.mem_filter.mp hst
    exact ⟨st, h2.1, by simpa using h2.2, heq.symm⟩
  · rintro ⟨st, hst, hvis, heq⟩
    exact List.mem_map.mpr ⟨st,
      List.mem_filter.mpr ⟨hst, by simpa using hvis⟩, heq.symm⟩

theorem assemble_stepIds_mem (wf : WfDoc) (vis : List String) (rw : RwTable)
    (x : String) :
    x ∈ (assemble wf vis rw).stepIds ↔ x ∈ wf.stepIds ∧ x ∈ vis := by
  unfold WfDoc.stepIds
  constructor
  · intro h
    rcases List.mem_map.mp h with ⟨st2, hst2, hid⟩
    rcases (assemble_steps_mem wf vis rw st2).mp hst2 with ⟨st, hst, hvis, heq⟩
    have : st2.id = st.id := by rw [heq, rewriteStep_id]
    exact ⟨hid ▸ this ▸ List.mem_map_of_mem Step.id hst, hid ▸ this ▸ hvis⟩
  · rintro ⟨hin, hvis⟩
    rcases List.mem_map.mp hin with ⟨st, hst, hid⟩
    refine List.mem_map.mpr ⟨rewriteStep rw st,
      (assemble_steps_mem wf vis rw _).mpr ⟨st, hst, hid ▸ hvis, rfl⟩, ?_⟩
    rw [rewriteStep_id]
    exact hid

theorem filter_filter_bind {α β : Type} (l : List α) (p q : α → Bool)
    (f : α → List β) (h : ∀ a ∈ l, q a = true → p a = true) :
    ((l.filter p).filter q).bind f = (l.filter q).bind f := by
  induction l with
  | nil => rfl
  | cons a rest ih =>
    have hrest := ih (fun b hb => h b (List.mem_cons_of_mem a hb))
    by_cases hq : q a = true
    · have hp := h a (List.mem_cons_self a rest) hq
      rw [List.filter_cons_of_pos hp, List.filter_cons_of_pos hq,
        List.filter_cons_of_pos hq, cons_bind_eq, cons_bind_eq, hrest]
    · by_cases hp : p a = true
      · rw [List.filter_cons_of_pos hp, List.filter_cons_of_neg (by simpa using hq),
          List.filter_cons_of_neg (by simpa using hq), hrest]
      · rw [List.filter_cons_of_neg (by simpa using hp),
          List.filter_cons_of_neg (by simpa using hq), hrest]

theorem downSpec_assemble (wf : WfDoc) (vis : List String) (rw : RwTable)
    (x : String)
    (hscalar : ∀ st ∈ wf.steps, scalarSourced st = true)
    (hx : x ∈ vis)
    (hkeys : ∀ e ∈ rw, e.key ∉ vis)
    (hrn : ∀ e ∈ rw, ¬ e.rn = x)
    (hsucc : ∀ y ∈ downSpec wf x, y ∈ vis) :
    downSpec (assemble wf vis rw) x = downSpec wf x := by
  have hxk : ∀ e ∈ rw, ¬ e.key = x := fun e he hc => hkeys e he (hc ▸ hx)
  have hsubiff : ∀ s, rwSubst rw s = x ↔ s = x := rwSubst_eq_iff rw x hxk hrn
  have hof : (assemble wf vis rw).outputs
      = wf.outputs.filter (fun o => decide (o.id ∈ vis)) := rfl
  have hsf : (assemble wf vis rw).steps
      = (wf.steps.filter (fun st => decide (st.id ∈ vis))).map (rewriteStep rw)
      := rfl
  unfold downSpec
  rw [hof, hsf]
  congr 1
  · apply filter_bind_nil
    intro o ho hno
    rw [List.eq_nil_iff_forall_not_mem]
    intro y hy
    rcases List.mem_map.mp hy with ⟨s, hs, hyo⟩
    have hsx : s = x := by simpa using (List.mem_filter.mp hs).2
    have hmem : o.id ∈ downSpec wf x := (mem_downSpec wf x o.id).mpr
      (Or.inl ⟨o, ho, hsx ▸ (List.mem_filter.mp hs).1, rfl⟩)
    exact hno (by simpa using hsucc o.id hmem)
  · rw [map_bind_eq]
    have hdrop : ∀ st ∈ wf.steps, ¬ (decide (st.id ∈ vis)) = true →
        ((((rewriteStep rw st).srcIds.filter (fun s => s = x)).map
          (fun _ => (rewriteStep rw st).id))
        ++ (if x = (rewriteStep rw st).id then (rewriteStep rw st).outIds
            else [])) = [] := by
      intro st hst hno
      have hnv : st.id ∉ vis := by simpa using hno
      rw [rewriteStep_id, rewriteStep_outIds,
        if_neg (fun hc : x = st.id => hnv (by rw [← hc]; exact hx)),
        List.append_nil, List.eq_nil_iff_forall_not_mem]
      intro y hy
      rcases List.mem_map.mp hy with ⟨s, hs, hyo⟩
      have hsx : s = x := by simpa using (List.mem_filter.mp hs).2
      have hsm : s ∈ st.srcIds.map (rwSubst rw) := by
        rw [← srcIds_rewriteStep rw st (hscalar st hst)]
        exact (List.mem_filter.mp hs).1
      rcases List.mem_map.mp hsm with ⟨s0, hs0, hsub⟩
      have hs0x : s0 = x := (hsubiff s0).mp (by rw [hsub, hsx])
      have hmem : st.id ∈ downSpec wf x := (mem_downSpec wf x st.id).mpr
        (Or.inr (Or.inl ⟨st, hst, hs0x ▸ hs0, rfl⟩))
      exact hnv (hsucc st.id hmem)
    rw [filter_bind_nil _ _ _ hdrop]
    apply bind_congr_mem
    intro st hst
    rw [rewriteStep_id, rewriteStep_outIds,
      srcIds_rewriteStep rw st (hscalar st hst)]
    congr 1
    exact filter_map_const_eq st.srcIds (rwSubst rw) x st.id
      (fun s _ => hsubiff s)

theorem upSpec_assemble (wf : WfDoc) (vis : List String) (rw : RwTable)
    (x : String)
    (hscalar : ∀ st ∈ wf.steps, scalarSourced st = true)
    (hx : x ∈ vis)
    (hkeys : ∀ e ∈ rw, e.key ∉ vis)
    (hsucc : ∀ y ∈ upSpec wf x, y ∈ vis) :
    upSpec (assemble wf vis rw) x = upSpec wf x := by
  have hof : (assemble wf vis rw).outputs
      = wf.outputs.filter (fun o => decide (o.id ∈ vis)) := rfl
  have hsf : (assemble wf vis rw).steps
      = (wf.steps.filter (fun st => decide (st.id ∈ vis))).map (rewriteStep rw)
      := rfl
  unfold upSpec
  rw [hof, hsf]
  congr 1
  · apply filter_filter_bind
    intro o _ hq
    have : o.id = x := by simpa using hq
    simpa using this ▸ hx
  · rw [map_bind_eq]
    have hdrop : ∀ st ∈ wf.steps, ¬ (decide (st.id ∈ vis)) = true →
        ((if (rewriteStep rw st).id = x then (rewriteStep rw st).srcIds else [])
        ++ (((rewriteStep rw st).outIds.filter (fun oid => oid = x)).map
          (fun _ => (rewriteStep rw st).id))) = [] := by
      intro st hst hno
      have hnv : st.id ∉ vis := by simpa using hno
      rw [rewriteStep_id, rewriteStep_outIds,
        if_neg (fun hc : st.id = x => hnv (by rw [hc]; exact hx)),
        List.nil_append, List.eq_nil_iff_forall_not_mem]
      intro y hy
      rcases List.mem_map.mp hy with ⟨oid, hoid, hyo⟩
      have hox : oid = x := by simpa using (List.mem_filter.mp hoid).2
      have hmem : st.id ∈ upSpec wf x := (mem_upSpec wf x st.id).mpr
        (Or.inr (Or.inr ⟨st, hst, hox ▸ (List.mem_filter.mp hoid).1, rfl⟩))
      exact hnv (hsucc st.id hmem)
    rw [filter_bind_nil _ _ _ hdrop]
    apply bind_congr_mem
    intro st hst
    rw [rewriteStep_id, rewriteStep_outIds]
    congr 1
    by_cases hid : st.id = x
    · rw [if_pos hid, if_pos hid, srcIds_rewriteStep rw st (hscalar st hst)]
      apply map_rwSubst_id
      intro s hs e he hc
      have hmem : s ∈ upSpec wf x := (mem_upSpec wf x s).mpr
        (Or.inr (Or.inl ⟨st, hst, hid, hs⟩))
      exact hkeys e he (hc ▸ hsucc s hmem)
    · rw [if_neg hid, if_neg hid]

theorem edgesOf_assemble (wf : WfDoc) (vis : List String) (rw : RwTable)
    (d : Dir) (x : String)
    (hscalar : ∀ st ∈ wf.steps, scalarSourced st = true)
    (hx : x ∈ vis)
    (hkeys : ∀ e ∈ rw, e.key ∉ vis)
    (hrn : ∀ e ∈ rw, ¬ e.rn = x)
    (hsucc : ∀ y ∈ edgesOf (buildNodes wf) d x, y ∈ vis) :
    edgesOf (buildNodes (assemble wf vis rw)) d x
      = edgesOf (buildNodes wf) d x := by
  cases d with
  | down =>
    rw [edgesOf_down] at hsucc
    rw [edgesOf_down, edgesOf_down]
    exact downSpec_assemble wf vis rw x hscalar hx hkeys hrn hsucc
  | up =>
    rw [edgesOf_up] at hsucc
    rw [edgesOf_up, edgesOf_up]
    exact upSpec_assemble wf vis rw x hscalar hx hkeys hsucc

theorem assemble_eta (W : WfDoc) (vis2 : List String)
    (h1 : W.inputs.filter (fun i => decide (i.id ∈ vis2)) = W.inputs)
    (h2 : W.outputs.filter (fun o => decide (o.id ∈ vis2)) = W.outputs)
    (h3 : (W.steps.filter (fun st => decide (st.id ∈ vis2))).map
      (rewriteStep []) = W.steps) :
    assemble W vis2 [] = W := by
  unfold assemble
  rw [List.map_nil, List.append_nil, h1, h2, h3]

/-- Claim C5 amended: re-running `get_subgraph` on its own output is not
idempotent in general (see the counterexample: a kept list-valued
`source` is rebuilt from the rewire table, so its elements referencing
retained records are dropped and the inputs they kept alive disappear
from the second run).  Idempotence does hold for a pipeline whose step
sources are all scalar, whose roots are record identifiers, whose
record identifiers are mutually distinct and distinct from step
out-port identifiers, whose synthetic rewire names are fresh, and whose
first run recorded a rewire entry for every dangling non-input upstream
of a reached step: then a second extraction of the returned document
with the same roots reaches the same set, creates no rewire entries and
returns the identical document. -/
theorem subgraph_idempotent_scalar (lc lc2 : LC) (fuel fuel2 : Nat)
    (wf : WfDoc) (roots vd vis : List String) (rw : RwTable)
    (h : subgraphParts lc fuel wf roots = Except.ok (vd, vis, rw))
    (hscalar : ∀ st ∈ wf.steps, scalarSourced st = true)
    (hroots : ∀ r ∈ roots, r ∈ wf.inputIds ∨ r ∈ wf.outputIds ∨ r ∈ wf.stepIds)
    (hIS : ∀ x ∈ wf.stepIds, x ∉ wf.inputIds)
    (hOutIn : ∀ x ∈ wf.outputIds, x ∉ wf.inputIds)
    (hOS : ∀ x ∈ wf.stepIds, x ∉ wf.outputIds)
    (hPorts : ∀ x ∈ wf.stepOutIds, x ∉ wf.stepIds)
    (hfresh : ∀ e ∈ rw, e.rn ∉ declaredIds wf)
    (hcomplete : ∀ v ∈ vd, kindSpec wf v = some STEP →
      ∀ u ∈ upSpec wf v, u ∉ vd → ¬ kindSpec wf u = some INPUT →
        ∃ e ∈ rw, e.key = u) :
    getSubgraph lc2 fuel2 (assemble wf vis rw) roots
      = Except.ok (assemble wf vis rw)
    ∧ ∃ vis2, subgraphParts lc2 fuel2 (assemble wf vis rw) roots
      = Except.ok (vd, vis2, ([] : RwTable)) := by
  obtain ⟨hcls, hv, hl⟩ := subgraphParts_inv _ _ _ _ _ _ _ h
  have hvdvis : ∀ x ∈ vd, x ∈ vis :=
    rewireLoop_rem_mem _ _ _ _ _ _ _ _ _ hl
  have hvisinv := rewireLoop_vis_inv _ _ _ _ _ _ _ _ _ hl
  have hrwinv := rewireLoop_rw_inv _ _ _ _ _ _ _ _ _ hl
  have hgood : rwGood rw := rewireLoop_rw_good _ _ _ _ _ _ _ _ _ hl
    ⟨List.nodup_nil, fun e he => absurd he (List.not_mem_nil e)⟩
  have hkeyprops : ∀ e ∈ rw, e.key ∉ vd
      ∧ ¬ (mapFind (buildNodes wf) e.key).bind (fun n => n.type)
        = some INPUT := by
    intro e he
    rcases hrwinv e he with h0 | ⟨v, _, _, _, hk1, hk2⟩
    · cases h0
    · exact ⟨hk1, hk2⟩
  have hvd_decl : ∀ x ∈ vd, x ∈ declaredIds wf := by
    intro x hx
    rcases visitRoots_added_inv _ _ _ _ hv x hx with h0 | hxr | ⟨d, z, hz⟩
    · cases h0
    · rcases hroots x hxr with h1 | h1 | h1
      · exact (mem_declared wf x).mpr (Or.inl h1)
      · exact (mem_declared wf x).mpr (Or.inr (Or.inl h1))
      · exact (mem_declared wf x).mpr (Or.inr (Or.inr (Or.inr (Or.inl h1))))
    · exact edgesOf_sub_declared wf d z x hz
  have hvis_decl : ∀ x ∈ vis, x ∈ declaredIds wf := by
    intro x hx
    rcases hvisinv x hx with h0 | hxvd | ⟨v, _, _, _, _, hk⟩
    · cases h0
    · exact hvd_decl x hxvd
    · exact (mem_declared wf x).mpr (Or.inl ((nodeKind_input_iff wf x).mp hk))
  have hkeys_vis : ∀ e ∈ rw, e.key ∉ vis := by
    intro e he hc
    rcases hvisinv e.key hc with h0 | hxvd | ⟨v, _, _, _, _, hk⟩
    · cases h0
    · exact (hkeyprops e he).1 hxvd
    · exact (hkeyprops e he).2 hk
  have hnotE1input : ∀ z, z ∈ declaredIds wf → z ∉ wf.inputIds →
      z ∉ (assemble wf vis rw).inputIds := by
    intro z hzd hzni hc
    rcases (assemble_inputIds_mem wf vis rw z).mp hc with ⟨h1, _⟩ | ⟨e, he, hrn⟩
    · exact hzni h1
    · rw [← hrn] at hzd
      exact hfresh e he hzd
  have hstep2 : ∀ v, v ∈ vd →
      (mapFind (buildNodes wf) v).bind (fun n => n.type) = some STEP →
      (mapFind (buildNodes (assemble wf vis rw)) v).bind (fun n => n.type)
        = some STEP := by
    intro v hvvd hk
    obtain ⟨hni, hno, hst⟩ := (nodeKind_step_iff wf v).mp hk
    refine (nodeKind_step_iff _ v).mpr
      ⟨hnotE1input v (hvd_decl v hvvd) hni, ?_,
        (assemble_stepIds_mem wf vis rw v).mpr ⟨hst, hvdvis v hvvd⟩⟩
    intro hc
    exact hno ((assemble_outputIds_mem wf vis rw v).mp hc).1
  have hout2 : ∀ v, v ∈ vd →
      (mapFind (buildNodes wf) v).bind (fun n => n.type) = some OUTPUT →
      (mapFind (buildNodes (assemble wf vis rw)) v).bind (fun n => n.type)
        = some OUTPUT := by
    intro v hvvd hk
    obtain ⟨hni, ho⟩ := (nodeKind_output_iff wf v).mp hk
    exact (nodeKind_output_iff _ v).mpr
      ⟨hnotE1input v (hvd_decl v hvvd) hni,
        (assemble_outputIds_mem wf vis rw v).mpr ⟨ho, hvdvis v hvvd⟩⟩
  have hinp2 : ∀ z, z ∈ wf.inputIds → z ∈ vis →
      (mapFind (buildNodes (assemble wf vis rw)) z).bind (fun n => n.type)
        = some INPUT :=
    fun z h1 h2 => (nodeKind_input_iff _ z).mpr
      ((assemble_inputIds_mem wf vis rw z).mpr (Or.inl ⟨h1, h2⟩))
  have hinp2rn : ∀ e ∈ rw,
      (mapFind (buildNodes (assemble wf vis rw)) e.rn).bind (fun n => n.type)
        = some INPUT :=
    fun e he => (nodeKind_input_iff _ e.rn).mpr
      ((assemble_inputIds_mem wf vis rw e.rn).mpr (Or.inr ⟨e, he, rfl⟩))
  -- The walk over the extracted document visits exactly the same set.
  have hv2 : visitRoots (buildNodes (assemble wf vis rw)) roots []
      = Except.ok vd := by
    apply visitRoots_congr (buildNodes wf) _ roots [] vd hv
    · intro r hr
      have hrd : r ∈ declaredIds wf := by
        rcases hroots r hr with h1 | h1 | h1
        · exact (mem_declared wf r).mpr (Or.inl h1)
        · exact (mem_declared wf r).mpr (Or.inr (Or.inl h1))
        · exact (mem_declared wf r).mpr (Or.inr (Or.inr (Or.inr (Or.inl h1))))
      have hrvd : r ∈ vd := visitRoots_roots_mem _ _ _ _ hv r hr
      have hrvis : r ∈ vis := hvdvis r hrvd
      have hrd2 : r ∈ declaredIds (assemble wf vis rw) := by
        rcases hroots r hr with h1 | h1 | h1
        · exact (mem_declared _ r).mpr (Or.inl
            ((assemble_inputIds_mem wf vis rw r).mpr (Or.inl ⟨h1, hrvis⟩)))
        · exact (mem_declared _ r).mpr (Or.inr (Or.inl
            ((assemble_outputIds_mem wf vis rw r).mpr ⟨h1, hrvis⟩)))
        · exact (mem_declared _ r).mpr (Or.inr (Or.inr (Or.inr (Or.inl
            ((assemble_stepIds_mem wf vis rw r).mpr ⟨h1, hrvis⟩)))))
      refine ⟨_, _, by rw [buildNodes_find, if_pos hrd],
        by rw [buildNodes_find, if_pos hrd2], ?_⟩
      show kindSpec wf r = some OUTPUT ↔ kindSpec (assemble wf vis rw) r
        = some OUTPUT
      rw [kindSpec_output_iff, kindSpec_output_iff]
      constructor
      · rintro ⟨hni, ho⟩
        exact ⟨hnotE1input r hrd hni,
          (assemble_outputIds_mem wf vis rw r).mpr ⟨ho, hrvis⟩⟩
      · rintro ⟨hni2, ho2⟩
        refine ⟨?_, ((assemble_outputIds_mem wf vis rw r).mp ho2).1⟩
        intro hc
        exact hni2 ((assemble_inputIds_mem wf vis rw r).mpr
          (Or.inl ⟨hc, hrvis⟩))
    · intro d x _ hxvd hcl
      refine edgesOf_assemble wf vis rw d x hscalar (hvdvis x hxvd)
        hkeys_vis ?_ ?_
      · intro e he hc
        have hd := hfresh e he
        rw [hc] at hd
        exact hd (hvd_decl x hxvd)
      · exact fun y hy => hvdvis y (hcl y hy)
  -- The second rewiring pass succeeds and records nothing.
  have hok : ∀ v ∈ vd,
      (mapFind (buildNodes (assemble wf vis rw)) v).bind (fun n => n.type)
        = some STEP →
      ∀ u ∈ ((mapFind (buildNodes (assemble wf vis rw)) v).map
          NodeRec.up).getD [],
        u ∈ vd
        ∨ (mapFind (buildNodes (assemble wf vis rw)) u).bind (fun n => n.type)
          = some INPUT := by
    intro v hvvd hkstep u hu
    obtain ⟨hvni2, hvno2, hvst2⟩ := (nodeKind_step_iff _ v).mp hkstep
    obtain ⟨hvst, hvvis⟩ := (assemble_stepIds_mem wf vis rw v).mp hvst2
    rw [upGetD_eq, edgesOf_up] at hu
    rcases (mem_upSpec _ v u).mp hu with ⟨o, ho, hoid, _⟩
      | ⟨st2, hst2, hsid, husrc⟩ | ⟨st2, hst2, hvo, huid⟩
    · exfalso
      have := ((assemble_outputs_mem wf vis rw o).mp ho).1
      exact hOS v hvst (hoid ▸ List.mem_map_of_mem OutputRec.id this)
    · rcases (assemble_steps_mem wf vis rw st2).mp hst2 with ⟨st0, hst0, _, heq⟩
      rw [heq, srcIds_rewriteStep rw st0 (hscalar st0 hst0)] at husrc
      rcases List.mem_map.mp husrc with ⟨u0, hu0, hsub⟩
      have hsid0 : st0.id = v := by
        rw [heq, rewriteStep_id] at hsid
        exact hsid
      have husp : u0 ∈ upSpec wf v :=
        (mem_upSpec wf v u0).mpr (Or.inr (Or.inl ⟨st0, hst0, hsid0, hu0⟩))
      by_cases hu0vd : u0 ∈ vd
      · left
        have hfind : rwFind rw u0 = none :=
          rwFind_eq_none rw u0 (fun e he hc => (hkeyprops e he).1 (hc ▸ hu0vd))
        rw [← hsub]
        unfold rwSubst
        rw [hfind]
        exact hu0vd
      · by_cases hki : kindSpec wf u0 = some INPUT
        · right
          have hu0in : u0 ∈ wf.inputIds := (kindSpec_input_iff wf u0).mp hki
          have hfind : rwFind rw u0 = none := by
            apply rwFind_eq_none
            intro e he hc
            exact (hkeyprops e he).2 (by
              rw [hc]
              exact (nodeKind_input_iff wf u0).mpr hu0in)
          have hueq : u = u0 := by
            rw [← hsub]
            unfold rwSubst
            rw [hfind]
          have hvstep1 : (mapFind (buildNodes wf) v).bind (fun n => n.type)
              = some STEP := (nodeKind_step_iff wf v).mpr
            ⟨hIS v hvst, hOS v hvst, hvst⟩
          have hu0vis : u0 ∈ vis :=
            rewireLoop_input_mem _ _ _ _ _ _ _ _ _ hl v hvvd
              (Or.inl hvstep1) u0
              (by rw [upGetD_eq, edgesOf_up]; exact husp) hu0vd
              ((nodeKind_input_iff wf u0).mpr hu0in)
          rw [hueq]
          exact hinp2 u0 hu0in hu0vis
        · right
          obtain ⟨e, he, hekey⟩ := hcomplete v hvvd
            ((kindSpec_step_iff wf v).mpr ⟨hIS v hvst, hOS v hvst, hvst⟩)
            u0 husp hu0vd hki
          have hfind : rwFind rw u0 = some e := by
            have := rwFind_self rw e hgood.1 he
            rw [hekey] at this
            exact this
          have hueq : u = e.rn := by
            rw [← hsub]
            unfold rwSubst
            rw [hfind]
          rw [hueq]
          exact hinp2rn e he
    · exfalso
      rcases (assemble_steps_mem wf vis rw st2).mp hst2 with ⟨st0, hst0, _, heq⟩
      rw [heq, rewriteStep_outIds] at hvo
      exact hPorts v (List.mem_bind.mpr ⟨st0, hst0, hvo⟩) hvst
  obtain ⟨vis2, hloop2⟩ := rewireLoop_total lc2 fuel2 (assemble wf vis rw)
    (buildNodes (assemble wf vis rw)) vd vd hok [] []
  have hparts2 : subgraphParts lc2 fuel2 (assemble wf vis rw) roots
      = Except.ok (vd, vis2, []) := by
    unfold subgraphParts
    rw [if_neg (fun hc => hc (by rw [assemble_cls, hcls]))]
    simp only [hv2, hloop2]
  -- Everything the first run kept is kept again.
  have hvd_vis2 : ∀ x ∈ vd, x ∈ vis2 :=
    rewireLoop_rem_mem _ _ _ _ _ _ _ _ _ hloop2
  have hvis_vis2 : ∀ x ∈ vis, x ∈ vis2 := by
    intro x hx
    rcases hvisinv x hx with h0 | hxvd | ⟨v, hvvd, hvt, hxup, hxnvd, hxink⟩
    · cases h0
    · exact hvd_vis2 x hxvd
    · have hxin : x ∈ wf.inputIds := (nodeKind_input_iff wf x).mp hxink
      have hvvis : v ∈ vis := hvdvis v hvvd
      rw [upGetD_eq, edgesOf_up] at hxup
      have hxsub : rwSubst rw x = x :=
        rwSubst_id rw x (fun e he hc => hkeys_vis e he (hc ▸ hx))
      have hk2 : (mapFind (buildNodes (assemble wf vis rw)) x).bind
          (fun n => n.type) = some INPUT := hinp2 x hxin hx
      have hupE1 : x ∈ upSpec (assemble wf vis rw) v := by
        rcases hvt with hstep | hout
        · obtain ⟨hvni, hvno, hvst⟩ := (nodeKind_step_iff wf v).mp hstep
          rcases (mem_upSpec wf v x).mp hxup with ⟨o, ho, hoid, _⟩
            | ⟨st0, hst0, hsid, hxsrc⟩ | ⟨st0, hst0, _, hxid⟩
          · exact absurd (hoid ▸ List.mem_map_of_mem OutputRec.id ho) hvno
          · refine (mem_upSpec _ v x).mpr (Or.inr (Or.inl
              ⟨rewriteStep rw st0,
                (assemble_steps_mem wf vis rw _).mpr
                  ⟨st0, hst0, hsid ▸ hvvis, rfl⟩,
                by rw [rewriteStep_id]; exact hsid, ?_⟩))
            rw [srcIds_rewriteStep rw st0 (hscalar st0 hst0)]
            exact List.mem_map.mpr ⟨x, hxsrc, hxsub⟩
          · exact absurd hxin
              (hIS x (hxid ▸ List.mem_map_of_mem Step.id hst0))
        · obtain ⟨hvni, hvo⟩ := (nodeKind_output_iff wf v).mp hout
          rcases (mem_upSpec wf v x).mp hxup with ⟨o, ho, hoid, hxos⟩
            | ⟨st0, hst0, hsid, _⟩ | ⟨st0, hst0, _, hxid⟩
          · exact (mem_upSpec _ v x).mpr (Or.inl
              ⟨o, (assemble_outputs_mem wf vis rw o).mpr
                ⟨ho, by rw [hoid]; exact hvvis⟩, hoid, hxos⟩)
          · exact absurd hvo
              (hOS v (hsid ▸ List.mem_map_of_mem Step.id hst0))
          · exact absurd hxin
              (hIS x (hxid ▸ List.mem_map_of_mem Step.id hst0))
      have hvt2 : (mapFind (buildNodes (assemble wf vis rw)) v).bind
            (fun n => n.type) = some STEP
          ∨ (mapFind (buildNodes (assemble wf vis rw)) v).bind
            (fun n => n.type) = some OUTPUT := by
        rcases hvt with hstep | hout
        · exact Or.inl (hstep2 v hvvd hstep)
        · exact Or.inr (hout2 v hvvd hout)
      exact rewireLoop_input_mem _ _ _ _ _ _ _ _ _ hloop2 v hvvd hvt2 x
        (by rw [upGetD_eq, edgesOf_up]; exact hupE1) hxnvd hk2
  have hrn_vis2 : ∀ e ∈ rw, e.rn ∈ vis2 := by
    intro e he
    rcases hrwinv e he with h0 | ⟨v, hvvd, hvstep, hkup, hknvd, _⟩
    · cases h0
    · have hvvis : v ∈ vis := hvdvis v hvvd
      obtain ⟨hvni, hvno, hvst⟩ := (nodeKind_step_iff wf v).mp hvstep
      rw [upGetD_eq, edgesOf_up] at hkup
      have hrn_nvd : e.rn ∉ vd :=
        fun hc => hfresh e he (hvd_decl e.rn hc)
      rcases (mem_upSpec wf v e.key).mp hkup with ⟨o, ho, hoid, _⟩
        | ⟨st0, hst0, hsid, hksrc⟩ | ⟨st0, hst0, hvo, _⟩
      · exact absurd (hoid ▸ List.mem_map_of_mem OutputRec.id ho) hvno
      · have hrnup : e.rn ∈ upSpec (assemble wf vis rw) v := by
          refine (mem_upSpec _ v e.rn).mpr (Or.inr (Or.inl
            ⟨rewriteStep rw st0,
              (assemble_steps_mem wf vis rw _).mpr
                ⟨st0, hst0, hsid ▸ hvvis, rfl⟩,
              by rw [rewriteStep_id]; exact hsid, ?_⟩))
          rw [srcIds_rewriteStep rw st0 (hscalar st0 hst0)]
          refine List.mem_map.mpr ⟨e.key, hksrc, ?_⟩
          unfold rwSubst
          rw [rwFind_self rw e hgood.1 he]
        exact rewireLoop_input_mem _ _ _ _ _ _ _ _ _ hloop2 v hvvd
          (Or.inl (hstep2 v hvvd hvstep)) e.rn
          (by rw [upGetD_eq, edgesOf_up]; exact hrnup) hrn_nvd (hinp2rn e he)
      · exact absurd hvst (hPorts v (List.mem_bind.mpr ⟨st0, hst0, hvo⟩))
  -- The second assembly reproduces the document unchanged.
  have hassem : assemble (assemble wf vis rw) vis2 [] = assemble wf vis rw := by
    have h1 : (assemble wf vis rw).inputs.filter
        (fun i => decide (i.id ∈ vis2)) = (assemble wf vis rw).inputs := by
      apply List.filter_eq_self.mpr
      intro i hi
      have hfield : (assemble wf vis rw).inputs
          = wf.inputs.filter (fun i => decide (i.id ∈ vis))
            ++ rw.map (fun e => InputRec.mk e.rn e.tp none) := rfl
      rw [hfield] at hi
      rcases List.mem_append.mp hi with h2 | h2
      · have h3 := List.mem_filter.mp h2
        exact by simpa using hvis_vis2 i.id (by simpa using h3.2)
      · rcases List.mem_map.mp h2 with ⟨e, he, heq⟩
        have : i.id = e.rn := by rw [← heq]
        exact by simpa [this] using hrn_vis2 e he
    have h2 : (assemble wf vis rw).outputs.filter
        (fun o => decide (o.id ∈ vis2)) = (assemble wf vis rw).outputs := by
      apply List.filter_eq_self.mpr
      intro o ho
      obtain ⟨how, hovis⟩ := (assemble_outputs_mem wf vis rw o).mp ho
      have hovd : o.id ∈ vd := by
        rcases hvisinv o.id hovis with h0 | h3 | ⟨v, _, _, _, _, hk⟩
        · cases h0
        · exact h3
        · exact absurd ((nodeKind_input_iff wf o.id).mp hk)
            (hOutIn o.id (List.mem_map_of_mem OutputRec.id how))
      exact by simpa using hvd_vis2 o.id hovd
    have h3 : ((assemble wf vis rw).steps.filter
        (fun st => decide (st.id ∈ vis2))).map (rewriteStep [])
        = (assemble wf vis rw).steps := by
      have hall : ∀ st2 ∈ (assemble wf vis rw).steps, st2.id ∈ vis2 := by
        intro st2 hst2
        rcases (assemble_steps_mem wf vis rw st2).mp hst2
          with ⟨st0, hst0, hvis0, heq⟩
        have hid : st2.id = st0.id := by rw [heq, rewriteStep_id]
        have hvd0 : st0.id ∈ vd := by
          rcases hvisinv st0.id hvis0 with h0 | h4 | ⟨v, _, _, _, _, hk⟩
          · cases h0
          · exact h4
          · exact absurd ((nodeKind_input_iff wf st0.id).mp hk)
              (hIS st0.id (List.mem_map_of_mem Step.id hst0))
        rw [hid]
        exact hvd_vis2 st0.id hvd0
      rw [List.filter_eq_self.mpr (fun st2 hst2 => by
        simpa using hall st2 hst2)]
      have hid : ∀ st2 ∈ (assemble wf vis rw).steps,
          rewriteStep [] st2 = st2 := by
        intro st2 hst2
        rcases (assemble_steps_mem wf vis rw st2).mp hst2
          with ⟨st0, hst0, _, heq⟩
        apply rewriteStep_nil
        rw [heq]
        exact scalarSourced_rewriteStep rw st0 (hscalar st0 hst0)
      rw [List.map_congr_left hid]
      simp
    exact assemble_eta (assemble wf vis rw) vis2 h1 h2 h3
  refine ⟨?_, ⟨vis2, hparts2⟩⟩
  have := getSubgraph_of_parts lc2 fuel2 (assemble wf vis rw) roots vd vis2 []
    hparts2
  rw [hassem] at this
  exact this

def c5WitWf : WfDoc :=
  { cls := "Workflow", docId := "W", cwlVersion := some "v1.2",
    inputs := [],
    outputs := [],
    steps := [Step.mk "W#A"
      [InPort.mk "W#A/in" (some (SourceField.scalar "W#up/o")) "File" none none]
      [OutEntry.plain "W#A/o"] Run.embeddedOther],
    others := [] }

/-- Witness for C5: a scalar-sourced pipeline whose one dangling
dependency was rewired; extracting the returned document again returns
it unchanged. -/
theorem subgraph_idempotent_scalar_witness :
    subgraphParts ⟨[]⟩ 9 c5WitWf ["W#A"]
      = Except.ok (["W#A", "W#A/o"], ["W#A", "W#A/o"],
          [RwEntry.mk "W#up/o" "W#up_o" "File"])
    ∧ getSubgraph ⟨[]⟩ 9
        (assemble c5WitWf ["W#A", "W#A/o"]
          [RwEntry.mk "W#up/o" "W#up_o" "File"]) ["W#A"]
      = Except.ok (assemble c5WitWf ["W#A", "W#A/o"]
          [RwEntry.mk "W#up/o" "W#up_o" "File"]) := by
  have h : subgraphParts ⟨[]⟩ 9 c5WitWf ["W#A"]
      = Except.ok (["W#A", "W#A/o"], ["W#A", "W#A/o"],
          [RwEntry.mk "W#up/o" "W#up_o" "File"]) := by
    simp [c5WitWf, subgraphParts, visitRoots, dfsVisit, edgesOf, dirFor,
      buildNodes, declSteps, declOutputs, declInputs, declSrcEdges, declOutEdges,
      srcEdge, outEdge, declareNode, pushUp, pushDown, mapSet, mapFind, Step.srcIds,
      Step.outIds, Step.id, Step.inPorts, Step.outs, OutEntry.outId, asListOS,
      asListSF, INPUT, OUTPUT, STEP, rewireLoop, rewireUps, setAdd, sfContains,
      hasSub, scanPorts, flattenId, urldefrag, splitOnChar, charReplace, rwSet,
      rwFind, findStep, strStarts, strDrop, strlen]
    try decide
  refine ⟨h, ?_⟩
  exact (subgraph_idempotent_scalar ⟨[]⟩ ⟨[]⟩ 9 9 c5WitWf ["W#A"] _ _ _ h
    (by decide) (by decide) (by decide) (by decide) (by decide) (by decide)
    (by decide) (by decide)).1

end Subgraph
